import Mathlib

/-! # youcast: a channel feed turned into a podcast

A shallow embedding of `src/youcast.go` and the statements of its
specification settled on it.

* Strings of Go are `String`; their bytes are the characters of the list.
* `int64` and `uint64` are `Int` and `Nat`, reduced modulo `2 ^ 64` where the
  source can overflow.
* `float64` is `ℚ` with every operation rounded to 53 bits of significand
  (`f64`), to nearest, ties to even.
* What Process takes from outside (the clock, the network, the disk, the two
  programs it runs, the functions of package time on dates) is a `World`.
* The disk is the list of the files and directories below the working
  directory. Paths are looked up element by element, as the system does, and
  `filepath.Glob`, `filepath.Match`, `filepath.Clean` are the functions of the
  library for a system whose separator is the slash.
-/

namespace Youcast


/-! ## float64

A float64 is modelled by the rational it stands for. Every operation of the
source on float64 is the exact operation on rationals followed by `f64`, the
rounding to 53 bits of significand, to nearest, ties to even. The range of the
exponent is not modelled: the values the program computes are integers below
2 ^ 64, quotients of such integers by a power of ten, and sums and products of
these; where one of them would leave the range of a float64 it is, in Go as
here, a fraction that the conversion to an integer truncates to 0. -/

/-- The integer nearest to q, the even one of two at the same distance. -/
def roundHalfEven (q : ℚ) : ℤ :=
  if q - ⌊q⌋ < 1 / 2 then ⌊q⌋
  else if 1 / 2 < q - ⌊q⌋ then ⌊q⌋ + 1
  else if ⌊q⌋ % 2 = 0 then ⌊q⌋ else ⌊q⌋ + 1

/-- The floor of log2 n, for n ≥ 1, by halving. -/
def natLog2 : Nat → Nat → Nat
  | 0, _ => 0
  | fuel + 1, n => if n < 2 then 0 else natLog2 fuel (n / 2) + 1

/-- The least k with b ≤ a * 2 ^ k, for a ≥ 1, by doubling. -/
def shiftUp : Nat → Nat → Nat → Nat
  | 0, _, _ => 0
  | fuel + 1, a, b => if b ≤ a then 0 else shiftUp fuel (2 * a) b + 1

/-- The binary exponent of q ≠ 0: the L with 2 ^ L ≤ |q| < 2 ^ (L + 1). -/
def log2Floor (q : ℚ) : ℤ :=
  if q.den ≤ q.num.natAbs then (natLog2 q.num.natAbs (q.num.natAbs / q.den) : ℤ)
  else - (shiftUp q.den q.num.natAbs q.den : ℤ)

/-- The unit in the last place of the float64 nearest to q: 53 bits of
significand. -/
def f64ulp (q : ℚ) : ℚ := 2 ^ (log2Floor q - 52)

/-- The float64 nearest to q: q rounded to a multiple of its unit in the last
place. The conversion float64(n) of an integer, and the rounding of every
operation on float64. -/
@[irreducible]
def f64 (q : ℚ) : ℚ :=
  if q = 0 then 0 else roundHalfEven (q / f64ulp q) * f64ulp q

/-- The conversions int64(x) and uint64(x) of a float64 within range: the
fraction is dropped, towards zero. -/
def f64trunc (q : ℚ) : ℤ := if 0 ≤ q then ⌊q⌋ else ⌈q⌉



/-- A value with a significand below 2 ^ 53: a float64 exactly. -/
def Float53 (r : ℚ) : Prop := ∃ m : ℕ, ∃ k : ℤ, m < 2 ^ 53 ∧ r = m * 2 ^ k


/-! ## package time: Duration -/

/-- time.Second, in nanoseconds. -/
def Second : Int := 1000000000
/-- time.Minute, in nanoseconds. -/
def Minute : Int := 60 * Second
/-- time.Hour, in nanoseconds. -/
def Hour : Int := 60 * Minute

/-- Duration.Seconds: sec := d / Second; nsec := d % Second;
float64(sec) + float64(nsec)/1e9. -/
def durSeconds (d : Int) : ℚ :=
  f64 (f64 (d.tdiv Second) + f64 (f64 (d.tmod Second) / 1000000000))

/-- Duration.Minutes: min := d / Minute; nsec := d % Minute;
float64(min) + float64(nsec)/(60*1e9). -/
def durMinutes (d : Int) : ℚ :=
  f64 (f64 (d.tdiv Minute) + f64 (f64 (d.tmod Minute) / 60000000000))

/-- Duration.Hours: hour := d / Hour; nsec := d % Hour;
float64(hour) + float64(nsec)/(60*60*1e9). -/
def durHours (d : Int) : ℚ :=
  f64 (f64 (d.tdiv Hour) + f64 (f64 (d.tmod Hour) / 3600000000000))

/-- The verb %02d of fmt on an int64, as characters: the decimal digits,
zero-padded to width 2, the sign counting for one column. -/
def fmt02dChars (v : Int) : List Char :=
  let digits := Nat.toDigits 10 v.natAbs
  let prec := if v < 0 then 1 else 2
  let padded := List.replicate (prec - digits.length) '0' ++ digits
  if v < 0 then '-' :: padded else padded

/-- The function formatDurationHMS:
h := int64(d.Hours()); m := int64(d.Minutes()) % 60; s := int64(d.Seconds()) % 60;
fmt.Sprintf("%02d:%02d:%02d", h, m, s). -/
def formatDurationHMS (d : Int) : String :=
  String.mk (fmt02dChars (f64trunc (durHours d)) ++ ':' ::
    fmt02dChars ((f64trunc (durMinutes d)).tmod 60) ++ ':' ::
    fmt02dChars ((f64trunc (durSeconds d)).tmod 60))

/-- A natural number in decimal, with a leading zero when it has one digit. -/
def twoDigits (n : Nat) : String :=
  if n < 10 then "0" ++ Nat.repr n else Nat.repr n


/-- An int64 from its two-complement bit pattern. -/
def toInt64 (n : Int) : Int := (n + 2 ^ 63) % 2 ^ 64 - 2 ^ 63

/-- leadingInt of package time: consumes [0-9]*, none on overflow past 1<<63. -/
def leadingInt : List Char → Nat → Option (Nat × List Char)
  | [], x => some (x, [])
  | c :: cs, x =>
    if c < '0' ∨ '9' < c then some (x, c :: cs)
    else if x > 2 ^ 63 / 10 then none
    else if x * 10 + (c.toNat - 48) > 2 ^ 63 then none
    else leadingInt cs (x * 10 + (c.toNat - 48))

/-- leadingFraction of package time: consumes [0-9]*, returning the digits read
as an integer x and the float64 scale with value = x/scale; digits past the
first overflow are dropped. -/
def leadingFraction : List Char → Nat → ℚ → Bool → Nat × ℚ × List Char
  | [], x, scale, _ => (x, scale, [])
  | c :: cs, x, scale, overflow =>
    if c < '0' ∨ '9' < c then (x, scale, c :: cs)
    else if overflow then leadingFraction cs x scale true
    else if x > (2 ^ 63 - 1) / 10 then leadingFraction cs x scale true
    else if x * 10 + (c.toNat - 48) > 2 ^ 63 then leadingFraction cs x scale true
    else leadingFraction cs (x * 10 + (c.toNat - 48)) (f64 (scale * 10)) false

/-- unitMap of package time. -/
def unitMap (u : List Char) : Option Nat :=
  if u = ['n', 's'] then some 1
  else if u = ['u', 's'] then some 1000
  else if u = ['µ', 's'] then some 1000
  else if u = ['μ', 's'] then some 1000
  else if u = ['m', 's'] then some 1000000
  else if u = ['s'] then some 1000000000
  else if u = ['m'] then some 60000000000
  else if u = ['h'] then some 3600000000000
  else none

/-- The test c == '.' || '0' <= c && c <= '9' of ParseDuration. -/
def isDigitOrDot (c : Char) : Bool := c = '.' ∨ ('0' ≤ c ∧ c ≤ '9')

/-- The nanoseconds of a fraction: uint64(float64(f) * (float64(unit) / scale)). -/
def fracNanos (f : Nat) (unit : Nat) (scale : ℚ) : Nat :=
  (f64trunc (f64 (f64 (f : ℚ) * f64 (f64 (unit : ℚ) / scale)))).toNat

/-- The arithmetic that ends one pass of the loop of ParseDuration: the group
v (integer part), f (fraction digits, frac their nanoseconds) of the given unit
is added to d; none on overflow. -/
def addGroup (d v unit f frac : Nat) : Option Nat :=
  if v > 2 ^ 63 / unit then none else
  let v1 := v * unit
  let v2 := if f > 0 then (v1 + frac) % 2 ^ 64 else v1
  if f > 0 ∧ v2 > 2 ^ 63 then none else
  let d1 := (d + v2) % 2 ^ 64
  if d1 > 2 ^ 63 then none else some d1

/-- One pass of the loop of ParseDuration: a number, an optional fraction and a
unit are taken off s and added to d. -/
def parseGroup (s : List Char) (d : Nat) : Option (Nat × List Char) :=
  match s with
  | [] => none
  | c :: _ =>
    if ¬ isDigitOrDot c then none else
    match leadingInt s 0 with
    | none => none
    | some (v, s1) =>
      let pre := s.length ≠ s1.length
      let frac : Nat × ℚ × List Char × Bool :=
        match s1 with
        | '.' :: s2 =>
          let r := leadingFraction s2 0 1 false
          (r.1, r.2.1, r.2.2, decide (s2.length ≠ r.2.2.length))
        | _ => (0, 1, s1, false)
      let f := frac.1
      let scale := frac.2.1
      let s3 := frac.2.2.1
      let post := frac.2.2.2
      if ¬ pre ∧ ¬ post then none else
      let u := s3.takeWhile (fun c => ¬ isDigitOrDot c)
      let s4 := s3.dropWhile (fun c => ¬ isDigitOrDot c)
      if u = [] then none else
      match unitMap u with
      | none => none
      | some unit =>
        match addGroup d v unit f (fracNanos f unit scale) with
        | none => none
        | some d1 => some (d1, s4)

/-- The loop of ParseDuration, for s != "". Every pass takes at least one
character off s, so fuel above the length of s is never used up. -/
def parseGroups : Nat → List Char → Nat → Option Nat
  | 0, _, _ => none
  | fuel + 1, s, d =>
    if s = [] then some d else
    match parseGroup s d with
    | none => none
    | some (d1, s1) => parseGroups fuel s1 d1

/-- ParseDuration of package time; none stands for its error. -/
def ParseDuration (str : String) : Option Int :=
  let s0 := str.toList
  let neg := s0.head? = some '-'
  let s := match s0 with
    | '-' :: t => t
    | '+' :: t => t
    | _ => s0
  if s = ['0'] then some 0
  else if s = [] then none
  else match parseGroups (s.length + 1) s 0 with
    | none => none
    | some d =>
      if neg then some (toInt64 (- toInt64 d))
      else if d > 2 ^ 63 - 1 then none
      else some d

/-- lessThanHalf of package time: uint64(x)+uint64(x) < uint64(y). -/
def lessThanHalf (x y : Int) : Bool := (x % 2 ^ 64 + x % 2 ^ 64) % 2 ^ 64 < y % 2 ^ 64

/-- Duration.Round: d rounded to the nearest multiple of m, halfway values away
from zero; the extreme Duration when the result would overflow. -/
def durRound (d m : Int) : Int :=
  if m ≤ 0 then d else
  let r := d.tmod m
  if d < 0 then
    let r1 := -r
    if lessThanHalf r1 m then toInt64 (d + r1)
    else
      let d1 := toInt64 (d - m + r1)
      if d1 < d then d1 else - 2 ^ 63
  else
    if lessThanHalf r m then d - r
    else
      let d1 := toInt64 (d + m - r)
      if d1 > d then d1 else 2 ^ 63 - 1


/-! ## Strings and paths -/

-- Equality of results is decidable when that of errors and values is.
deriving instance DecidableEq for Except

/-- The first field of strings.Split(s, "\n"): s up to its first newline. -/
def firstLine (s : String) : String :=
  String.mk (s.toList.takeWhile (fun c => c ≠ '\n'))

/-- strings.TrimSuffix on byte sequences. -/
def trimSuffixChars (s suffix : List Char) : List Char :=
  if suffix.isSuffixOf s then s.take (s.length - suffix.length) else s

/-- strings.TrimSuffix. -/
def TrimSuffix (s suffix : String) : String :=
  String.mk (trimSuffixChars s.toList suffix.toList)

/-- The last element of a path, read backwards: the characters after the
last slash, last one first. -/
def lastElemRev (path : List Char) : List Char :=
  path.reverse.takeWhile (fun c => c ≠ '/')

/-- filepath.Base on byte sequences (Unix): trailing slashes are dropped, then
everything up to the last slash. -/
def baseChars (path : List Char) : List Char :=
  if path = [] then ['.'] else
  let p := (path.reverse.dropWhile (fun c => c = '/')).reverse
  let r := (lastElemRev p).reverse
  if r = [] then ['/'] else r

/-- filepath.Base. -/
def Base (path : String) : String := String.mk (baseChars path.toList)

/-- filepath.Ext on byte sequences: the suffix beginning at the last dot of the
last element of the path, empty if there is no dot. -/
def extChars (path : List Char) : List Char :=
  let t := lastElemRev path
  if '.' ∈ t then '.' :: (t.takeWhile (fun c => c ≠ '.')).reverse else []

/-- filepath.Ext. -/
def Ext (path : String) : String := String.mk (extChars path.toList)

/-- The id Process computes for a file found by Glob:
strings.TrimSuffix(filepath.Base(file), filepath.Ext(file)). -/
def fileStem (file : String) : String := TrimSuffix (Base file) (Ext file)

/-- Byte-wise lexicographic order, the order of sort.Strings. -/
def strLe : List Char → List Char → Bool
  | [], _ => true
  | _ :: _, [] => false
  | a :: as, b :: bs => if a < b then true else if b < a then false else strLe as bs

/-- An int64 printed by the verb %d (and by text/template). -/
def fmtInt (v : Int) : String :=
  String.mk (if v < 0 then '-' :: Nat.toDigits 10 v.natAbs else Nat.toDigits 10 v.natAbs)

/-- unicode.IsSpace, as strings.TrimSpace uses it. -/
def isSpace (c : Char) : Bool :=
  c = '\t' ∨ c = '\n' ∨ c.toNat = 11 ∨ c.toNat = 12 ∨ c = '\r' ∨ c = ' ' ∨
  c.toNat = 0x85 ∨ c.toNat = 0xA0 ∨ c.toNat = 0x1680 ∨
  (0x2000 ≤ c.toNat ∧ c.toNat ≤ 0x200a) ∨ c.toNat = 0x2028 ∨ c.toNat = 0x2029 ∨
  c.toNat = 0x202f ∨ c.toNat = 0x205f ∨ c.toNat = 0x3000

/-- strings.TrimSpace on byte sequences. -/
def trimSpaceChars (s : List Char) : List Char :=
  ((s.dropWhile isSpace).reverse.dropWhile isSpace).reverse

/-- The digits of strconv.ParseInt in base 10: every character a decimal digit,
no underscore. -/
def parseDigits : List Char → Nat → Option Nat
  | [], x => some x
  | c :: cs, x =>
    if '0' ≤ c ∧ c ≤ '9' then parseDigits cs (x * 10 + (c.toNat - 48)) else none

/-- strconv.ParseInt(s, 10, 64); none stands for its error (syntax or range). -/
def ParseInt64 (s : List Char) : Option Int :=
  let neg := s.head? = some '-'
  let body := match s with
    | '-' :: t => t
    | '+' :: t => t
    | _ => s
  if body = [] then none else
  match parseDigits body 0 with
  | none => none
  | some n =>
    if neg then (if n ≤ 2 ^ 63 then some (- (n : Int)) else none)
    else (if n < 2 ^ 63 then some (n : Int) else none)

/-! ## New: the channel URL -/

/-- YouCast represents podcast feed. -/
structure YouCast where
  id : String
  url : String
  deriving DecidableEq, Repr

/-- One position of the regular expression before its group: a literal
character, or the dot, which stands for any character but a newline. -/
inductive Atom where
  | lit (c : Char)
  | dot
  deriving DecidableEq, Repr

/-- The regular expression of New up to its group,
https://www.youtube.com/channel/ with its two dots unescaped. -/
def channelRegexp : List Atom :=
  "https://www".toList.map Atom.lit ++ [Atom.dot] ++ "youtube".toList.map Atom.lit ++
    [Atom.dot] ++ "com/channel/".toList.map Atom.lit

/-- The class [\w_-] of the group: ASCII letters, digits, underscore, hyphen. -/
def isIdChar (c : Char) : Bool :=
  ('0' ≤ c ∧ c ≤ '9') ∨ ('A' ≤ c ∧ c ≤ 'Z') ∨ ('a' ≤ c ∧ c ≤ 'z') ∨ c = '_' ∨ c = '-'

/-- Whether an atom matches a character. -/
def Atom.accepts : Atom → Char → Bool
  | Atom.lit c, x => x = c
  | Atom.dot, x => x ≠ '\n'

/-- The atoms matched one after the other at the head of s: what is left of s. -/
def matchAtoms : List Atom → List Char → Option (List Char)
  | [], s => some s
  | _ :: _, [] => none
  | a :: as, c :: cs => if a.accepts c then matchAtoms as cs else none

/-- The match of the whole expression at the head of s: the group ([\w_-]+) is
greedy and must take at least one character. -/
def matchHere (s : List Char) : Option (List Char) :=
  match matchAtoms channelRegexp s with
  | none => none
  | some rest =>
    if rest.takeWhile isIdChar = [] then none else some (rest.takeWhile isIdChar)

/-- The group of the leftmost match, reg.FindStringSubmatch(URL)[1]; none for
res == nil. -/
def findSubmatch : List Char → Option (List Char)
  | [] => matchHere []
  | c :: cs =>
    match matchHere (c :: cs) with
    | some g => some g
    | none => findSubmatch cs

/-- New creates new structure. -/
def New (URL : String) : Except String YouCast :=
  match findSubmatch URL.toList with
  | none => Except.error (URL ++ " does not contain youtube channel url")
  | some g => Except.ok { id := String.mk g, url := URL }

/-- The method String of YouCast. -/
def YouCast.String (cast : YouCast) : String := cast.id

/-- XMLURL returns an url to channel xml feed. -/
def XMLURL (cast : YouCast) : String :=
  "https://www.youtube.com/feeds/videos.xml?channel_id=" ++ cast.id

/-- What the claim of the spec reads New as looking for: the literal text
https://www.youtube.com/channel/ followed by a character of [A-Za-z0-9_-]. -/
def containsChannelURL (URL : String) : Prop :=
  ∃ pre c post, isIdChar c = true ∧
    URL.toList = pre ++ "https://www.youtube.com/channel/".toList ++ c :: post

/-! ## Package path/filepath (Unix)

Clean, Join, Split and Match as the library defines them for a system whose
separator is the slash. Match is translated loop by loop from match.go as it
stands since Go 1.16, where a pattern is checked to its end even when the match
has failed. -/

/-- The elements of a path: the texts between its slashes, empty ones
included. -/
def splitSlash : List Char → List (List Char)
  | [] => [[]]
  | c :: cs =>
    if c = '/' then [] :: splitSlash cs
    else
      match splitSlash cs with
      | [] => [[c]]
      | e :: es => (c :: e) :: es

/-- The elements of a path joined by slashes. -/
def joinSlash : List (List Char) → List Char
  | [] => []
  | e :: es =>
    match es with
    | [] => e
    | _ :: _ => e ++ '/' :: joinSlash es

/-- The loop of filepath.Clean over the elements of a path; stack holds the
elements written so far, last one first. An empty element and the element .
are dropped; the element .. takes back the element before it, is dropped at
the root, and is kept at the head of a path that is not rooted. -/
def cleanElems (rooted : Bool) : List (List Char) → List (List Char) → List (List Char)
  | [], stack => stack.reverse
  | e :: es, stack =>
    if e = [] ∨ e = ['.'] then cleanElems rooted es stack
    else if e = ['.', '.'] then
      match stack with
      | top :: below =>
        if top = ['.', '.'] then cleanElems rooted es (e :: stack)
        else cleanElems rooted es below
      | [] => if rooted then cleanElems rooted es [] else cleanElems rooted es [e]
    else cleanElems rooted es (e :: stack)

/-- filepath.Clean on byte sequences. -/
def cleanChars (path : List Char) : List Char :=
  if path = [] then ['.'] else
  if path.head? = some '/' then '/' :: joinSlash (cleanElems true (splitSlash path) [])
  else
    match cleanElems false (splitSlash path) [] with
    | [] => ['.']
    | e :: es => joinSlash (e :: es)

/-- filepath.Clean. -/
def Clean (path : String) : String := String.mk (cleanChars path.toList)

/-- filepath.Join(dir, n): the two elements joined by a slash, empty ones left
out, and the result cleaned. -/
def Join (dir n : String) : String :=
  if dir ≠ "" then Clean (dir ++ "/" ++ n)
  else if n ≠ "" then Clean n
  else ""

/-- filepath.Split: the path up to and with its last slash, and the rest. -/
def Split (path : String) : String × String :=
  (String.mk (path.toList.reverse.dropWhile (fun c => c ≠ '/')).reverse,
   String.mk (lastElemRev path.toList).reverse)

/-- The function cleanGlobPath of match.go: the directory of a pattern, for
glob. -/
def cleanGlobPath (path : String) : String :=
  if path = "" then "."
  else if path = "/" then path
  else String.mk (path.toList.take (path.toList.length - 1))

/-- The function hasMeta of match.go: whether the path holds one of the
characters * ? [ and the backslash. -/
def hasMeta (path : String) : Bool :=
  path.toList.any (fun c => c = '*' || c = '?' || c = '[' || c = '\\')

/-- The error ErrBadPattern. -/
def ErrBadPattern : String := "syntax error in pattern"

/-- The loop Scan of scanChunk: the length of the chunk that begins the
pattern, up to the first star outside a character class. -/
def scanLoop : List Char → Bool → Nat
  | [], _ => 0
  | c :: cs, inrange =>
    if c = '\\' then
      match cs with
      | [] => 1
      | _ :: cs2 => 2 + scanLoop cs2 inrange
    else if c = '[' then 1 + scanLoop cs true
    else if c = ']' then 1 + scanLoop cs false
    else if c = '*' then (if inrange then 1 + scanLoop cs inrange else 0)
    else 1 + scanLoop cs inrange

/-- The function scanChunk: whether the pattern begins with stars, the chunk
after them, and the rest of the pattern. -/
def scanChunk (pattern : List Char) : Bool × List Char × List Char :=
  let p := pattern.dropWhile (fun c => c = '*')
  (decide (pattern.head? = some '*'), p.take (scanLoop p false), p.drop (scanLoop p false))

/-- The function getEsc: a character of a character class, escaped or not, and
the chunk after it, which may not be empty. -/
def getEsc : List Char → Except String (Char × List Char)
  | [] => Except.error ErrBadPattern
  | c :: rest =>
    if c = '-' ∨ c = ']' then Except.error ErrBadPattern
    else
      match (if c = '\\' then rest else c :: rest) with
      | [] => Except.error ErrBadPattern
      | r :: nchunk =>
        if nchunk = [] then Except.error ErrBadPattern else Except.ok (r, nchunk)

/-- The loop of matchChunk over the ranges of a character class, the chunk
standing after the bracket and the negation sign: whether r is in one of the
ranges, and the chunk after the closing bracket. The fuel is never used up
when it exceeds the length of the chunk. -/
def classRanges (r : Char) : Nat → List Char → Bool → Nat → Except String (Bool × List Char)
  | 0, _, _, _ => Except.error ErrBadPattern
  | fuel + 1, chunk, matched, nrange =>
    if chunk.head? = some ']' ∧ nrange > 0 then Except.ok (matched, chunk.tail)
    else
      match getEsc chunk with
      | Except.error err => Except.error err
      | Except.ok (lo, chunk1) =>
        if chunk1.head? = some '-' then
          match getEsc chunk1.tail with
          | Except.error err => Except.error err
          | Except.ok (hi, chunk2) =>
            classRanges r fuel chunk2 (matched || (decide (lo ≤ r) && decide (r ≤ hi)))
              (nrange + 1)
        else
          classRanges r fuel chunk1 (matched || (decide (lo ≤ r) && decide (r ≤ lo)))
            (nrange + 1)

/-- The loop of matchChunk: chunk is matched against the beginning of s. Once
the match has failed the loop goes on through the chunk, to check that it is
well-formed, without reading s. The result is the rest of s, none when the
match fails. The fuel is never used up when it exceeds the length of the
chunk. -/
def matchChunkLoop : Nat → List Char → List Char → Bool → Except String (Option (List Char))
  | 0, _, _, _ => Except.error ErrBadPattern
  | fuel + 1, chunk, s, failed0 =>
    match chunk with
    | [] => Except.ok (if failed0 then none else some s)
    | c :: chunk1 =>
      let failed := failed0 || s.isEmpty
      if c = '[' then
        let r := if failed then Char.ofNat 0 else s.headD (Char.ofNat 0)
        let s1 := if failed then s else s.tail
        let negated := decide (chunk1.head? = some '^')
        let chunk2 := if negated then chunk1.tail else chunk1
        match classRanges r (chunk2.length + 1) chunk2 false 0 with
        | Except.error err => Except.error err
        | Except.ok (matched, chunk3) =>
          matchChunkLoop fuel chunk3 s1 (failed || (matched == negated))
      else if c = '?' then
        if failed then matchChunkLoop fuel chunk1 s failed
        else matchChunkLoop fuel chunk1 s.tail (decide (s.head? = some '/'))
      else if c = '\\' then
        match chunk1 with
        | [] => Except.error ErrBadPattern
        | c2 :: chunk2 =>
          if failed then matchChunkLoop fuel chunk2 s failed
          else matchChunkLoop fuel chunk2 s.tail (decide (s.head? ≠ some c2))
      else
        if failed then matchChunkLoop fuel chunk1 s failed
        else matchChunkLoop fuel chunk1 s.tail (decide (s.head? ≠ some c))

/-- The function matchChunk: whether chunk matches the beginning of s, and the
rest of s if so. -/
def matchChunk (chunk s : List Char) : Except String (Option (List Char)) :=
  matchChunkLoop (chunk.length + 1) chunk s false

/-- The inner loop of Match, for a chunk that follows a star: the chunk is
tried after each character of the name up to the first slash. When the chunk
is the last one a match must use up the name. -/
def starLoop (chunk : List Char) (last : Bool) : List Char → Except String (Option (List Char))
  | [] => Except.ok none
  | c :: rest =>
    if c = '/' then Except.ok none
    else
      match matchChunk chunk rest with
      | Except.error err => Except.error err
      | Except.ok (some t) =>
        if last ∧ t ≠ [] then starLoop chunk last rest else Except.ok (some t)
      | Except.ok none => starLoop chunk last rest

/-- The last loop of Match: before it returns false with no error, the chunks
of the rest of the pattern are checked to be well-formed. -/
def checkRest : Nat → List Char → Except String Bool
  | 0, _ => Except.ok false
  | fuel + 1, pattern =>
    if pattern = [] then Except.ok false
    else
      match matchChunk (scanChunk pattern).2.1 [] with
      | Except.error err => Except.error err
      | Except.ok _ => checkRest fuel (scanChunk pattern).2.2

/-- The loop Pattern of Match. The fuel is never used up when it exceeds the
length of the pattern. -/
def matchLoop : Nat → List Char → List Char → Except String Bool
  | 0, _, _ => Except.error ErrBadPattern
  | fuel + 1, pattern, name =>
    if pattern = [] then Except.ok (decide (name = []))
    else
      let star := (scanChunk pattern).1
      let chunk := (scanChunk pattern).2.1
      let rest := (scanChunk pattern).2.2
      if star ∧ chunk = [] then Except.ok (decide ('/' ∉ name))
      else
        match matchChunk chunk name with
        | Except.error err => Except.error err
        | Except.ok r =>
          match (match r with
                 | some t => if t = [] ∨ rest ≠ [] then some t else none
                 | none => none) with
          | some t => matchLoop fuel rest t
          | none =>
            if star then
              match starLoop chunk (decide (rest = [])) name with
              | Except.error err => Except.error err
              | Except.ok (some t) => matchLoop fuel rest t
              | Except.ok none => checkRest (rest.length + 1) rest
            else checkRest (rest.length + 1) rest

/-- filepath.Match: whether name matches the shell pattern; the error is
ErrBadPattern. -/
def Match (pattern name : String) : Except String Bool :=
  matchLoop (pattern.toList.length + 1) pattern.toList name.toList

/-! ## The feed structure and xml.Unmarshal -/

/-- The struct of the fields Link: attributes rel and href. -/
structure feedLink where
  Rel : String := ""
  Href : String := ""
  deriving DecidableEq, Repr, Inhabited

/-- The struct of the fields Author: the element name. -/
structure feedAuthor where
  Name : String := ""
  deriving DecidableEq, Repr, Inhabited

/-- The struct of the field Group.Thumbnail: the attribute url. -/
structure mediaThumbnail where
  URL : String := ""
  deriving DecidableEq, Repr, Inhabited

/-- The struct of the field Group. -/
structure mediaGroup where
  Title : String := ""
  Thumbnail : mediaThumbnail := {}
  Description : String := ""
  deriving DecidableEq, Repr, Inhabited

/-- The element type of videoFeed.Entry. Duration and Length carry no xml tag. -/
structure videoEntry where
  Duration : String := ""
  Length : Int := 0
  ID : String := ""
  Title : String := ""
  Link : feedLink := {}
  Author : feedAuthor := {}
  Published : String := ""
  Updated : String := ""
  Group : mediaGroup := {}
  deriving DecidableEq, Repr, Inhabited

/-- The struct videoFeed of youcast.go; XMLName keeps the local name. -/
structure videoFeed where
  Name : String := ""
  BaseURL : String := ""
  ImageURL : String := ""
  XMLName : String := ""
  Link : feedLink := {}
  ID : String := ""
  ChannelID : String := ""
  Title : String := ""
  Author : feedAuthor := {}
  Published : String := ""
  Build : String := ""
  Entry : List videoEntry := []
  deriving DecidableEq, Repr, Inhabited

/-- An XML document as the decoder of encoding/xml delivers it: character data
and elements with their local name, attributes (local name, value) and
content, in document order. Comments and processing instructions are left out:
Unmarshal skips them. -/
inductive Node where
  | text (s : String)
  | elem (name : String) (attrs : List (String × String)) (children : List Node)

/-- The character data directly inside an element, concatenated: what Unmarshal
stores in a string field. Nested elements are skipped. -/
def charData (children : List Node) : String :=
  children.foldl (fun acc n =>
    match n with
    | Node.text s => acc ++ s
    | Node.elem _ _ _ => acc) ""

/-- Unmarshal of a link element into a field Link: each attribute named as an
attr field (rel, href) sets it, any other is ignored. A second link element
goes into the same struct. -/
def unmarshalLink (l : feedLink) (attrs : List (String × String)) : feedLink :=
  attrs.foldl (fun (l : feedLink) (a : String × String) =>
    if a.1 = "rel" then { l with Rel := a.2 }
    else if a.1 = "href" then { l with Href := a.2 }
    else l) l

/-- Unmarshal of an author element: the sub-element name sets Name. -/
def unmarshalAuthor (a : feedAuthor) (children : List Node) : feedAuthor :=
  children.foldl (fun (a : feedAuthor) n =>
    match n with
    | Node.text _ => a
    | Node.elem name _ cs => if name = "name" then { a with Name := charData cs } else a) a

/-- Unmarshal of a thumbnail element: the attribute url. -/
def unmarshalThumbnail (t : mediaThumbnail) (attrs : List (String × String)) :
    mediaThumbnail :=
  attrs.foldl (fun (t : mediaThumbnail) (a : String × String) =>
    if a.1 = "url" then { t with URL := a.2 } else t) t

/-- Unmarshal of a group element. -/
def unmarshalGroup (g : mediaGroup) (children : List Node) : mediaGroup :=
  children.foldl (fun (g : mediaGroup) n =>
    match n with
    | Node.text _ => g
    | Node.elem name as cs =>
      if name = "title" then { g with Title := charData cs }
      else if name = "thumbnail" then { g with Thumbnail := unmarshalThumbnail g.Thumbnail as }
      else if name = "description" then { g with Description := charData cs }
      else g) g

/-- One sub-element of an entry element, by its name. A field without tag is
matched under its own name (Duration, Length); Length is an int64, read by
strconv.ParseInt from the trimmed character data, empty data giving 0. A
sub-element no field matches is skipped. -/
def unmarshalEntryField (e : videoEntry) (name : String) (as : List (String × String))
    (cs : List Node) : Except String videoEntry :=
  if name = "Duration" then Except.ok { e with Duration := charData cs }
  else if name = "Length" then
    (if charData cs = "" then Except.ok { e with Length := 0 } else
      match ParseInt64 (trimSpaceChars (charData cs).toList) with
      | none => Except.error "strconv.ParseInt: invalid syntax or value out of range"
      | some v => Except.ok { e with Length := v })
  else if name = "videoId" then Except.ok { e with ID := charData cs }
  else if name = "title" then Except.ok { e with Title := charData cs }
  else if name = "link" then Except.ok { e with Link := unmarshalLink e.Link as }
  else if name = "author" then Except.ok { e with Author := unmarshalAuthor e.Author cs }
  else if name = "published" then Except.ok { e with Published := charData cs }
  else if name = "updated" then Except.ok { e with Updated := charData cs }
  else if name = "group" then Except.ok { e with Group := unmarshalGroup e.Group cs }
  else Except.ok e

/-- One node inside an entry element: character data is not kept. -/
def unmarshalEntryChild (e : videoEntry) (n : Node) : Except String videoEntry :=
  match n with
  | Node.text _ => Except.ok e
  | Node.elem name as cs => unmarshalEntryField e name as cs

/-- The sub-elements of an entry element, in document order, into e. -/
def unmarshalEntry : List Node → videoEntry → Except String videoEntry
  | [], e => Except.ok e
  | n :: ns, e =>
    match unmarshalEntryChild e n with
    | Except.error err => Except.error err
    | Except.ok e1 => unmarshalEntry ns e1

/-- One sub-element of the root element, by its name. Name, BaseURL, ImageURL
and Build carry no tag and are matched under their own names; every entry
element appends a new element to Entry. No field is required to be present. -/
def unmarshalFeedField (f : videoFeed) (name : String) (as : List (String × String))
    (cs : List Node) : Except String videoFeed :=
  if name = "Name" then Except.ok { f with Name := charData cs }
  else if name = "BaseURL" then Except.ok { f with BaseURL := charData cs }
  else if name = "ImageURL" then Except.ok { f with ImageURL := charData cs }
  else if name = "link" then Except.ok { f with Link := unmarshalLink f.Link as }
  else if name = "id" then Except.ok { f with ID := charData cs }
  else if name = "channelId" then Except.ok { f with ChannelID := charData cs }
  else if name = "title" then Except.ok { f with Title := charData cs }
  else if name = "author" then Except.ok { f with Author := unmarshalAuthor f.Author cs }
  else if name = "published" then Except.ok { f with Published := charData cs }
  else if name = "Build" then Except.ok { f with Build := charData cs }
  else if name = "entry" then
    (match unmarshalEntry cs {} with
      | Except.error err => Except.error err
      | Except.ok e => Except.ok { f with Entry := f.Entry ++ [e] })
  else Except.ok f

/-- One node inside the root element: character data is not kept. -/
def unmarshalFeedChild (f : videoFeed) (n : Node) : Except String videoFeed :=
  match n with
  | Node.text _ => Except.ok f
  | Node.elem name as cs => unmarshalFeedField f name as cs

/-- The sub-elements of the root element, in document order, into f. -/
def unmarshalFeed : List Node → videoFeed → Except String videoFeed
  | [], f => Except.ok f
  | n :: ns, f =>
    match unmarshalFeedChild f n with
    | Except.error err => Except.error err
    | Except.ok f1 => unmarshalFeed ns f1

/-- The bytes of a response body as encoding/xml reads them: not well-formed
(a syntax error), or a document with its root element. -/
inductive Body where
  | malformed (err : String)
  | document (root : Node)

/-- The call xml.Unmarshal(text, &feed): the root element must be named feed
(the tag of XMLName), its sub-elements are mapped to the fields. -/
def Unmarshal (text : Body) (feed : videoFeed) : Except String videoFeed :=
  match text with
  | Body.malformed err => Except.error err
  | Body.document (Node.text _) => Except.error "EOF"
  | Body.document (Node.elem name _ children) =>
    if name ≠ "feed" then
      Except.error ("expected element type <feed> but have <" ++ name ++ ">")
    else unmarshalFeed children { feed with XMLName := name }

/-! ## The environment of a run -/

/-- The layout of the dates of the output documents. -/
def rssDateFormat : String := "Mon, 2 Jan 2006 15:04:05 -0700"
/-- The layout of the dates of the channel feed. -/
def xmlDateFormat : String := "2006-01-02T15:04:05-07:00"

/-- A time.Time: an instant and the offset of its zone, in seconds. -/
structure Time where
  unix : Int
  offset : Int
  deriving DecidableEq, Repr

/-- A file or a directory below the working directory: its clean path from
there (audio/pod/A.m4a), the size os.Stat gives for it, and whether it is a
directory. -/
structure File where
  path : String
  size : Int
  dir : Bool := false
  deriving DecidableEq, Repr

/-- The answer to http.Get: the status code and the body read by
ioutil.ReadAll, or the error of that read. -/
structure Response where
  StatusCode : Int
  body : Except String Body

/-- Everything a run of Process takes from outside the program. The disk is
the list of the files and directories below the working directory, each under
its clean path; a directory that is not listed is still taken to exist while
something is listed below it. There are no links, and every directory can be
read and searched. What lies outside the working directory is not part of the
list: the world answers for it. -/
structure World where
  /-- The function time.Parse(layout, value). -/
  timeParse : String → String → Except String Time
  /-- The method Format(layout) of a Time. -/
  timeFormat : Time → String → String
  /-- The clock, time.Now(). -/
  now : Time
  /-- The function http.Get(url). -/
  httpGet : String → Except String Response
  /-- The error of os.MkdirAll(folder, 0755), if any. -/
  mkdirAll : String → Option String
  /-- The disk when Process starts. -/
  files : List File
  /-- The disk after yt-dlp has run with the given arguments, the folder
  os.MkdirAll has made before included. -/
  ytdlp : List String → List File → List File
  /-- What os.Stat finds at a path that leaves the working directory. -/
  outside : String → Option File
  /-- The names in a directory outside the working directory. -/
  readOutside : String → List String
  /-- The result of ffprobe.Output() for a file: its standard output, or the
  error of a failed run. -/
  ffprobe : String → Except String String
  /-- The error of os.Remove(file), if any. -/
  remove : String → Option String
  /-- The error of os.Create(name), if any. -/
  create : String → Option String

/-- The function getXML: downloads youtube XML feed. -/
def getXML (w : World) (cast : YouCast) : Except String Body :=
  match w.httpGet (XMLURL cast) with
  | Except.error err => Except.error ("GET error: " ++ err)
  | Except.ok resp =>
    if resp.StatusCode ≠ 200 then Except.error ("Status error: " ++ fmtInt resp.StatusCode)
    else
      match resp.body with
      | Except.error err => Except.error ("Read body: " ++ err)
      | Except.ok data => Except.ok data

/-- The function ytISODateToRFC822. -/
def ytISODateToRFC822 (w : World) (date : String) : Except String String :=
  match w.timeParse xmlDateFormat date with
  | Except.error err => Except.error err
  | Except.ok dt => Except.ok (w.timeFormat dt rssDateFormat)

/-! ## The disk -/

/-- The text of a path given by its elements. -/
def pathOf (elems : List (List Char)) : String := String.mk (joinSlash elems)

/-- Whether path lies below the directory dir, itself apart. -/
def below (dir path : String) : Bool := (dir ++ "/").toList.isPrefixOf path.toList

/-- Whether the disk holds a file or a directory of this clean path; the empty
path stands for the working directory. -/
def existsAt (files : List File) (p : String) : Bool :=
  p = "" || files.any (fun f => f.path = p || below p f.path)

/-- Whether the disk holds a directory of this clean path. -/
def isDirAt (files : List File) (p : String) : Bool :=
  p = "" || files.any (fun f => (f.path = p && f.dir) || below p f.path)

/-- Where the system ends when it looks a path up. -/
inductive Resolved where
  /-- An element of the path is missing, or is no directory. -/
  | missing
  /-- The path leaves the working directory. -/
  | outside
  /-- The file or directory of this clean path. -/
  | found (p : String)
  deriving DecidableEq, Repr

/-- The look-up of a path, element by element, from the directory cur (its
elements, last one first): an element is looked up in a directory only; the
empty element and the element . stay there, the element .. goes to the
directory above, any other element to the file or directory of that name. -/
def walk (files : List File) : List (List Char) → List (List Char) → Resolved
  | [], cur => Resolved.found (pathOf cur.reverse)
  | e :: es, cur =>
    if !isDirAt files (pathOf cur.reverse) then Resolved.missing
    else if e = [] ∨ e = ['.'] then walk files es cur
    else if e = ['.', '.'] then
      match cur with
      | [] => Resolved.outside
      | _ :: above => walk files es above
    else if existsAt files (pathOf (e :: cur).reverse) then walk files es (e :: cur)
    else Resolved.missing

/-- The look-up of a path from the working directory. -/
def resolve (files : List File) (path : String) : Resolved :=
  if path = "" then Resolved.missing
  else if path.toList.head? = some '/' then Resolved.outside
  else walk files (splitSlash path.toList) []

/-- The call os.Stat(path) (and os.Lstat, there being no links): the file or
directory the path leads to, none for any error. A directory that is not
listed itself has size 0. -/
def statNode (w : World) (files : List File) (path : String) : Option File :=
  match resolve files path with
  | Resolved.missing => none
  | Resolved.outside => w.outside path
  | Resolved.found p =>
    some { path := p,
           size := ((files.find? (fun f => f.path = p)).map File.size).getD 0,
           dir := isDirAt files p }

/-- The call os.Stat(filename) of Process and the Size() of its result: none
for any error (the program takes every error for a missing file). -/
def stat (w : World) (files : List File) (filename : String) : Option Int :=
  (statNode w files filename).map File.size

/-- The name under which the directory dir holds path or a directory above
it, if it does. -/
def childName (dir path : String) : Option String :=
  if dir = "" then
    (if path.toList.takeWhile (fun c => c ≠ '/') = [] then none
      else some (String.mk (path.toList.takeWhile (fun c => c ≠ '/'))))
  else if below dir path then
    (if (path.toList.drop (dir ++ "/").length).takeWhile (fun c => c ≠ '/') = [] then none
      else some (String.mk ((path.toList.drop (dir ++ "/").length).takeWhile (fun c => c ≠ '/'))))
  else none

/-- The names Readdirnames gives for a directory, after sort.Strings. -/
def readDirNames (w : World) (files : List File) (dir : String) : List String :=
  match resolve files dir with
  | Resolved.missing => []
  | Resolved.outside =>
    List.insertionSort (fun a b => strLe a.toList b.toList = true) (w.readOutside dir)
  | Resolved.found p =>
    List.insertionSort (fun a b => strLe a.toList b.toList = true)
      (files.filterMap (fun f => childName p f.path)).dedup

/-- The loop of glob over the names of a directory: the names the pattern
matches are appended to the matches, joined to the directory. -/
def globNames (dir pattern : String) : List String → List String → Except String (List String)
  | [], m => Except.ok m
  | n :: ns, m =>
    match Match pattern n with
    | Except.error err => Except.error err
    | Except.ok matched =>
      if matched then globNames dir pattern ns (m ++ [Join dir n])
      else globNames dir pattern ns m

/-- The function glob of match.go: the names of the directory dir that the
pattern matches. A dir that is missing or no directory adds nothing. -/
def glob (w : World) (files : List File) (dir pattern : String) (found : List String) :
    Except String (List String) :=
  match statNode w files dir with
  | none => Except.ok found
  | some node =>
    if node.dir then globNames dir pattern (readDirNames w files dir) found
    else Except.ok found

/-- The last loop of globWithLimit: glob in each of the directories found. -/
def globEach (w : World) (files : List File) (file : String) :
    List String → List String → Except String (List String)
  | [], found => Except.ok found
  | d :: ds, found =>
    match glob w files d file found with
    | Except.error err => Except.error err
    | Except.ok m => globEach w files file ds m

/-- The function globWithLimit of match.go; the fuel is 10000 less the depth.
The pattern is checked by Match on the empty name; a pattern without pattern
character is a path; otherwise the last element of the pattern is matched in
the directory before it, or in every directory that matches what stands before
it. -/
def globWithLimit (w : World) (files : List File) : Nat → String → Except String (List String)
  | 0, _ => Except.error ErrBadPattern
  | fuel + 1, pattern =>
    match Match pattern "" with
    | Except.error err => Except.error err
    | Except.ok _ =>
      if !hasMeta pattern then
        (if (statNode w files pattern).isSome then Except.ok [pattern] else Except.ok [])
      else if !hasMeta (cleanGlobPath (Split pattern).1) then
        glob w files (cleanGlobPath (Split pattern).1) (Split pattern).2 []
      else if cleanGlobPath (Split pattern).1 = pattern then Except.error ErrBadPattern
      else
        match globWithLimit w files fuel (cleanGlobPath (Split pattern).1) with
        | Except.error err => Except.error err
        | Except.ok m => globEach w files (Split pattern).2 m []

/-- filepath.Glob(pattern). -/
def Glob (w : World) (files : List File) (pattern : String) : Except String (List String) :=
  globWithLimit w files 10000 pattern

/-- The call os.Remove(file): a directory that is not empty is not removed;
otherwise the world says whether the call fails, and the file or directory
is gone when it does not. -/
def removeFile (w : World) (files : List File) (file : String) : Except String (List File) :=
  match resolve files file with
  | Resolved.missing => Except.error ("remove " ++ file ++ ": no such file or directory")
  | Resolved.outside =>
    (match w.remove file with
      | some err => Except.error err
      | none => Except.ok files)
  | Resolved.found p =>
    if files.any (fun f => below p f.path) then
      Except.error ("remove " ++ file ++ ": directory not empty")
    else
      match w.remove file with
      | some err => Except.error err
      | none => Except.ok (files.filter (fun f => f.path ≠ p))

/-- Lines 234 to 241 of Process: the output of ffprobe up to its first newline
is parsed as a number of seconds, rounded to the second and formatted. -/
def probeDuration (out : String) : Except String String :=
  match ParseDuration (firstLine out ++ "s") with
  | none => Except.error ("time: invalid duration " ++ firstLine out ++ "s")
  | some duration => Except.ok (formatDurationHMS (durRound duration Second))

/-- What one pass of the loop over feed.Entry leaves behind. -/
structure EntryStep where
  /-- The entry after the pass. -/
  entry : videoEntry
  /-- The files ffprobe was run on. -/
  probed : List String
  /-- The error the pass returns with, none when the loop goes on. -/
  err : Option String

/-- One pass of the loop over feed.Entry (lines 202 to 245), without the
bookkeeping of entryIDs. -/
def reconcileEntry (w : World) (folder : String) (files : List File) (entry : videoEntry) :
    EntryStep :=
  match ytISODateToRFC822 w entry.Published with
  | Except.error err => ⟨{ entry with Published := "" }, [], some err⟩
  | Except.ok published =>
    let entry1 := { entry with Published := published }
    let filename := folder ++ "/" ++ entry1.ID ++ ".m4a"
    match stat w files filename with
    | none => ⟨{ entry1 with Length := 0 }, [], none⟩
    | some size =>
      let entry2 := { entry1 with Length := size }
      match w.ffprobe filename with
      | Except.error err => ⟨entry2, [filename], some err⟩
      | Except.ok out =>
        match probeDuration out with
        | Except.error err => ⟨entry2, [filename], some err⟩
        | Except.ok duration => ⟨{ entry2 with Duration := duration }, [filename], none⟩

/-- The state of the loop over feed.Entry when it ends. -/
structure LoopResult where
  /-- The slice feed.Entry. -/
  entries : List videoEntry
  /-- The keys of the map entryIDs. -/
  entryIDs : List String
  /-- The files ffprobe was run on, in order. -/
  probed : List String
  /-- The error the loop returned with, if any. -/
  err : Option String

/-- The loop over feed.Entry: it stops at the first pass that returns an error,
leaving the entries after it untouched. -/
def reconcileLoop (w : World) (folder : String) (files : List File) :
    List videoEntry → LoopResult
  | [] => ⟨[], [], [], none⟩
  | entry :: rest =>
    let step := reconcileEntry w folder files entry
    match step.err with
    | some err => ⟨step.entry :: rest, [entry.ID], step.probed, some err⟩
    | none =>
      let r := reconcileLoop w folder files rest
      ⟨step.entry :: r.entries, entry.ID :: r.entryIDs, step.probed ++ r.probed, r.err⟩

/-- The state of the loop over the files of Glob when it ends. -/
structure PruneResult where
  /-- The disk. -/
  files : List File
  /-- The files removed, in order. -/
  removed : List String
  /-- The error the loop returned with, if any. -/
  err : Option String

/-- The loop that removes the files the feed does not list (lines 252 to 260). -/
def pruneLoop (w : World) (entryIDs : List String) : List String → List File → PruneResult
  | [], files => ⟨files, [], none⟩
  | file :: rest, files =>
    if fileStem file ∈ entryIDs then pruneLoop w entryIDs rest files
    else
      match removeFile w files file with
      | Except.error err => ⟨files, [], some err⟩
      | Except.ok files1 =>
        let r := pruneLoop w entryIDs rest files1
        ⟨r.files, file :: r.removed, r.err⟩

/-! ## The two templates -/

/-- The element item of rssTemplate, for one entry. -/
def rssItem (feed : videoFeed) (e : videoEntry) : String :=
  "<item>\n\t\t\t<guid isPermaLink=\"false\">https://www.youtube.com/v/" ++ e.ID ++
  "</guid>\n\t\t\t<title>" ++ e.Title ++
  "</title>\n\t\t\t<link>https://www.youtube.com/watch?v=" ++ e.ID ++
  "</link>\n\t\t\t<pubDate>" ++ e.Published ++
  "</pubDate>\n\t\t\t<description><![CDATA[" ++ e.Group.Description ++
  "]]></description>\n\t\t\t<enclosure url=\"" ++ feed.BaseURL ++
  "/audio/" ++ feed.Name ++
  "/" ++ e.ID ++
  ".m4a\" length=\"" ++ fmtInt e.Length ++
  "\" type=\"audio/mp4\"></enclosure>\n\t\t\t<itunes:duration>" ++ e.Duration ++
  "</itunes:duration>\n\t\t\t<itunes:image>" ++ e.Group.Thumbnail.URL ++
  "</itunes:image>\n\t\t</item>"

/-- The body of range .Entry in rssTemplate, for one entry: blank space, the
action if gt .Length 0 with the item between blank space as its body, and
blank space again. -/
def rssRangeBody (feed : videoFeed) (e : videoEntry) : String :=
  "\n\t\t" ++ (if e.Length > 0 then "\n\t\t" ++ rssItem feed e ++ "\n\t\t" else "") ++ "\n\t"

/-- The text rssTemplate writes before range .Entry: the head of the channel. -/
def rssHead (feed : videoFeed) : String :=
  "<?xml version=\"1.0\" encoding=\"UTF-8\"?>\n<rss version=\"2.0\" xmlns:itunes=\"http://www.itunes.com/dtds/podcast-1.0.dtd\">\n  <channel>\n    <title>" ++ feed.Title ++
  "</title>\n\t<description>" ++ feed.Title ++
  "</description>\n\t<link>" ++ feed.BaseURL ++
  "</link>\n    <category>Unknown</category>\n    <generator>youcast</generator>\n    <language>en-us</language>\n    <lastBuildDate>" ++ feed.Build ++
  "</lastBuildDate>\n\t<pubDate>" ++ feed.Published ++
  "</pubDate>\n\t" ++
  (if feed.ImageURL ≠ "" then "<itunes:image href=\"" ++ feed.ImageURL ++ "\" />" else "") ++
  "\n  <itunes:author>" ++ feed.Author.Name ++
  "</itunes:author>\n\t"

/-- The execution of rssTemplate on feed: the head, the body of range .Entry
for each entry in the order of the slice, and the end of the document. -/
def rssTemplate (feed : videoFeed) : String :=
  rssHead feed ++ String.join (feed.Entry.map (rssRangeBody feed)) ++ "\n  </channel>\n</rss>"

/-- The execution of opmlTemplate on feed. -/
def opmlTemplate (feed : videoFeed) : String :=
  "<?xml version=\"1.0\" encoding=\"UTF-8\"?>\n<opml version=\"1.0\">\n    <head>\n        <title>" ++ feed.Title ++
  "</title>\n    </head>\n    <body>\n        <outline text=\"" ++ feed.Title ++
  "\" type=\"rss\" title=\"" ++ feed.Title ++
  "\" xmlUrl=\"" ++ feed.BaseURL ++
  "/" ++ feed.Name ++
  ".rss\" htmlUrl=\"" ++ feed.Link.Href ++
  "\"/>\n    </body>\n</opml>\n"

/-! ## Process -/

/-- What a run of Process leaves behind. -/
structure Outcome where
  /-- The error Process returns, none for nil. -/
  err : Option String
  /-- The disk at the return, the two output documents apart. -/
  files : List File
  /-- The files ffprobe was run on, in order. -/
  probed : List String
  /-- The files removed, in order: one line Removing is printed for each. -/
  removed : List String
  /-- The slice feed.Entry at the return. -/
  entries : List videoEntry
  /-- The text written to name.rss, none when the file was not created. -/
  rss : Option String
  /-- The text written to name.opml, none when the file was not created. -/
  opml : Option String
  deriving DecidableEq, Repr

/-- The command line of yt-dlp. -/
def ytdlpArgs (cast : YouCast) (folder : String) (num : Nat) : List String :=
  ["-i", "--embed-thumbnail", "--add-metadata", "-f", "140", "-o", folder ++ "/%(id)s.m4a",
    "--playlist-end", Nat.repr num, cast.url]

/-- The feed structure as Process sets it up before the download (lines 162
to 166). -/
def initialFeed (w : World) (name baseURL imageURL : String) : videoFeed :=
  { Name := name, BaseURL := baseURL, ImageURL := imageURL,
    Build := w.timeFormat w.now rssDateFormat }

/-- Process from line 178 on: feed is the structure as xml.Unmarshal has filled
it. Writes to the two output files are taken to succeed. -/
def processFeed (w : World) (cast : YouCast) (name : String) (feed1 : videoFeed) : Outcome :=
  match ytISODateToRFC822 w feed1.Published with
  | Except.error err => ⟨some err, w.files, [], [], feed1.Entry, none, none⟩
  | Except.ok published =>
  let feed2 := { feed1 with Published := published }
  let num := feed2.Entry.length
  let folder := "audio/" ++ name
  match w.mkdirAll folder with
  | some err => ⟨some err, w.files, [], [], feed2.Entry, none, none⟩
  | none =>
  let files1 := w.ytdlp (ytdlpArgs cast folder num) w.files
  let loop := reconcileLoop w folder files1 feed2.Entry
  match loop.err with
  | some err => ⟨some err, files1, loop.probed, [], loop.entries, none, none⟩
  | none =>
  let feed3 := { feed2 with Entry := loop.entries }
  match Glob w files1 (folder ++ "/*.m4a") with
  | Except.error err => ⟨some err, files1, loop.probed, [], loop.entries, none, none⟩
  | Except.ok found =>
  let prune := pruneLoop w loop.entryIDs found files1
  match prune.err with
  | some err => ⟨some err, prune.files, loop.probed, prune.removed, loop.entries, none, none⟩
  | none =>
  match w.create (name ++ ".rss") with
  | some err => ⟨some err, prune.files, loop.probed, prune.removed, loop.entries, none, none⟩
  | none =>
  match w.create (name ++ ".opml") with
  | some err =>
    ⟨some err, prune.files, loop.probed, prune.removed, loop.entries,
      some (rssTemplate feed3), none⟩
  | none =>
    ⟨none, prune.files, loop.probed, prune.removed, loop.entries,
      some (rssTemplate feed3), some (opmlTemplate feed3)⟩

/-- Process feed: the method Process of YouCast. -/
def Process (w : World) (cast : YouCast) (name baseURL imageURL : String) : Outcome :=
  match getXML w cast with
  | Except.error err => ⟨some err, w.files, [], [], [], none, none⟩
  | Except.ok text =>
  match Unmarshal text (initialFeed w name baseURL imageURL) with
  | Except.error err => ⟨some err, w.files, [], [], [], none, none⟩
  | Except.ok feed1 => processFeed w cast name feed1

/-! ## Notions the statements below are written with -/

/-- Whether a node is an element of the given name. -/
def isElem (name : String) : Node → Bool
  | Node.elem n _ _ => n = name
  | Node.text _ => false

/-- The document without the channelId elements of its root. -/
def dropChannelId : Body → Body
  | Body.document (Node.elem name attrs children) =>
    Body.document (Node.elem name attrs (children.filter (fun n => !isElem "channelId" n)))
  | b => b

/-- The world in which every document fetched has lost the channelId elements
of its root, everything else being the same. -/
def World.withoutChannelId (w : World) : World :=
  { w with httpGet := fun url =>
      match w.httpGet url with
      | Except.error err => Except.error err
      | Except.ok resp =>
        Except.ok { resp with body :=
          match resp.body with
          | Except.error err => Except.error err
          | Except.ok data => Except.ok (dropChannelId data) } }

/-- The feed as Process has it after xml.Unmarshal (line 174): what the remote
document lists. None when the download or the parsing fails. -/
def remoteFeed (w : World) (cast : YouCast) (name baseURL imageURL : String) :
    Option videoFeed :=
  match getXML w cast with
  | Except.error _ => none
  | Except.ok text =>
    match Unmarshal text (initialFeed w name baseURL imageURL) with
    | Except.error _ => none
    | Except.ok feed => some feed

/-- The entries of the remote feed, none when there is no feed. -/
def remoteEntries (w : World) (cast : YouCast) (name baseURL imageURL : String) :
    List videoEntry :=
  match remoteFeed w cast name baseURL imageURL with
  | none => []
  | some feed => feed.Entry

/-- The disk once yt-dlp has run, for a feed of n entries: what the loops of
Process see. -/
def downloaded (w : World) (cast : YouCast) (name : String) (n : Nat) : List File :=
  w.ytdlp (ytdlpArgs cast ("audio/" ++ name) n) w.files

/-- The path Process gives the audio file of a video. -/
def audioFile (name id : String) : String := "audio/" ++ name ++ "/" ++ id ++ ".m4a"

/-- The whole seconds Process derives for an entry from the probe of its file,
before formatting: 0 when there is no file or no duration. -/
def derivedSeconds (w : World) (files : List File) (name : String) (e : videoEntry) : Int :=
  match stat w files (audioFile name e.ID) with
  | none => 0
  | some _ =>
    match w.ffprobe (audioFile name e.ID) with
    | Except.error _ => 0
    | Except.ok out =>
      match ParseDuration (firstLine out ++ "s") with
      | none => 0
      | some d => (durRound d Second).tdiv Second

/-- Whether a path is folder/n for a name n that holds no slash and ends in
.m4a: a file or directory of the folder that the pattern *.m4a matches. -/
def matchesM4a (folder path : String) : Bool :=
  (folder ++ "/").toList.isPrefixOf path.toList &&
  (let n := path.toList.drop (folder ++ "/").length
   decide ('/' ∉ n) && ".m4a".toList.isSuffixOf n)

/-- A name that is one element of a path and is read as itself in a pattern:
not empty, neither . nor .., without slash and without the pattern characters
* ? [ and backslash. -/
def plainName (name : String) : Prop :=
  name ≠ "" ∧ name ≠ "." ∧ name ≠ ".." ∧
    ∀ c ∈ name.toList, c ≠ '/' ∧ c ≠ '*' ∧ c ≠ '?' ∧ c ≠ '[' ∧ c ≠ '\\'

instance (name : String) : Decidable (plainName name) := by
  unfold plainName
  infer_instance

/-- A character that stands for itself in a pattern of filepath.Match. -/
def litChar (c : Char) : Prop := c ≠ '[' ∧ c ≠ '?' ∧ c ≠ '\\' ∧ c ≠ '*'

/-- An element of a clean path: a name that is not empty, neither . nor ..,
and holds no slash. -/
def plainElem (e : List Char) : Prop :=
  e ≠ [] ∧ e ≠ ['.'] ∧ e ≠ ['.', '.'] ∧ '/' ∉ e

/-- A text of line feeds and tabs only. -/
def isBlank (s : String) : Prop := ∀ c ∈ s.toList, c = '\n' ∨ c = '\t'

/-- The items of a document one after the other, with a text before, between
and after them: b0 i1 b1 ... in bn. -/
def weave : List String → List String → String
  | [], _ => ""
  | b :: _, [] => b
  | b :: bs, i :: is => b ++ i ++ weave bs is

/-! ## A sample run -/

/-- An entry element of the sample feed. -/
def sampleEntry (id published : String) : Node :=
  Node.elem "entry" []
    [Node.elem "id" [] [Node.text ("yt:video:" ++ id)],
     Node.elem "videoId" [] [Node.text id],
     Node.elem "title" [] [Node.text ("Video " ++ id)],
     Node.elem "link" [("rel", "alternate"), ("href", "https://www.youtube.com/watch?v=" ++ id)] [],
     Node.elem "published" [] [Node.text published],
     Node.elem "group" []
       [Node.elem "thumbnail" [("url", "https://i.ytimg.com/vi/" ++ id ++ "/hq.jpg")] [],
        Node.elem "description" [] [Node.text ("About " ++ id)]]]

/-- The sub-elements of the root of the sample feed, but for channelId. -/
def sampleFields : List Node :=
  [Node.elem "title" [] [Node.text "Channel"],
   Node.elem "link" [("rel", "alternate"), ("href", "https://www.youtube.com/channel/UC1")] [],
   Node.elem "author" [] [Node.elem "name" [] [Node.text "Author"]],
   Node.elem "published" [] [Node.text "2024-01-01T10:00:00+00:00"],
   sampleEntry "A" "2024-01-02T10:00:00+00:00",
   sampleEntry "C" "2024-01-03T10:00:00+00:00"]

/-- A feed of two entries, A and C. -/
def sampleDoc : Node :=
  Node.elem "feed" [] (Node.elem "channelId" [] [Node.text "UC1"] :: sampleFields)

/-- The same feed without its channelId element. -/
def sampleDocNoChannelId : Node := Node.elem "feed" [] sampleFields

/-- The values of time.Parse on the dates of the sample feed. -/
def sampleTimeParse (value : String) : Except String Time :=
  if value = "2024-01-01T10:00:00+00:00" then Except.ok ⟨1704103200, 0⟩
  else if value = "2024-01-02T10:00:00+00:00" then Except.ok ⟨1704189600, 0⟩
  else if value = "2024-01-03T10:00:00+00:00" then Except.ok ⟨1704276000, 0⟩
  else Except.error ("parsing time " ++ value)

/-- The values of Format on the instants of the sample run. -/
def sampleTimeFormat (t : Time) : String :=
  if t.unix = 1704103200 then "Mon, 1 Jan 2024 10:00:00 +0000"
  else if t.unix = 1704189600 then "Tue, 2 Jan 2024 10:00:00 +0000"
  else if t.unix = 1704276000 then "Wed, 3 Jan 2024 10:00:00 +0000"
  else if t.unix = 1704369600 then "Thu, 4 Jan 2024 12:00:00 +0000"
  else "Thu, 4 Jan 2024 12:00:01 +0000"

/-- A world: the channel lists A and C; on disk are A.m4a, an old B.m4a and a
text file; C.m4a has not been downloaded. -/
def sampleWorld : World where
  timeParse := fun _ value => sampleTimeParse value
  timeFormat := fun t _ => sampleTimeFormat t
  now := ⟨1704369600, 0⟩
  httpGet := fun _ => Except.ok ⟨200, Except.ok (Body.document sampleDoc)⟩
  mkdirAll := fun _ => none
  files := [{ path := "audio/pod/B.m4a", size := 500 }, { path := "audio/pod/A.m4a", size := 1000 },
    { path := "audio/pod/notes.txt", size := 3 }]
  ytdlp := fun _ fs => fs
  outside := fun _ => none
  readOutside := fun _ => []
  ffprobe := fun f =>
    if f = "audio/pod/A.m4a" then Except.ok "12.000000\n" else Except.error "exit status 1"
  remove := fun _ => none
  create := fun _ => none

/-- The channel of the sample run. -/
def sampleCast : YouCast := ⟨"UC1", "https://www.youtube.com/channel/UC1"⟩

/-- The sample feed as Unmarshal fills it. -/
def sampleFeed : videoFeed :=
  { Name := "pod", BaseURL := "http://host", ImageURL := "", XMLName := "feed",
    Link := ⟨"alternate", "https://www.youtube.com/channel/UC1"⟩,
    ID := "", ChannelID := "UC1", Title := "Channel", Author := ⟨"Author"⟩,
    Published := "2024-01-01T10:00:00+00:00",
    Build := "Thu, 4 Jan 2024 12:00:00 +0000",
    Entry :=
      [{ ID := "A", Title := "Video A",
         Link := ⟨"alternate", "https://www.youtube.com/watch?v=A"⟩,
         Published := "2024-01-02T10:00:00+00:00",
         Group := { Thumbnail := ⟨"https://i.ytimg.com/vi/A/hq.jpg"⟩, Description := "About A" } },
       { ID := "C", Title := "Video C",
         Link := ⟨"alternate", "https://www.youtube.com/watch?v=C"⟩,
         Published := "2024-01-03T10:00:00+00:00",
         Group := { Thumbnail := ⟨"https://i.ytimg.com/vi/C/hq.jpg"⟩, Description := "About C" } }] }

/-- The sample world a second later. -/
def sampleWorldLater : World := { sampleWorld with now := ⟨1704369601, 0⟩ }

/-- The sample world with a feed that has no channelId element. -/
def sampleWorldNoChannelId : World :=
  { sampleWorld with
    httpGet := fun _ => Except.ok ⟨200, Except.ok (Body.document sampleDocNoChannelId)⟩ }

/-- The sample world with an A.m4a whose audio stream has no length: ffprobe
prints a duration of zero seconds. -/
def sampleWorldSilent : World :=
  { sampleWorld with
    ffprobe := fun f =>
      if f = "audio/pod/A.m4a" then Except.ok "0.000000\n" else Except.error "exit status 1" }

/-- The sample world with a feed whose second entry has a date that time.Parse
refuses. -/
def sampleWorldBadDate : World :=
  { sampleWorld with
    httpGet := fun _ => Except.ok ⟨200, Except.ok (Body.document
      (Node.elem "feed" []
        [Node.elem "published" [] [Node.text "2024-01-01T10:00:00+00:00"],
         sampleEntry "A" "2024-01-02T10:00:00+00:00",
         sampleEntry "C" "3 January 2024"]))⟩ }

/-- The entry of the date that time.Parse refuses, as Unmarshal fills it. -/
def sampleBadEntry : videoEntry :=
  { ID := "C", Title := "Video C",
    Link := ⟨"alternate", "https://www.youtube.com/watch?v=C"⟩,
    Published := "3 January 2024",
    Group := { Thumbnail := ⟨"https://i.ytimg.com/vi/C/hq.jpg"⟩, Description := "About C" } }

/-- A world whose channel lists one entry C, not downloaded, that comes with
an element Duration; the folder audio/pod is empty. -/
def sampleWorldDuration : World :=
  { sampleWorld with
    files := [{ path := "audio/pod", size := 4096, dir := true }]
    httpGet := fun _ => Except.ok ⟨200, Except.ok (Body.document
      (Node.elem "feed" []
        [Node.elem "published" [] [Node.text "2024-01-01T10:00:00+00:00"],
         Node.elem "entry" []
           [Node.elem "videoId" [] [Node.text "C"],
            Node.elem "published" [] [Node.text "2024-01-03T10:00:00+00:00"],
            Node.elem "Duration" [] [Node.text "12:34:56"]]]))⟩ }

/-- The sample world for a podcast named p[x]d: its folder audio/p[x]d holds
A.m4a and an old B.m4a, and the folder audio/pxd of another podcast holds
Z.m4a. -/
def sampleWorldPattern : World :=
  { sampleWorld with
    files := [{ path := "audio/p[x]d/B.m4a", size := 500 },
      { path := "audio/p[x]d/A.m4a", size := 1000 }, { path := "audio/pxd/Z.m4a", size := 7 }]
    ffprobe := fun f =>
      if f = "audio/p[x]d/A.m4a" then Except.ok "12.000000\n"
      else Except.error "exit status 1" }

/-- A world whose channel lists one entry of videoId /A; A.m4a is on disk, and
ffprobe reads it under the path audio/pod//A.m4a. -/
def sampleWorldSlash : World :=
  { sampleWorld with
    files := [{ path := "audio/pod", size := 4096, dir := true },
      { path := "audio/pod/A.m4a", size := 1000 }]
    ffprobe := fun f =>
      if f = "audio/pod//A.m4a" then Except.ok "12.000000\n" else Except.error "exit status 1"
    httpGet := fun _ => Except.ok ⟨200, Except.ok (Body.document
      (Node.elem "feed" []
        [Node.elem "published" [] [Node.text "2024-01-01T10:00:00+00:00"],
         Node.elem "entry" []
           [Node.elem "videoId" [] [Node.text "/A"],
            Node.elem "published" [] [Node.text "2024-01-02T10:00:00+00:00"]]]))⟩ }
theorem roundHalfEven_le {q : ℚ} {n : ℤ} (h : q ≤ n) : roundHalfEven q ≤ n := by
  have hf : ⌊q⌋ ≤ n := by
    have := Int.floor_le q
    exact_mod_cast (Int.floor_le q).trans h
  unfold roundHalfEven
  have key : 0 < q - ⌊q⌋ → ⌊q⌋ + 1 ≤ n := by
    intro hpos
    have : (⌊q⌋ : ℚ) < n := by linarith
    have : ⌊q⌋ < n := by exact_mod_cast this
    omega
  split_ifs with h1 h2 h3
  · exact hf
  · exact key (by linarith)
  · exact hf
  · exact key (by linarith)

theorem le_roundHalfEven {q : ℚ} {n : ℤ} (h : (n : ℚ) ≤ q) : n ≤ roundHalfEven q := by
  have hf : n ≤ ⌊q⌋ := Int.le_floor.mpr h
  unfold roundHalfEven
  split_ifs <;> omega

theorem natLog2_le (fuel n : ℕ) (h : 1 ≤ n) : 2 ^ natLog2 fuel n ≤ n := by
  induction fuel generalizing n with
  | zero => simpa [natLog2] using h
  | succ f ih =>
    simp only [natLog2]
    split_ifs with h2
    · simpa using h
    · have := ih (n / 2) (by omega)
      rw [pow_succ]
      omega

theorem le_shiftUp (fuel a b : ℕ) (h : b ≤ a * 2 ^ fuel) :
    b ≤ a * 2 ^ shiftUp fuel a b := by
  induction fuel generalizing a with
  | zero => simpa [shiftUp] using h
  | succ f ih =>
    simp only [shiftUp]
    split_ifs with h2
    · simpa using h2
    · have := ih (2 * a) (by rw [pow_succ] at h; linarith)
      rw [pow_succ]
      linarith

theorem log2Floor_le {q : ℚ} (hq : 0 < q) : (2 : ℚ) ^ log2Floor q ≤ q := by
  have hnum : 0 < q.num := Rat.num_pos.mpr hq
  have hden : 0 < q.den := q.den_pos
  have hqe : q = (q.num.natAbs : ℚ) / q.den := by
    have h2 : (q.num.natAbs : ℚ) = q.num := by
      rw [Nat.cast_natAbs, abs_of_pos hnum]
    rw [h2, Rat.num_div_den]
  have ha : 1 ≤ q.num.natAbs := by omega
  have hdq : (0 : ℚ) < q.den := by exact_mod_cast hden
  unfold log2Floor
  split_ifs with h
  · have h1 : 1 ≤ q.num.natAbs / q.den := (Nat.one_le_div_iff hden).mpr h
    have h2 := natLog2_le q.num.natAbs _ h1
    have h3 : (q.num.natAbs / q.den) * q.den ≤ q.num.natAbs := Nat.div_mul_le_self _ _
    rw [zpow_natCast]
    conv_rhs => rw [hqe]
    rw [le_div_iff₀ hdq]
    have h4 : 2 ^ natLog2 q.num.natAbs (q.num.natAbs / q.den) * q.den ≤ q.num.natAbs :=
      le_trans (Nat.mul_le_mul_right _ h2) h3
    exact_mod_cast h4
  · have hsuff : q.den ≤ q.num.natAbs * 2 ^ q.den := by
      have : q.den < 2 ^ q.den := Nat.lt_two_pow q.den
      nlinarith
    have h2 := le_shiftUp q.den q.num.natAbs q.den hsuff
    rw [zpow_neg, zpow_natCast]
    conv_rhs => rw [hqe]
    rw [inv_eq_one_div, div_le_div_iff₀ (by positivity) hdq]
    have : ((q.den : ℕ) : ℚ) ≤ ((q.num.natAbs * 2 ^ shiftUp q.den q.num.natAbs q.den : ℕ) : ℚ) := by
      exact_mod_cast h2
    push_cast at this
    linarith

theorem f64ulp_pos (q : ℚ) : 0 < f64ulp q := by
  unfold f64ulp; positivity

theorem float53_multiple {q r : ℚ} (hq : 0 < q) (hr : Float53 r) (hqr : q ≤ r) :
    ∃ n : ℤ, r = n * f64ulp q := by
  obtain ⟨m, k, hm, rfl⟩ := hr
  have hlog : (2 : ℚ) ^ (log2Floor q) ≤ q := log2Floor_le hq
  by_cases hk : log2Floor q - 52 ≤ k
  · obtain ⟨j, hj⟩ := Int.eq_ofNat_of_zero_le (sub_nonneg.mpr hk)
    refine ⟨m * 2 ^ j, ?_⟩
    unfold f64ulp
    have : k = (log2Floor q - 52) + j := by omega
    rw [this, zpow_add₀ (by norm_num)]
    push_cast
    rw [zpow_natCast]
    ring
  · exfalso
    push_neg at hk
    have h1 : (m : ℚ) * 2 ^ k < 2 ^ 53 * 2 ^ k := by
      have : (m : ℚ) < 2 ^ 53 := by exact_mod_cast hm
      have h2 : (0 : ℚ) < 2 ^ k := by positivity
      exact mul_lt_mul_of_pos_right this h2
    have h3 : (2 : ℚ) ^ 53 * 2 ^ k ≤ 2 ^ (log2Floor q) := by
      have : (2 : ℚ) ^ 53 * 2 ^ k = 2 ^ ((53 : ℤ) + k) := by
        rw [zpow_add₀ (by norm_num)]; norm_num
      rw [this]
      exact zpow_le_zpow_right₀ (by norm_num) (by omega)
    linarith

theorem f64_round_le {q r : ℚ} (hq : 0 < q) (hr : Float53 r) (hqr : q ≤ r) : f64 q ≤ r := by
  obtain ⟨n, hn⟩ := float53_multiple hq hr hqr
  have hu := f64ulp_pos q
  unfold f64
  rw [if_neg hq.ne', hn]
  have : roundHalfEven (q / f64ulp q) ≤ n := by
    apply roundHalfEven_le
    rw [div_le_iff₀ hu]; linarith
  have : (roundHalfEven (q / f64ulp q) : ℚ) ≤ n := by exact_mod_cast this
  exact mul_le_mul_of_nonneg_right this hu.le

theorem f64_le_round {q r : ℚ} (hq : 0 < q) (hr : Float53 r) (hrq : r ≤ q) : r ≤ f64 q := by
  have hu := f64ulp_pos q
  have hlog : (2 : ℚ) ^ (log2Floor q) ≤ q := log2Floor_le hq
  have h52 : ((2 ^ 52 : ℤ) : ℚ) ≤ q / f64ulp q := by
    rw [le_div_iff₀ hu]
    unfold f64ulp
    have : ((2 ^ 52 : ℤ) : ℚ) * 2 ^ (log2Floor q - 52) = 2 ^ (log2Floor q) := by
      rw [zpow_sub₀ (by norm_num)]; push_cast; field_simp; norm_num; ring
    rw [this]; exact hlog
  have hbig : ((2 ^ 52 : ℤ) : ℚ) * f64ulp q ≤ f64 q := by
    unfold f64
    rw [if_neg hq.ne']
    have := le_roundHalfEven h52
    have : ((2 ^ 52 : ℤ) : ℚ) ≤ roundHalfEven (q / f64ulp q) := by exact_mod_cast this
    exact mul_le_mul_of_nonneg_right this hu.le
  obtain ⟨m, k, hm, rfl⟩ := hr
  by_cases hk : log2Floor q - 52 ≤ k
  · obtain ⟨j, hj⟩ := Int.eq_ofNat_of_zero_le (sub_nonneg.mpr hk)
    have hmul : (m : ℚ) * 2 ^ k = ((m * 2 ^ j : ℤ) : ℚ) * f64ulp q := by
      unfold f64ulp
      have : k = (log2Floor q - 52) + j := by omega
      rw [this, zpow_add₀ (by norm_num)]
      push_cast
      rw [zpow_natCast]
      ring
    rw [hmul] at hrq ⊢
    unfold f64
    rw [if_neg hq.ne']
    have : (m * 2 ^ j : ℤ) ≤ roundHalfEven (q / f64ulp q) := by
      apply le_roundHalfEven
      rw [le_div_iff₀ hu]; exact hrq
    have : ((m * 2 ^ j : ℤ) : ℚ) ≤ roundHalfEven (q / f64ulp q) := by exact_mod_cast this
    exact mul_le_mul_of_nonneg_right this hu.le
  · push_neg at hk
    refine le_trans ?_ hbig
    have h1 : (m : ℚ) * 2 ^ k ≤ 2 ^ 53 * 2 ^ k := by
      have : (m : ℚ) ≤ 2 ^ 53 := by exact_mod_cast hm.le
      have h2 : (0 : ℚ) < 2 ^ k := by positivity
      exact mul_le_mul_of_nonneg_right this h2.le
    have h3 : (2 : ℚ) ^ 53 * 2 ^ k ≤ ((2 ^ 52 : ℤ) : ℚ) * f64ulp q := by
      unfold f64ulp
      have e1 : (2 : ℚ) ^ 53 * 2 ^ k = 2 ^ ((53 : ℤ) + k) := by
        rw [zpow_add₀ (by norm_num)]; norm_num
      have e2 : ((2 ^ 52 : ℤ) : ℚ) * 2 ^ (log2Floor q - 52) = 2 ^ (log2Floor q) := by
        rw [zpow_sub₀ (by norm_num)]; push_cast; field_simp; norm_num; ring
      rw [e1, e2]
      exact zpow_le_zpow_right₀ (by norm_num) (by omega)
    linarith

theorem f64_round_rep {r : ℚ} (h0 : 0 ≤ r) (hr : Float53 r) : f64 r = r := by
  rcases h0.eq_or_lt with h | h
  · rw [← h]; simp [f64]
  · exact le_antisymm (f64_round_le h hr le_rfl) (f64_le_round h hr le_rfl)

theorem float53_nat (n : ℕ) (h : n < 2 ^ 53) : Float53 n := ⟨n, 0, h, by simp⟩

theorem lt_natLog2 (fuel n : ℕ) (h : n < 2 ^ fuel) : n < 2 ^ (natLog2 fuel n + 1) := by
  induction fuel generalizing n with
  | zero =>
    have : n = 0 := by simpa using h
    subst this
    simp [natLog2]
  | succ f ih =>
    simp only [natLog2]
    split_ifs with h2
    · simpa using h2
    · have h3 : n / 2 < 2 ^ f := by
        rw [pow_succ] at h
        omega
      have := ih (n / 2) h3
      rw [pow_succ]
      omega

theorem shiftUp_lt (fuel a b : ℕ) (h : a < b) : a * 2 ^ shiftUp fuel a b < 2 * b := by
  induction fuel generalizing a with
  | zero => simp only [shiftUp, pow_zero, mul_one]; omega
  | succ f ih =>
    simp only [shiftUp]
    rw [if_neg (by omega)]
    by_cases h2 : 2 * a < b
    · have := ih (2 * a) h2
      rw [pow_succ]
      linarith
    · have h0 : shiftUp f (2 * a) b = 0 := by
        cases f with
        | zero => rfl
        | succ g => simp only [shiftUp]; rw [if_pos (by omega)]
      rw [h0]
      simp only [zero_add, pow_one]
      omega

/-- The exponent log2Floor gives is the binary exponent: q lies below the next
power of two. -/
theorem lt_log2Floor {q : ℚ} (hq : 0 < q) : q < (2 : ℚ) ^ (log2Floor q + 1) := by
  have hnum : 0 < q.num := Rat.num_pos.mpr hq
  have hden : 0 < q.den := q.den_pos
  have hqe : q = (q.num.natAbs : ℚ) / q.den := by
    have h2 : (q.num.natAbs : ℚ) = q.num := by
      rw [Nat.cast_natAbs, abs_of_pos hnum]
    rw [h2, Rat.num_div_den]
  have hdq : (0 : ℚ) < q.den := by exact_mod_cast hden
  unfold log2Floor
  split_ifs with h
  · have h1 : q.num.natAbs / q.den < 2 ^ q.num.natAbs :=
      lt_of_le_of_lt (Nat.div_le_self _ _) (Nat.lt_two_pow _)
    have h2 := lt_natLog2 q.num.natAbs _ h1
    have h3 : q.num.natAbs < (q.num.natAbs / q.den + 1) * q.den := by
      have := Nat.div_add_mod q.num.natAbs q.den
      have := Nat.mod_lt q.num.natAbs hden
      nlinarith
    have h4 : q.num.natAbs
        < 2 ^ (natLog2 q.num.natAbs (q.num.natAbs / q.den) + 1) * q.den :=
      lt_of_lt_of_le h3 (Nat.mul_le_mul_right _ h2)
    have e : (natLog2 q.num.natAbs (q.num.natAbs / q.den) : ℤ) + 1
        = ((natLog2 q.num.natAbs (q.num.natAbs / q.den) + 1 : ℕ) : ℤ) := by push_cast; rfl
    rw [e, zpow_natCast]
    conv_lhs => rw [hqe]
    rw [div_lt_iff₀ hdq]
    exact_mod_cast h4
  · have h2 := shiftUp_lt q.den q.num.natAbs q.den (by omega)
    have hk : 1 ≤ shiftUp q.den q.num.natAbs q.den := by
      cases hd : q.den with
      | zero => omega
      | succ d =>
        rw [hd] at h
        simp only [shiftUp]
        rw [if_neg h]
        omega
    obtain ⟨k, hk2⟩ : ∃ k, shiftUp q.den q.num.natAbs q.den = k + 1 := ⟨_, (Nat.sub_add_cancel hk).symm⟩
    rw [hk2] at h2 ⊢
    have e : -(((k + 1 : ℕ) : ℤ)) + 1 = -(k : ℤ) := by push_cast; ring
    rw [e, zpow_neg, zpow_natCast]
    conv_lhs => rw [hqe]
    rw [inv_eq_one_div, div_lt_div_iff₀ hdq (by positivity)]
    have h5 : q.num.natAbs * 2 ^ k < q.den := by
      have h6 : q.num.natAbs * 2 ^ k * 2 < 2 * q.den := by
        rw [pow_succ, ← mul_assoc] at h2; exact h2
      omega
    have : ((q.num.natAbs * 2 ^ k : ℕ) : ℚ) < ((q.den : ℕ) : ℚ) := by exact_mod_cast h5
    push_cast at this
    linarith
theorem f64_natCast (n : ℕ) (h : n < 2 ^ 53) : f64 (n : ℚ) = n :=
  f64_round_rep (by positivity) (float53_nat n h)

theorem f64_nonneg {q : ℚ} (hq : 0 ≤ q) : 0 ≤ f64 q := by
  rcases hq.eq_or_lt with h | h
  · rw [← h]; simp [f64]
  · exact f64_le_round h ⟨0, 0, by norm_num, by simp⟩ h.le

/-- The float sum whole + nsec/unit truncates to whole when the fraction is at
most 4095/4096. -/
theorem f64_whole_plus_frac (w n u : ℕ) (hw : w < 2 ^ 40) (hn : n < 2 ^ 53)
    (hu : 0 < u) (hfrac : 4096 * n ≤ 4095 * u) :
    f64trunc (f64 (f64 (w : ℚ) + f64 (f64 (n : ℚ) / u))) = w := by
  have hw53 : w < 2 ^ 53 := lt_trans hw (by norm_num)
  rw [f64_natCast w hw53, f64_natCast n hn]
  have huq : (0 : ℚ) < u := by exact_mod_cast hu
  have hq0 : (0 : ℚ) ≤ (n : ℚ) / u := by positivity
  have hq1 : (n : ℚ) / u ≤ 4095 / 4096 := by
    rw [div_le_div_iff₀ huq (by norm_num)]
    have : ((4096 * n : ℕ) : ℚ) ≤ ((4095 * u : ℕ) : ℚ) := by exact_mod_cast hfrac
    push_cast at this
    linarith
  have hx0 : 0 ≤ f64 ((n : ℚ) / u) := f64_nonneg hq0
  have hx1 : f64 ((n : ℚ) / u) ≤ 4095 / 4096 := by
    rcases hq0.eq_or_lt with h | h
    · rw [← h]; simp [f64]; norm_num
    · refine f64_round_le h ⟨4095, -12, by norm_num, ?_⟩ hq1
      norm_num
  set x := f64 ((n : ℚ) / u) with hx
  have hs0 : (w : ℚ) ≤ f64 (w + x) := by
    rcases (add_nonneg (Nat.cast_nonneg w) hx0 : (0 : ℚ) ≤ w + x).eq_or_lt with h | h
    · have hz : f64 0 = 0 := by simp [f64]
      rw [← h, hz]
      linarith [(Nat.cast_nonneg w : (0 : ℚ) ≤ w)]
    · exact f64_le_round h (float53_nat w hw53) (by linarith)
  have hs1 : f64 (w + x) ≤ (w : ℚ) + 4095 / 4096 := by
    rcases (add_nonneg (Nat.cast_nonneg w) hx0 : (0 : ℚ) ≤ w + x).eq_or_lt with h | h
    · have hz : f64 0 = 0 := by simp [f64]
      rw [← h, hz]
      positivity
    · refine f64_round_le h ⟨4096 * w + 4095, -12, ?_, ?_⟩ (by linarith)
      · have : w < 1099511627776 := by simpa using hw
        norm_num; omega
      · push_cast; norm_num; ring
  unfold f64trunc
  rw [if_pos (le_trans (Nat.cast_nonneg w) hs0)]
  rw [Int.floor_eq_iff]
  constructor
  · exact_mod_cast hs0
  · push_cast; linarith

theorem repr_length_small (n : ℕ) (h : n < 10) : (Nat.repr n).length = 1 := by
  interval_cases n <;> decide

theorem repr_length_big (n : ℕ) (h : 10 ≤ n) : 2 ≤ (Nat.repr n).length := by
  have h1 : n / 10 ≠ 0 := by omega
  have h2 : ∀ (f m : ℕ) (l : List Char), l.length ≤ (Nat.toDigitsCore 10 f m l).length := by
    intro f
    induction f with
    | zero => intro m l; simp [Nat.toDigitsCore]
    | succ f ih =>
      intro m l
      simp only [Nat.toDigitsCore]
      split_ifs
      · simp
      · exact le_trans (by simp) (ih _ _)
  have h3 : Nat.toDigits 10 n =
      Nat.toDigitsCore 10 n (n / 10) [(n % 10).digitChar] := by
    simp only [Nat.toDigits, Nat.toDigitsCore, if_neg h1]
  show 2 ≤ (Nat.toDigits 10 n).asString.length
  rw [h3]
  cases n with
  | zero => omega
  | succ k =>
    simp only [Nat.toDigitsCore]
    split_ifs
    · simp [List.asString, String.length]
    · exact le_trans (by simp) (h2 _ _ _)

theorem toDigits_length_small (n : ℕ) (h : n < 10) : (Nat.toDigits 10 n).length = 1 := by
  interval_cases n <;> decide

theorem toDigits_length_big (n : ℕ) (h : 10 ≤ n) : 2 ≤ (Nat.toDigits 10 n).length := by
  have := repr_length_big n h
  simpa [Nat.repr, List.asString, String.length] using this

theorem fmt02dChars_natCast (n : ℕ) : fmt02dChars (n : Int) = (twoDigits n).data := by
  unfold fmt02dChars twoDigits
  have hneg : ¬ ((n : Int) < 0) := by omega
  simp only [hneg, if_false, Int.natAbs_ofNat]
  by_cases h : n < 10
  · rw [if_pos h, toDigits_length_small n h]
    simp [Nat.repr, List.asString]
  · rw [if_neg h]
    have := toDigits_length_big n (by omega)
    have h0 : 2 - (Nat.toDigits 10 n).length = 0 := by omega
    rw [h0]
    simp [Nat.repr, List.asString]

theorem formatDurationHMS_seconds (T : ℕ) (hT : T * 1000000000 ≤ 2 ^ 63 - 1) :
    formatDurationHMS (T * Second) =
      twoDigits (T / 3600) ++ ":" ++ twoDigits (T / 60 % 60) ++ ":" ++ twoDigits (T % 60) := by
  have hTb : T ≤ 9223372036 := by omega
  have hh : f64trunc (durHours (T * Second)) = ((T / 3600 : ℕ) : Int) := by
    unfold durHours
    have e1 : ((T : Int) * Second).tdiv Hour = ((T / 3600 : ℕ) : Int) := by
      simp only [Second, Minute, Hour]
      rw [Int.tdiv_eq_ediv (by positivity) (by norm_num)]
      omega
    have e2 : ((T : Int) * Second).tmod Hour = ((T % 3600 * 1000000000 : ℕ) : Int) := by
      simp only [Second, Minute, Hour]
      rw [Int.tmod_eq_emod (by positivity) (by norm_num)]
      omega
    rw [e1, e2]
    have := f64_whole_plus_frac (T / 3600) (T % 3600 * 1000000000) 3600000000000
      (by norm_num; omega) (by norm_num; omega) (by norm_num) (by omega)
    simpa using this
  have hm : f64trunc (durMinutes (T * Second)) = ((T / 60 : ℕ) : Int) := by
    unfold durMinutes
    have e1 : ((T : Int) * Second).tdiv Minute = ((T / 60 : ℕ) : Int) := by
      simp only [Second, Minute]
      rw [Int.tdiv_eq_ediv (by positivity) (by norm_num)]
      omega
    have e2 : ((T : Int) * Second).tmod Minute = ((T % 60 * 1000000000 : ℕ) : Int) := by
      simp only [Second, Minute]
      rw [Int.tmod_eq_emod (by positivity) (by norm_num)]
      omega
    rw [e1, e2]
    have := f64_whole_plus_frac (T / 60) (T % 60 * 1000000000) 60000000000
      (by norm_num; omega) (by norm_num; omega) (by norm_num) (by omega)
    simpa using this
  have hs : f64trunc (durSeconds (T * Second)) = ((T : ℕ) : Int) := by
    unfold durSeconds
    have e1 : ((T : Int) * Second).tdiv Second = ((T : ℕ) : Int) := by
      simp only [Second]
      rw [Int.tdiv_eq_ediv (by positivity) (by norm_num)]
      omega
    have e2 : ((T : Int) * Second).tmod Second = ((0 : ℕ) : Int) := by
      simp only [Second]
      rw [Int.tmod_eq_emod (by positivity) (by norm_num)]
      omega
    rw [e1, e2]
    have := f64_whole_plus_frac T 0 1000000000
      (by norm_num; omega) (by norm_num) (by norm_num) (by omega)
    simpa using this
  unfold formatDurationHMS
  simp only [hh, hm, hs]
  have e3 : ((T / 60 : ℕ) : Int).tmod 60 = ((T / 60 % 60 : ℕ) : Int) := by
    rw [Int.tmod_eq_emod (by positivity) (by norm_num)]; omega
  have e4 : ((T : ℕ) : Int).tmod 60 = ((T % 60 : ℕ) : Int) := by
    rw [Int.tmod_eq_emod (by positivity) (by norm_num)]; omega
  rw [e3, e4, fmt02dChars_natCast, fmt02dChars_natCast, fmt02dChars_natCast]
  apply String.ext
  simp


/-! ## The probe output 3661.4 -/

theorem f64_ten : f64 (10 : ℚ) = 10 := by
  simpa using f64_natCast 10 (by norm_num)

/-- The fraction .4 of a second is 400000000 nanoseconds:
uint64(float64(4) * (float64(1e9) / 10)). -/
theorem fracNanos_tenths_4 : fracNanos 4 1000000000 10 = 400000000 := by
  unfold fracNanos
  have e1 : f64 ((4 : ℕ) : ℚ) = 4 := by simpa using f64_natCast 4 (by norm_num)
  have e2 : f64 ((1000000000 : ℕ) : ℚ) = 1000000000 := by
    simpa using f64_natCast 1000000000 (by norm_num)
  have e3 : f64 ((1000000000 : ℚ) / 10) = 100000000 := by
    have := f64_natCast 100000000 (by norm_num)
    norm_num at this ⊢; exact this
  have e4 : f64 ((4 : ℚ) * 100000000) = 400000000 := by
    have := f64_natCast 400000000 (by norm_num)
    norm_num at this ⊢; exact this
  rw [e1, e2, e3, e4]
  simp [f64trunc]

/-- The fraction .5 of a second is 500000000 nanoseconds. -/
theorem fracNanos_tenths_5 : fracNanos 5 1000000000 10 = 500000000 := by
  unfold fracNanos
  have e1 : f64 ((5 : ℕ) : ℚ) = 5 := by simpa using f64_natCast 5 (by norm_num)
  have e2 : f64 ((1000000000 : ℕ) : ℚ) = 1000000000 := by
    simpa using f64_natCast 1000000000 (by norm_num)
  have e3 : f64 ((1000000000 : ℚ) / 10) = 100000000 := by
    have := f64_natCast 100000000 (by norm_num)
    norm_num at this ⊢; exact this
  have e4 : f64 ((5 : ℚ) * 100000000) = 500000000 := by
    have := f64_natCast 500000000 (by norm_num)
    norm_num at this ⊢; exact this
  rw [e1, e2, e3, e4]
  simp [f64trunc]

theorem ParseDuration_3661_4 : ParseDuration "3661.4s" = some 3661400000000 := by
  simp +decide [ParseDuration, parseGroups, parseGroup, leadingInt, leadingFraction, unitMap,
    isDigitOrDot, fracNanos_tenths_4, f64_ten, addGroup]

theorem ParseDuration_3661_5 : ParseDuration "3661.5s" = some 3661500000000 := by
  simp +decide [ParseDuration, parseGroups, parseGroup, leadingInt, leadingFraction, unitMap,
    isDigitOrDot, fracNanos_tenths_5, f64_ten, addGroup]

theorem probeDuration_3661_4 : probeDuration "3661.4" = Except.ok "01:01:01" := by
  have hl : firstLine "3661.4" ++ "s" = "3661.4s" := by decide
  have hr : durRound 3661400000000 Second = ((3661 : ℕ) : Int) * Second := by decide
  unfold probeDuration
  rw [hl, ParseDuration_3661_4]
  simp only [hr, formatDurationHMS_seconds 3661 (by norm_num)]
  decide

theorem probeDuration_3661_5 : probeDuration "3661.5" = Except.ok "01:01:02" := by
  have hl : firstLine "3661.5" ++ "s" = "3661.5s" := by decide
  have hr : durRound 3661500000000 Second = ((3662 : ℕ) : Int) * Second := by decide
  unfold probeDuration
  rw [hl, ParseDuration_3661_5]
  simp only [hr, formatDurationHMS_seconds 3662 (by norm_num)]
  decide

/-! ## Paths: the id of a file found by Glob -/

theorem takeWhile_append_of_all {α : Type} (p : α → Bool) (l r : List α)
    (h : ∀ x ∈ l, p x = true) : (l ++ r).takeWhile p = l ++ r.takeWhile p := by
  induction l with
  | nil => rfl
  | cons a l ih =>
    have ha : p a = true := h a (List.mem_cons_self _ _)
    simp [List.takeWhile, ha, ih (fun x hx => h x (List.mem_cons_of_mem _ hx))]

/-- The last element of dir/n, for a name n without slash. -/
theorem lastElemRev_child (dir n : List Char) (hn : '/' ∉ n) :
    lastElemRev (dir ++ '/' :: n) = n.reverse := by
  unfold lastElemRev
  have hrev : (dir ++ '/' :: n).reverse = n.reverse ++ ('/' :: dir.reverse) := by simp
  rw [hrev, takeWhile_append_of_all]
  · simp [List.takeWhile]
  · intro x hx
    have : x ∈ n := List.mem_reverse.mp hx
    simp only [decide_eq_true_eq]
    rintro rfl
    exact hn this

theorem m4a_chars : ".m4a".toList = ['.', 'm', '4', 'a'] := rfl

/-- The id of the file dir/s.m4a, for s without slash, is s. -/
theorem stem_chars (dir s : List Char) (hs : '/' ∉ s) :
    trimSuffixChars (baseChars (dir ++ '/' :: (s ++ ['.', 'm', '4', 'a'])))
      (extChars (dir ++ '/' :: (s ++ ['.', 'm', '4', 'a']))) = s := by
  have hn : '/' ∉ s ++ ['.', 'm', '4', 'a'] := by
    simp only [List.mem_append, not_or]
    exact ⟨hs, by decide⟩
  have hext : extChars (dir ++ '/' :: (s ++ ['.', 'm', '4', 'a'])) = ['.', 'm', '4', 'a'] := by
    unfold extChars
    rw [lastElemRev_child _ _ hn]
    simp [List.takeWhile]
  have hbase : baseChars (dir ++ '/' :: (s ++ ['.', 'm', '4', 'a'])) = s ++ ['.', 'm', '4', 'a'] := by
    unfold baseChars
    have hne : dir ++ '/' :: (s ++ ['.', 'm', '4', 'a']) ≠ [] := by simp
    rw [if_neg hne]
    have hrev : (dir ++ '/' :: (s ++ ['.', 'm', '4', 'a'])).reverse
        = 'a' :: ('4' :: 'm' :: '.' :: s.reverse ++ '/' :: dir.reverse) := by simp
    have hdrop : ((dir ++ '/' :: (s ++ ['.', 'm', '4', 'a'])).reverse.dropWhile
        (fun c => decide (c = '/'))) = (dir ++ '/' :: (s ++ ['.', 'm', '4', 'a'])).reverse := by
      rw [hrev]; simp [List.dropWhile]
    simp only [hdrop, List.reverse_reverse]
    rw [lastElemRev_child _ _ hn]
    simp
  rw [hext, hbase]
  unfold trimSuffixChars
  have : (['.', 'm', '4', 'a'] : List Char).isSuffixOf (s ++ ['.', 'm', '4', 'a']) = true := by
    rw [List.isSuffixOf_iff_suffix]; exact List.suffix_append _ _
  rw [if_pos this]
  simp

theorem toList_append (a b : String) : (a ++ b).toList = a.toList ++ b.toList :=
  String.data_append a b

/-- What matchesM4a says of a path: it is folder/s.m4a for an s without slash. -/
theorem matchesM4a_iff (folder path : String) :
    matchesM4a folder path = true ↔
      ∃ s : List Char, '/' ∉ s ∧
        path.toList = folder.toList ++ '/' :: (s ++ ['.', 'm', '4', 'a']) := by
  unfold matchesM4a
  simp only [Bool.and_eq_true, decide_eq_true_eq, List.isPrefixOf_iff_prefix,
    List.isSuffixOf_iff_suffix, m4a_chars]
  have hf : (folder ++ "/").toList = folder.toList ++ ['/'] := toList_append folder "/"
  have hl : (folder ++ "/").length = (folder.toList ++ ['/']).length := by
    rw [← hf]; rfl
  rw [hf, hl]
  constructor
  · rintro ⟨⟨t, ht⟩, hns, ⟨s, hs⟩⟩
    rw [← ht, List.drop_left] at hns hs
    refine ⟨s, ?_, ?_⟩
    · intro hmem
      exact hns (hs ▸ List.mem_append_left _ hmem)
    · rw [← ht, ← hs]; simp
  · rintro ⟨s, hs, hp⟩
    have hp2 : path.toList = (folder.toList ++ ['/']) ++ (s ++ ['.', 'm', '4', 'a']) := by
      rw [hp]; simp
    rw [hp2, List.drop_left]
    refine ⟨List.prefix_append _ _, ?_, List.suffix_append _ _⟩
    intro hmem
    rcases List.mem_append.mp hmem with h | h
    · exact hs h
    · revert h; decide

/-- The id Process computes for folder/s.m4a is s. -/
theorem fileStem_of_matches (folder path : String) (s : List Char) (hs : '/' ∉ s)
    (hp : path.toList = folder.toList ++ '/' :: (s ++ ['.', 'm', '4', 'a'])) :
    fileStem path = String.mk s := by
  unfold fileStem TrimSuffix Base Ext
  rw [hp]
  show String.mk (trimSuffixChars (baseChars _) (extChars _)) = _
  rw [stem_chars _ _ hs]

/-- The file of an entry, when Glob finds it, has the id of the entry. -/
theorem fileStem_entry_file (folder id : String)
    (h : matchesM4a folder (folder ++ "/" ++ id ++ ".m4a") = true) :
    fileStem (folder ++ "/" ++ id ++ ".m4a") = id := by
  obtain ⟨s, hs, hp⟩ := (matchesM4a_iff _ _).mp h
  have hpath : (folder ++ "/" ++ id ++ ".m4a").toList
      = folder.toList ++ '/' :: (id.toList ++ ['.', 'm', '4', 'a']) := by
    rw [toList_append, toList_append, toList_append]
    simp [m4a_chars]
  rw [hpath] at hp
  have hsid : id.toList = s := by
    have h1 := List.append_cancel_left hp
    have h2 : id.toList ++ ['.', 'm', '4', 'a'] = s ++ ['.', 'm', '4', 'a'] := by
      simpa using h1
    exact List.append_cancel_right h2
  rw [fileStem_of_matches folder _ id.toList (hsid ▸ hs) hpath]
  rfl
/-! ## Match on the pattern of Process -/

/-- Once the match has failed, a chunk of plain characters is read to its end
without error. -/
theorem matchChunkLoop_failed :
    ∀ (chunk : List Char) (fuel : Nat) (s : List Char), (∀ c ∈ chunk, litChar c) →
      chunk.length < fuel → matchChunkLoop fuel chunk s true = Except.ok none := by
  intro chunk
  induction chunk with
  | nil =>
    intro fuel s _ hf
    obtain ⟨f, rfl⟩ : ∃ f, fuel = f + 1 := ⟨fuel - 1, by omega⟩
    simp [matchChunkLoop]
  | cons c chunk1 ih =>
    intro fuel s hl hf
    obtain ⟨f, rfl⟩ : ∃ f, fuel = f + 1 := ⟨fuel - 1, by omega⟩
    obtain ⟨h1, h2, h3, -⟩ := hl c (List.mem_cons_self _ _)
    have hlen : chunk1.length < f := by simp at hf; omega
    simp only [matchChunkLoop, Bool.true_or, if_neg h1, if_neg h2, if_neg h3, if_true]
    exact ih f s (fun x hx => hl x (List.mem_cons_of_mem _ hx)) hlen

/-- A chunk of plain characters matches the beginning of s when it is a prefix
of s. -/
theorem matchChunkLoop_lit :
    ∀ (chunk : List Char) (fuel : Nat) (s : List Char), (∀ c ∈ chunk, litChar c) →
      chunk.length < fuel →
      matchChunkLoop fuel chunk s false
        = Except.ok (if chunk <+: s then some (s.drop chunk.length) else none) := by
  intro chunk
  induction chunk with
  | nil =>
    intro fuel s _ hf
    obtain ⟨f, rfl⟩ : ∃ f, fuel = f + 1 := ⟨fuel - 1, by omega⟩
    simp [matchChunkLoop]
  | cons c chunk1 ih =>
    intro fuel s hl hf
    obtain ⟨f, rfl⟩ : ∃ f, fuel = f + 1 := ⟨fuel - 1, by omega⟩
    obtain ⟨h1, h2, h3, -⟩ := hl c (List.mem_cons_self _ _)
    have hlen : chunk1.length < f := by simp at hf; omega
    have hl1 : ∀ x ∈ chunk1, litChar x := fun x hx => hl x (List.mem_cons_of_mem _ hx)
    cases s with
    | nil =>
      simp only [matchChunkLoop, Bool.false_or, List.isEmpty_nil, if_neg h1, if_neg h2,
        if_neg h3, if_true]
      rw [matchChunkLoop_failed chunk1 f [] hl1 hlen]
      simp
    | cons x xs =>
      simp only [matchChunkLoop, Bool.false_or, List.isEmpty_cons, if_neg h1, if_neg h2,
        if_neg h3, Bool.false_eq_true, if_false, List.tail_cons, List.head?_cons]
      by_cases hx : x = c
      · subst hx
        simp only [ne_eq, not_true_eq_false, decide_False]
        rw [ih f xs hl1 hlen]
        simp [List.cons_prefix_cons]
      · have hne : (some x : Option Char) ≠ some c := fun h => hx (Option.some.inj h)
        simp only [ne_eq, hne, not_false_eq_true, decide_True]
        rw [matchChunkLoop_failed chunk1 f xs hl1 hlen]
        have : ¬ (c :: chunk1 <+: x :: xs) := by
          rw [List.cons_prefix_cons]
          exact fun h => hx h.1.symm
        simp [this]

theorem matchChunk_lit (chunk s : List Char) (hl : ∀ c ∈ chunk, litChar c) :
    matchChunk chunk s
      = Except.ok (if chunk <+: s then some (s.drop chunk.length) else none) :=
  matchChunkLoop_lit chunk _ s hl (Nat.lt_succ_self _)

theorem scanLoop_cons (c : Char) (cs : List Char) (inrange : Bool) (h : c ≠ '\\') :
    scanLoop (c :: cs) inrange
      = if c = '[' then 1 + scanLoop cs true
        else if c = ']' then 1 + scanLoop cs false
        else if c = '*' then (if inrange then 1 + scanLoop cs inrange else 0)
        else 1 + scanLoop cs inrange := by
  cases cs <;> simp [scanLoop, h]

/-- The chunk that begins a pattern of plain characters followed by a star. -/
theorem scanLoop_lit :
    ∀ (l r : List Char), (∀ c ∈ l, litChar c) → scanLoop (l ++ '*' :: r) false = l.length := by
  intro l
  induction l with
  | nil =>
    intro r _
    rw [List.nil_append, scanLoop_cons _ _ _ (by decide)]
    simp +decide
  | cons c l ih =>
    intro r hl
    obtain ⟨h1, -, h3, h4⟩ := hl c (List.mem_cons_self _ _)
    have ih2 := ih r (fun x hx => hl x (List.mem_cons_of_mem _ hx))
    rw [List.cons_append, scanLoop_cons _ _ _ h3, if_neg h1]
    by_cases h5 : c = ']'
    · rw [if_pos h5, ih2, List.length_cons]
      omega
    · rw [if_neg h5, if_neg h4, ih2, List.length_cons]
      omega

theorem litChar_m4a : ∀ c ∈ ['.', 'm', '4', 'a'], litChar c := by
  unfold litChar
  decide

/-- A name that ends in .m4a and is longer ends in .m4a once its first
character is dropped. -/
theorem suffix_m4a_cons (c : Char) (rest : List Char) (hr : rest ≠ ['.', 'm', '4', 'a']) :
    (['.', 'm', '4', 'a'].isSuffixOf (c :: rest) = true ∧ c :: rest ≠ ['.', 'm', '4', 'a']) ↔
      (['.', 'm', '4', 'a'].isSuffixOf rest = true ∧ rest ≠ ['.', 'm', '4', 'a']) := by
  rw [List.isSuffixOf_iff_suffix, List.isSuffixOf_iff_suffix, List.suffix_cons_iff]
  constructor
  · rintro ⟨h | h, hne⟩
    · exact absurd h.symm hne
    · exact ⟨h, hr⟩
  · rintro ⟨h, -⟩
    refine ⟨Or.inr h, ?_⟩
    intro heq
    have := h.length_le
    rw [← heq] at this
    simp at this

/-- The inner loop of Match for the chunk .m4a, the last of its pattern, on a
name without slash: it succeeds when the name is longer than the chunk and
ends with it. -/
theorem starLoop_m4a :
    ∀ name : List Char, '/' ∉ name →
      starLoop ['.', 'm', '4', 'a'] true name
        = Except.ok (if ['.', 'm', '4', 'a'].isSuffixOf name = true ∧ name ≠ ['.', 'm', '4', 'a']
            then some [] else none) := by
  intro name
  induction name with
  | nil =>
    intro _
    rw [starLoop]
    decide
  | cons c rest ih =>
    intro hs
    have hc : c ≠ '/' := fun h => hs (h ▸ List.mem_cons_self _ _)
    have hrest : '/' ∉ rest := fun h => hs (List.mem_cons_of_mem _ h)
    rw [starLoop, if_neg hc, matchChunk_lit _ _ litChar_m4a]
    by_cases hp : ['.', 'm', '4', 'a'] <+: rest
    · rw [if_pos hp]
      obtain ⟨t, ht⟩ := hp
      have hd : List.drop ['.', 'm', '4', 'a'].length rest = t := by
        rw [← ht]; simp
      by_cases h0 : t = []
      · subst h0
        have hr : rest = ['.', 'm', '4', 'a'] := by simpa using ht.symm
        subst hr
        have : (['.', 'm', '4', 'a'].isSuffixOf (c :: ['.', 'm', '4', 'a']) = true ∧
            c :: ['.', 'm', '4', 'a'] ≠ ['.', 'm', '4', 'a']) := by
          refine ⟨?_, by simp⟩
          rw [List.isSuffixOf_iff_suffix]
          exact List.suffix_cons _ _
        rw [if_pos this]
        simp
      · have hr : rest ≠ ['.', 'm', '4', 'a'] := by
          intro h
          rw [h] at ht
          exact h0 (by simpa using ht)
        simp only [hd]
        rw [if_pos ⟨trivial, h0⟩, ih hrest]
        congr 1
        exact if_congr (suffix_m4a_cons c rest hr).symm rfl rfl
    · rw [if_neg hp]
      have hr : rest ≠ ['.', 'm', '4', 'a'] := by
        intro h
        exact hp (h ▸ List.prefix_refl _)
      simp only
      rw [ih hrest]
      congr 1
      exact if_congr (suffix_m4a_cons c rest hr).symm rfl rfl

theorem scanChunk_m4a :
    scanChunk ['*', '.', 'm', '4', 'a'] = (true, ['.', 'm', '4', 'a'], []) := by
  decide

/-- The pattern *.m4a matches a name without slash when the name ends in
.m4a. -/
theorem matchLoop_m4a (name : List Char) (hs : '/' ∉ name) :
    matchLoop 6 ['*', '.', 'm', '4', 'a'] name
      = Except.ok (['.', 'm', '4', 'a'].isSuffixOf name) := by
  have hne : (['*', '.', 'm', '4', 'a'] : List Char) ≠ [] := by simp
  have hstar : ¬ (True ∧ (['.', 'm', '4', 'a'] : List Char) = []) := by simp
  have hend : matchLoop 5 [] [] = Except.ok true := by decide
  have hcheck : checkRest (([] : List Char).length + 1) [] = Except.ok false := by decide
  rw [matchLoop, if_neg hne]
  simp only [scanChunk_m4a]
  rw [if_neg hstar, matchChunk_lit _ _ litChar_m4a]
  simp only [decide_True, if_true]
  rw [starLoop_m4a name hs]
  by_cases hn : name = ['.', 'm', '4', 'a']
  · subst hn
    decide
  · have hfirst : (match (if ['.', 'm', '4', 'a'] <+: name
          then some (List.drop ['.', 'm', '4', 'a'].length name) else none) with
        | some t => if t = [] ∨ ([] : List Char) ≠ [] then some t else none
        | none => none) = none := by
      by_cases hp : ['.', 'm', '4', 'a'] <+: name
      · rw [if_pos hp]
        obtain ⟨t, ht⟩ := hp
        have hd : List.drop ['.', 'm', '4', 'a'].length name = t := by
          rw [← ht]; simp
        have h0 : t ≠ [] := by
          intro h
          subst h
          exact hn (by simpa using ht.symm)
        rw [hd]
        simp only [h0, ne_eq, not_true_eq_false, or_self, if_false]
      · rw [if_neg hp]
    simp only [hfirst, if_true, decide_True]
    by_cases hsuf : ['.', 'm', '4', 'a'].isSuffixOf name = true
    · rw [if_pos ⟨hsuf, hn⟩]
      simp only [hend, hsuf]
    · rw [if_neg (fun h => hsuf h.1)]
      have : ['.', 'm', '4', 'a'].isSuffixOf name = false := Bool.eq_false_iff.mpr hsuf
      simp only [this]
      exact hcheck

/-- Match("*.m4a", n) for a name n without slash. -/
theorem Match_m4a (n : String) (hs : '/' ∉ n.toList) :
    Match "*.m4a" n = Except.ok (".m4a".toList.isSuffixOf n.toList) :=
  matchLoop_m4a n.toList hs

/-- A pattern of plain characters followed by a star does not match the empty
name; what follows the star is checked. -/
theorem matchLoop_lit_star_empty (c : Char) (l r : List Char) (fuel : Nat)
    (hl : ∀ x ∈ c :: l, litChar x) :
    matchLoop (fuel + 1) (c :: l ++ '*' :: r) []
      = checkRest (('*' :: r).length + 1) ('*' :: r) := by
  have hc : c ≠ '*' := (hl c (List.mem_cons_self _ _)).2.2.2
  have hne : c :: l ++ '*' :: r ≠ [] := by simp
  have hscan : scanChunk (c :: l ++ '*' :: r) = (false, c :: l, '*' :: r) := by
    unfold scanChunk
    have hd : (c :: l ++ '*' :: r).dropWhile (fun x => decide (x = '*')) = c :: l ++ '*' :: r := by
      simp [List.dropWhile, hc]
    have hh : (c :: l ++ '*' :: r).head? ≠ some '*' := by
      simp [hc]
    simp only [hd, scanLoop_lit (c :: l) r hl, hh, decide_False, List.take_left',
      List.drop_left']
  rw [matchLoop, if_neg hne]
  simp only [hscan]
  rw [matchChunk_lit _ _ hl]
  simp

/-- The pattern of Process is well-formed when the folder is written with
plain characters: Match on the empty name returns false and no error. -/
theorem Match_folder_empty (folder : String) (hne : folder ≠ "")
    (hl : ∀ x ∈ folder.toList, litChar x) :
    Match (folder ++ "/*.m4a") "" = Except.ok false := by
  unfold Match
  have hp : (folder ++ "/*.m4a").toList = folder.toList ++ ['/'] ++ '*' :: ['.', 'm', '4', 'a'] := by
    rw [toList_append]
    simp
  have h0 : "".toList = [] := rfl
  rw [hp, h0]
  cases hf : folder.toList with
  | nil => exact absurd (String.ext hf) hne
  | cons c l =>
    have hl2 : ∀ x ∈ c :: (l ++ ['/']), litChar x := by
      intro x hx
      rw [← List.cons_append, ← hf] at hx
      rcases List.mem_append.mp hx with h | h
      · exact hl x h
      · have : x = '/' := by simpa using h
        subst this
        unfold litChar
        decide
    have := matchLoop_lit_star_empty c (l ++ ['/']) ['.', 'm', '4', 'a']
      ((c :: l ++ ['/'] ++ '*' :: ['.', 'm', '4', 'a']).length) hl2
    simp only [List.cons_append, List.append_assoc] at this ⊢
    exact this.trans (by decide)
/-! ## Clean paths -/

theorem splitSlash_noslash : ∀ a : List Char, '/' ∉ a → splitSlash a = [a] := by
  intro a
  induction a with
  | nil => intro _; rfl
  | cons c a ih =>
    intro h
    have hc : c ≠ '/' := fun hh => h (hh ▸ List.mem_cons_self _ _)
    rw [splitSlash, if_neg hc, ih (fun hh => h (List.mem_cons_of_mem _ hh))]

theorem splitSlash_append : ∀ a b : List Char, '/' ∉ a →
    splitSlash (a ++ '/' :: b) = a :: splitSlash b := by
  intro a
  induction a with
  | nil => intro b _; simp [splitSlash]
  | cons c a ih =>
    intro b h
    have hc : c ≠ '/' := fun hh => h (hh ▸ List.mem_cons_self _ _)
    rw [List.cons_append, splitSlash, if_neg hc, ih b (fun hh => h (List.mem_cons_of_mem _ hh))]

theorem joinSlash_cons_cons (e e2 : List Char) (es : List (List Char)) :
    joinSlash (e :: e2 :: es) = e ++ '/' :: joinSlash (e2 :: es) := rfl

/-- Splitting a path that was joined from elements without slash gives the
elements back. -/
theorem splitSlash_joinSlash : ∀ es : List (List Char), es ≠ [] → (∀ e ∈ es, '/' ∉ e) →
    splitSlash (joinSlash es) = es := by
  intro es
  induction es with
  | nil => intro h; exact absurd rfl h
  | cons e es ih =>
    intro _ hall
    cases es with
    | nil => exact splitSlash_noslash e (hall e (List.mem_cons_self _ _))
    | cons e2 es2 =>
      rw [joinSlash_cons_cons, splitSlash_append _ _ (hall e (List.mem_cons_self _ _)),
        ih (by simp) (fun x hx => hall x (List.mem_cons_of_mem _ hx))]

theorem joinSlash_append : ∀ pre es : List (List Char), pre ≠ [] → es ≠ [] →
    joinSlash (pre ++ es) = joinSlash pre ++ '/' :: joinSlash es := by
  intro pre
  induction pre with
  | nil => intro es h; exact absurd rfl h
  | cons e pre ih =>
    intro es _ hes
    cases pre with
    | nil =>
      cases es with
      | nil => exact absurd rfl hes
      | cons e2 es2 => rfl
    | cons e2 pre2 =>
      rw [List.cons_append, List.cons_append, joinSlash_cons_cons, ← List.cons_append,
        ih es (by simp) hes, joinSlash_cons_cons]
      simp

theorem cleanElems_cons_plain (rooted : Bool) (e : List Char) (es stack : List (List Char))
    (h : plainElem e) :
    cleanElems rooted (e :: es) stack = cleanElems rooted es (e :: stack) := by
  obtain ⟨h1, h2, h3, -⟩ := h
  cases stack <;> simp [cleanElems, h1, h2, h3]

/-- The loop of Clean keeps the elements of a clean path. -/
theorem cleanElems_plain (rooted : Bool) :
    ∀ es stack : List (List Char), (∀ e ∈ es, plainElem e) →
      cleanElems rooted es stack = stack.reverse ++ es := by
  intro es
  induction es with
  | nil => intro stack _; simp [cleanElems]
  | cons e es ih =>
    intro stack h
    rw [cleanElems_cons_plain rooted e es stack (h e (List.mem_cons_self _ _)),
      ih _ (fun x hx => h x (List.mem_cons_of_mem _ hx))]
    simp

/-- Clean leaves a clean path that is not rooted as it is. -/
theorem cleanChars_plain (es : List (List Char)) (hne : es ≠ []) (h : ∀ e ∈ es, plainElem e) :
    cleanChars (joinSlash es) = joinSlash es := by
  cases es with
  | nil => exact absurd rfl hne
  | cons e es =>
    obtain ⟨h1, -, -, h4⟩ := h e (List.mem_cons_self _ _)
    obtain ⟨c, t, rfl⟩ : ∃ c t, e = c :: t := by
      cases e with
      | nil => exact absurd rfl h1
      | cons c t => exact ⟨c, t, rfl⟩
    have hc : c ≠ '/' := fun hh => h4 (hh ▸ List.mem_cons_self _ _)
    have hj : ∃ r, joinSlash ((c :: t) :: es) = c :: r := by
      cases es with
      | nil => exact ⟨t, rfl⟩
      | cons e2 es2 => exact ⟨t ++ '/' :: joinSlash (e2 :: es2), rfl⟩
    obtain ⟨r, hr⟩ := hj
    unfold cleanChars
    rw [splitSlash_joinSlash _ (by simp) (fun x hx => (h x hx).2.2.2),
      cleanElems_plain false _ _ h]
    rw [hr]
    have h0 : c :: r ≠ [] := by simp
    have hh : (c :: r).head? ≠ some '/' := by simp [hc]
    rw [if_neg h0, if_neg hh]
    simp only [List.reverse_nil, List.nil_append]
    exact hr

/-! ## The look-up of a clean path -/

theorem pathOf_toList (es : List (List Char)) : (pathOf es).toList = joinSlash es := rfl

/-- What is at or below a path is below the paths that begin it. -/
theorem below_of_start (pre es : List (List Char)) (hpre : pre ≠ []) (hes : es ≠ [])
    (q : String) (h : q = pathOf (pre ++ es) ∨ below (pathOf (pre ++ es)) q = true) :
    below (pathOf pre) q = true := by
  unfold below at h ⊢
  rw [List.isPrefixOf_iff_prefix] at h ⊢
  have hj := joinSlash_append pre es hpre hes
  have h1 : ((pathOf pre) ++ "/").toList = joinSlash pre ++ ['/'] := by
    rw [toList_append]; rfl
  rw [h1]
  rcases h with h | h
  · rw [h, pathOf_toList, hj]
    exact ⟨joinSlash es, by simp⟩
  · have h2 : ((pathOf (pre ++ es)) ++ "/").toList = joinSlash (pre ++ es) ++ ['/'] := by
      rw [toList_append]; rfl
    rw [h2, hj] at h
    obtain ⟨t, ht⟩ := h
    exact ⟨joinSlash es ++ ['/'] ++ t, by rw [← ht]; simp⟩

theorem pathOf_ne_empty (es : List (List Char)) (hne : es ≠ []) (h : ∀ e ∈ es, plainElem e) :
    pathOf es ≠ "" := by
  cases es with
  | nil => exact absurd rfl hne
  | cons e es =>
    obtain ⟨h1, -, -, -⟩ := h e (List.mem_cons_self _ _)
    intro hh
    have : joinSlash (e :: es) = [] := congrArg String.toList hh
    cases es with
    | nil => exact h1 this
    | cons e2 es2 =>
      rw [joinSlash_cons_cons] at this
      simp at this

/-- When the disk holds something at or below a path, it holds the directories
above it. -/
theorem dir_of_start (files : List File) (pre es : List (List Char)) (hpre : pre ≠ [])
    (hes : es ≠ []) (hall : ∀ e ∈ pre ++ es, plainElem e)
    (h : existsAt files (pathOf (pre ++ es)) = true) :
    isDirAt files (pathOf pre) = true ∧ existsAt files (pathOf pre) = true := by
  have hne := pathOf_ne_empty (pre ++ es) (by simp [hpre]) hall
  unfold existsAt at h
  simp only [hne, decide_False, Bool.false_or, List.any_eq_true, Bool.or_eq_true,
    decide_eq_true_eq] at h
  obtain ⟨f, hf, hq⟩ := h
  have hb := below_of_start pre es hpre hes f.path hq
  unfold isDirAt existsAt
  simp only [Bool.or_eq_true, List.any_eq_true, decide_eq_true_eq, Bool.and_eq_true]
  exact ⟨Or.inr ⟨f, hf, Or.inr hb⟩, Or.inr ⟨f, hf, Or.inr hb⟩⟩

theorem walk_cons_plain (files : List File) (e : List Char) (es cur : List (List Char))
    (h : plainElem e) :
    walk files (e :: es) cur
      = if isDirAt files (pathOf cur.reverse) = true then
          (if existsAt files (pathOf (e :: cur).reverse) = true then walk files es (e :: cur)
            else Resolved.missing)
        else Resolved.missing := by
  obtain ⟨h1, h2, h3, -⟩ := h
  cases cur with
  | nil =>
    simp only [walk, h1, h2, h3, or_self, if_false]
    cases isDirAt files (pathOf ([] : List (List Char)).reverse) <;> simp
  | cons a cur =>
    simp only [walk, h1, h2, h3, or_self, if_false]
    cases isDirAt files (pathOf (a :: cur).reverse) <;> simp

/-- The look-up of clean elements from a directory that exists: it ends at the
path when the disk holds it. -/
theorem walk_found (files : List File) :
    ∀ (es cur : List (List Char)), es ≠ [] → (∀ e ∈ cur.reverse ++ es, plainElem e) →
      isDirAt files (pathOf cur.reverse) = true →
      existsAt files (pathOf (cur.reverse ++ es)) = true →
      walk files es cur = Resolved.found (pathOf (cur.reverse ++ es)) := by
  intro es
  induction es with
  | nil => intro cur h; exact absurd rfl h
  | cons e es ih =>
    intro cur _ hall hdir hex
    have hcur : (e :: cur).reverse ++ es = cur.reverse ++ e :: es := by simp
    rw [walk_cons_plain files e es cur (hall e (by simp)), if_pos hdir]
    cases es with
    | nil =>
      have hp : (e :: cur).reverse = cur.reverse ++ [e] := by simp
      rw [hp, if_pos hex, walk, hp]
    | cons e2 es2 =>
      have hd := dir_of_start files (e :: cur).reverse (e2 :: es2) (by simp) (by simp)
        (by rw [hcur]; exact hall) (by rw [hcur]; exact hex)
      rw [if_pos hd.2, ih (e :: cur) (by simp) (by rw [hcur]; exact hall) hd.1
        (by rw [hcur]; exact hex), hcur]

/-- The look-up of clean elements ends nowhere when the disk does not hold the
path. -/
theorem walk_missing (files : List File) :
    ∀ (es cur : List (List Char)), es ≠ [] → (∀ e ∈ es, plainElem e) →
      existsAt files (pathOf (cur.reverse ++ es)) = false →
      walk files es cur = Resolved.missing := by
  intro es
  induction es with
  | nil => intro cur h; exact absurd rfl h
  | cons e es ih =>
    intro cur _ hall hex
    have hcur : (e :: cur).reverse ++ es = cur.reverse ++ e :: es := by simp
    rw [walk_cons_plain files e es cur (hall e (List.mem_cons_self _ _))]
    split_ifs with ha hd
    · cases es with
      | nil =>
        have hp : (e :: cur).reverse = cur.reverse ++ [e] := by simp
        rw [hp, hex] at hd
        exact absurd hd (by simp)
      | cons e2 es2 =>
        exact ih (e :: cur) (by simp) (fun x hx => hall x (List.mem_cons_of_mem _ hx))
          (by rw [hcur]; exact hex)
    · rfl
    · rfl

/-- The look-up of a clean path: the path itself when the disk holds it. -/
theorem resolve_plain (files : List File) (es : List (List Char)) (hne : es ≠ [])
    (hall : ∀ e ∈ es, plainElem e) :
    resolve files (pathOf es)
      = if existsAt files (pathOf es) = true then Resolved.found (pathOf es)
        else Resolved.missing := by
  have h0 := pathOf_ne_empty es hne hall
  have hhead : (pathOf es).toList.head? ≠ some '/' := by
    rw [pathOf_toList]
    cases es with
    | nil => exact absurd rfl hne
    | cons e es =>
      obtain ⟨h1, -, -, h4⟩ := hall e (List.mem_cons_self _ _)
      cases e with
      | nil => exact absurd rfl h1
      | cons c t =>
        have hc : c ≠ '/' := fun hh => h4 (hh ▸ List.mem_cons_self _ _)
        cases es with
        | nil => simp [joinSlash, hc]
        | cons e2 es2 => simp [joinSlash, hc]
  unfold resolve
  rw [if_neg h0, if_neg hhead, pathOf_toList,
    splitSlash_joinSlash es hne (fun e he => (hall e he).2.2.2)]
  have hd : isDirAt files (pathOf ([] : List (List Char)).reverse) = true := by
    unfold isDirAt pathOf
    simp [joinSlash]
  by_cases hex : existsAt files (pathOf es) = true
  · rw [if_pos hex]
    have := walk_found files es [] hne (by simpa using hall) hd (by simpa using hex)
    simpa using this
  · rw [if_neg hex]
    exact walk_missing files es [] hne hall (by simpa using hex)
/-! ## Glob in the folder of a plain name -/

theorem below_iff (d q : String) :
    below d q = true ↔ ∃ t, q.toList = d.toList ++ '/' :: t := by
  unfold below
  rw [List.isPrefixOf_iff_prefix, toList_append]
  constructor
  · rintro ⟨t, ht⟩
    exact ⟨t, by rw [← ht]; simp⟩
  · rintro ⟨t, ht⟩
    exact ⟨t, by rw [ht]; simp⟩

theorem takeWhile_noslash (n t : List Char) (hn : '/' ∉ n) :
    (n ++ '/' :: t).takeWhile (fun c => decide (c ≠ '/')) = n := by
  rw [takeWhile_append_of_all]
  · simp [List.takeWhile]
  · intro x hx
    simp only [ne_eq, decide_not, Bool.not_eq_true', decide_eq_false_iff_not]
    rintro rfl
    exact hn hx

theorem takeWhile_noslash_all (n : List Char) (hn : '/' ∉ n) :
    n.takeWhile (fun c => decide (c ≠ '/')) = n := by
  have := takeWhile_append_of_all (fun c => decide (c ≠ '/')) n [] (by
    intro x hx
    simp only [ne_eq, decide_not, Bool.not_eq_true', decide_eq_false_iff_not]
    rintro rfl
    exact hn hx)
  simpa using this

theorem takeWhile_slash_free (t : List Char) :
    '/' ∉ t.takeWhile (fun c => decide (c ≠ '/')) := by
  intro h
  have := List.mem_takeWhile_imp h
  simp at this

/-- A text is its first element, alone or followed by a slash and more. -/
theorem takeWhile_split (t : List Char) :
    t = t.takeWhile (fun c => decide (c ≠ '/')) ∨
      ∃ r, t = t.takeWhile (fun c => decide (c ≠ '/')) ++ '/' :: r := by
  induction t with
  | nil => left; rfl
  | cons c t ih =>
    by_cases hc : c = '/'
    · subst hc
      right
      exact ⟨t, by simp [List.takeWhile]⟩
    · have e : (c :: t).takeWhile (fun c => decide (c ≠ '/'))
          = c :: t.takeWhile (fun c => decide (c ≠ '/')) := by
        simp [List.takeWhile, hc]
      rw [e]
      rcases ih with h | ⟨r, h⟩
      · left; rw [← h]
      · right; exact ⟨r, by rw [List.cons_append, ← h]⟩

/-- The names of a directory: n is the name under which dir holds q when q is
dir/n or lies below it. -/
theorem childName_iff (d q n : String) (hd : d ≠ "") :
    childName d q = some n ↔
      n ≠ "" ∧ '/' ∉ n.toList ∧ (q = d ++ "/" ++ n ∨ below (d ++ "/" ++ n) q = true) := by
  unfold childName
  rw [if_neg hd]
  have hlen : (d ++ "/").length = (d.toList ++ ['/']).length := by
    show (d ++ "/").toList.length = _
    rw [toList_append]; rfl
  have hdn : ∀ m : String, (d ++ "/" ++ m).toList = d.toList ++ '/' :: m.toList := by
    intro m
    rw [toList_append, toList_append]
    simp
  constructor
  · intro h
    split_ifs at h with hb hz
    have h := Option.some.inj h
    obtain ⟨t, ht⟩ := (below_iff d q).mp hb
    have hdrop : q.toList.drop (d ++ "/").length = t := by
      rw [hlen, ht]
      have : d.toList ++ '/' :: t = (d.toList ++ ['/']) ++ t := by simp
      rw [this, List.drop_left]
    rw [hdrop] at h hz
    have hnl : n.toList = t.takeWhile (fun c => decide (c ≠ '/')) := by rw [← h]; rfl
    refine ⟨?_, ?_, ?_⟩
    · intro h0
      rw [h0] at hnl
      exact hz hnl.symm
    · rw [hnl]; exact takeWhile_slash_free t
    · rcases takeWhile_split t with hs | ⟨r, hs⟩
      · left
        apply String.ext
        show q.toList = (d ++ "/" ++ n).toList
        rw [hdn, ht, hnl, ← hs]
      · right
        rw [below_iff]
        refine ⟨r, ?_⟩
        rw [hdn, ht, hnl]
        simp only [List.append_assoc, List.cons_append]
        rw [← hs]
  · rintro ⟨hn0, hns, hq⟩
    have hn1 : n.toList ≠ [] := fun h => hn0 (String.ext h)
    have key : ∃ t, q.toList = d.toList ++ '/' :: t ∧
        t.takeWhile (fun c => decide (c ≠ '/')) = n.toList := by
      rcases hq with hq | hq
      · refine ⟨n.toList, ?_, takeWhile_noslash_all _ hns⟩
        rw [hq, hdn]
      · obtain ⟨r, hr⟩ := (below_iff _ _).mp hq
        refine ⟨n.toList ++ '/' :: r, ?_, takeWhile_noslash _ _ hns⟩
        rw [hr, hdn]
        simp
    obtain ⟨t, ht, htw⟩ := key
    have hb : below d q = true := (below_iff d q).mpr ⟨t, ht⟩
    have hdrop : q.toList.drop (d ++ "/").length = t := by
      rw [hlen, ht]
      have : d.toList ++ '/' :: t = (d.toList ++ ['/']) ++ t := by simp
      rw [this, List.drop_left]
    rw [if_pos hb, hdrop, htw, if_neg hn1]
    rfl

/-- The loop of glob for the pattern *.m4a over names without slash. -/
theorem globNames_m4a (dir : String) :
    ∀ (names m : List String), (∀ n ∈ names, '/' ∉ n.toList) →
      globNames dir "*.m4a" names m
        = Except.ok (m ++ (names.filter
            (fun n => ".m4a".toList.isSuffixOf n.toList)).map (Join dir)) := by
  intro names
  induction names with
  | nil => intro m _; simp [globNames]
  | cons n names ih =>
    intro m h
    rw [globNames, Match_m4a n (h n (List.mem_cons_self _ _))]
    simp only
    have ih2 := fun m => ih m (fun x hx => h x (List.mem_cons_of_mem _ hx))
    cases hs : ".m4a".toList.isSuffixOf n.toList with
    | true =>
      rw [if_pos rfl, ih2, List.filter_cons, hs]
      simp
    | false =>
      rw [if_neg (by simp), ih2, List.filter_cons, hs]
      simp

/-- A name that ends in .m4a and holds no slash is an element of a clean
path. -/
theorem plainElem_m4a (n : List Char) (hs : '/' ∉ n)
    (hsuf : ['.', 'm', '4', 'a'].isSuffixOf n = true) : plainElem n := by
  rw [List.isSuffixOf_iff_suffix] at hsuf
  have hlen := hsuf.length_le
  simp only [List.length_cons, List.length_nil] at hlen
  refine ⟨?_, ?_, ?_, hs⟩
  · rintro rfl; simp at hlen
  · rintro rfl; simp at hlen
  · rintro rfl; simp at hlen

/-- Join puts a name under a clean folder as it is. -/
theorem Join_plain (folder : String) (es : List (List Char)) (hes : es ≠ [])
    (hp : ∀ e ∈ es, plainElem e) (hf : folder = pathOf es) (n : String)
    (hn : plainElem n.toList) :
    Join folder n = folder ++ "/" ++ n := by
  have hne : folder ≠ "" := hf ▸ pathOf_ne_empty es hes hp
  have hall : ∀ e ∈ es ++ [n.toList], plainElem e := by
    intro e he
    rcases List.mem_append.mp he with h | h
    · exact hp e h
    · have : e = n.toList := by simpa using h
      exact this ▸ hn
  have hchars : (folder ++ "/" ++ n).toList = joinSlash (es ++ [n.toList]) := by
    rw [toList_append, toList_append, hf, pathOf_toList,
      joinSlash_append es [n.toList] hes (by simp)]
    simp [joinSlash]
  unfold Join
  rw [if_pos hne]
  unfold Clean
  rw [hchars, cleanChars_plain _ (by simp) hall, ← hchars]
  rfl

theorem hasMeta_false (s : String) (hl : ∀ x ∈ s.toList, litChar x) : hasMeta s = false := by
  unfold hasMeta
  rw [Bool.eq_false_iff]
  intro h
  rw [List.any_eq_true] at h
  obtain ⟨x, hx, hm⟩ := h
  obtain ⟨h1, h2, h3, h4⟩ := hl x hx
  simp [h1, h2, h3, h4] at hm

theorem hasMeta_pattern (folder : String) : hasMeta (folder ++ "/*.m4a") = true := by
  unfold hasMeta
  rw [List.any_eq_true]
  refine ⟨'*', ?_, by decide⟩
  rw [toList_append]
  simp

theorem Split_pattern (folder : String) :
    Split (folder ++ "/*.m4a") = (folder ++ "/", "*.m4a") := by
  unfold Split
  have hp : (folder ++ "/*.m4a").toList = folder.toList ++ '/' :: ['*', '.', 'm', '4', 'a'] := by
    rw [toList_append]; rfl
  rw [hp, lastElemRev_child _ _ (by decide)]
  have h1 : (folder.toList ++ '/' :: ['*', '.', 'm', '4', 'a']).reverse
      = ['a', '4', 'm', '.', '*'] ++ '/' :: folder.toList.reverse := by simp
  rw [h1]
  have h2 : (['a', '4', 'm', '.', '*'] ++ '/' :: folder.toList.reverse).dropWhile
      (fun c => decide (c ≠ '/')) = '/' :: folder.toList.reverse := by
    simp [List.dropWhile]
  rw [h2]
  refine Prod.ext ?_ ?_
  · apply String.ext
    show ('/' :: folder.toList.reverse).reverse = (folder ++ "/").toList
    rw [toList_append]
    simp
  · rfl

theorem cleanGlobPath_folder (folder : String) (hne : folder ≠ "") :
    cleanGlobPath (folder ++ "/") = folder := by
  unfold cleanGlobPath
  have h1 : (folder ++ "/").toList = folder.toList ++ ['/'] := by rw [toList_append]; rfl
  have hn1 : folder ++ "/" ≠ "" := by
    intro h
    have := congrArg String.toList h
    rw [h1] at this
    simp at this
  have hn2 : folder ++ "/" ≠ "/" := by
    intro h
    have := congrArg String.toList h
    rw [h1] at this
    have h3 : folder.toList = [] := by simpa using this
    exact hne (String.ext h3)
  rw [if_neg hn1, if_neg hn2, h1]
  apply String.ext
  show List.take _ _ = folder.toList
  simp

/-- What is at or below a file of the folder is below the folder. -/
theorem below_folder (folder p q : String) (hm : matchesM4a folder p = true)
    (hq : q = p ∨ below p q = true) : below folder q = true := by
  obtain ⟨s, -, hp⟩ := (matchesM4a_iff folder p).mp hm
  rw [below_iff]
  rcases hq with hq | hq
  · exact ⟨_, hq ▸ hp⟩
  · obtain ⟨t, ht⟩ := (below_iff p q).mp hq
    rw [hp] at ht
    exact ⟨s ++ ['.', 'm', '4', 'a'] ++ '/' :: t, by rw [ht]; simp⟩

/-- The files of Glob for the pattern folder/*.m4a, folder being a clean path
of plain characters: the paths folder/n, n ending in .m4a and holding no
slash, at or below which the disk holds something. -/
theorem Glob_folder (w : World) (files : List File) (folder : String)
    (es : List (List Char)) (hes : es ≠ []) (hp : ∀ e ∈ es, plainElem e)
    (hf : folder = pathOf es) (hl : ∀ x ∈ folder.toList, litChar x) :
    ∃ found, Glob w files (folder ++ "/*.m4a") = Except.ok found ∧
      ∀ p, p ∈ found ↔
        (matchesM4a folder p = true ∧ ∃ f ∈ files, f.path = p ∨ below p f.path = true) := by
  have hne : folder ≠ "" := hf ▸ pathOf_ne_empty es hes hp
  have hdirs : ∀ p, (matchesM4a folder p = true ∧
      ∃ f ∈ files, f.path = p ∨ below p f.path = true) →
      isDirAt files folder = true ∧ existsAt files folder = true := by
    rintro p ⟨hm, f, hfm, hq⟩
    have hb := below_folder folder p f.path hm hq
    unfold isDirAt existsAt
    simp only [Bool.or_eq_true, List.any_eq_true, decide_eq_true_eq, Bool.and_eq_true]
    exact ⟨Or.inr ⟨f, hfm, Or.inr hb⟩, Or.inr ⟨f, hfm, Or.inr hb⟩⟩
  have hfuel : (10000 : Nat) = 9999 + 1 := rfl
  unfold Glob
  rw [hfuel, globWithLimit, Match_folder_empty folder hne hl]
  simp only [hasMeta_pattern, Split_pattern, cleanGlobPath_folder folder hne,
    hasMeta_false folder hl, Bool.not_true, Bool.not_false, Bool.false_eq_true, if_false,
    if_true]
  unfold glob statNode
  rw [hf, resolve_plain files es hes hp, ← hf]
  by_cases hex : existsAt files folder = true
  · rw [if_pos hex]
    simp only
    by_cases hdir : isDirAt files folder = true
    · rw [if_pos hdir]
      unfold readDirNames
      rw [hf, resolve_plain files es hes hp, ← hf, if_pos hex]
      simp only
      have hslash : ∀ n ∈ List.insertionSort (fun a b => strLe a.toList b.toList = true)
          (files.filterMap (fun f => childName folder f.path)).dedup, '/' ∉ n.toList := by
        intro n hn
        rw [List.mem_insertionSort, List.mem_dedup, List.mem_filterMap] at hn
        obtain ⟨f, -, hc⟩ := hn
        exact ((childName_iff folder f.path n hne).mp hc).2.1
      rw [globNames_m4a folder _ [] hslash]
      refine ⟨_, rfl, ?_⟩
      intro p
      simp only [List.nil_append, List.mem_map, List.mem_filter, List.mem_insertionSort,
        List.mem_dedup, List.mem_filterMap]
      constructor
      · rintro ⟨n, ⟨⟨f, hfm, hc⟩, hsuf⟩, rfl⟩
        obtain ⟨hn0, hns, hq⟩ := (childName_iff folder f.path n hne).mp hc
        rw [Join_plain folder es hes hp hf n (plainElem_m4a _ hns hsuf)]
        refine ⟨?_, f, hfm, hq⟩
        rw [matchesM4a_iff]
        rw [List.isSuffixOf_iff_suffix] at hsuf
        obtain ⟨s, hs⟩ := hsuf
        refine ⟨s, ?_, ?_⟩
        · intro hmem
          exact hns (by rw [← hs]; exact List.mem_append_left _ hmem)
        · rw [toList_append, toList_append, ← hs]
          simp
      · rintro ⟨hm, f, hfm, hq⟩
        obtain ⟨s, hs, hpath⟩ := (matchesM4a_iff folder p).mp hm
        have hpn : p = folder ++ "/" ++ String.mk (s ++ ['.', 'm', '4', 'a']) := by
          apply String.ext
          show p.toList = (folder ++ "/" ++ String.mk (s ++ ['.', 'm', '4', 'a'])).toList
          rw [hpath, toList_append, toList_append]
          simp
        have hns : '/' ∉ (String.mk (s ++ ['.', 'm', '4', 'a'])).toList := by
          show '/' ∉ s ++ ['.', 'm', '4', 'a']
          simp only [List.mem_append, not_or]
          exact ⟨hs, by decide⟩
        have hsuf : ".m4a".toList.isSuffixOf (String.mk (s ++ ['.', 'm', '4', 'a'])).toList
            = true := by
          rw [List.isSuffixOf_iff_suffix]
          exact List.suffix_append _ _
        have hn0 : String.mk (s ++ ['.', 'm', '4', 'a']) ≠ "" := by
          intro h
          have := congrArg String.toList h
          simp at this
        refine ⟨String.mk (s ++ ['.', 'm', '4', 'a']), ⟨⟨f, hfm, ?_⟩, hsuf⟩, ?_⟩
        · rw [childName_iff folder f.path _ hne]
          exact ⟨hn0, hns, by rw [← hpn]; exact hq⟩
        · rw [Join_plain folder es hes hp hf _ (plainElem_m4a _ hns hsuf), ← hpn]
    · rw [if_neg hdir]
      refine ⟨[], rfl, ?_⟩
      intro p
      constructor
      · intro h; simp at h
      · intro h; exact absurd (hdirs p h).1 hdir
  · rw [if_neg hex]
    refine ⟨[], rfl, ?_⟩
    intro p
    constructor
    · intro h; simp at h
    · intro h; exact absurd (hdirs p h).2 hex

/-! ## The folder audio/name of a plain name -/

theorem plainElem_name (name : String) (hn : plainName name) : plainElem name.toList := by
  obtain ⟨h1, h2, h3, h4⟩ := hn
  refine ⟨?_, ?_, ?_, ?_⟩
  · intro h; exact h1 (String.ext h)
  · intro h; exact h2 (String.ext h)
  · intro h; exact h3 (String.ext h)
  · intro h; exact (h4 '/' h).1 rfl

theorem folder_pathOf (name : String) :
    "audio/" ++ name = pathOf ["audio".toList, name.toList] := by
  apply String.ext
  show ("audio/" ++ name).toList = joinSlash ["audio".toList, name.toList]
  rw [toList_append]
  rfl

theorem folder_elems (name : String) (hn : plainName name) :
    ∀ e ∈ ["audio".toList, name.toList], plainElem e := by
  intro e he
  rcases List.mem_cons.mp he with h | h
  · subst h
    unfold plainElem
    decide
  · have : e = name.toList := by simpa using h
    exact this ▸ plainElem_name name hn

theorem folder_lit (name : String) (hn : plainName name) :
    ∀ x ∈ ("audio/" ++ name).toList, litChar x := by
  intro x hx
  rw [toList_append] at hx
  rcases List.mem_append.mp hx with h | h
  · have hall : ∀ y ∈ "audio/".toList, litChar y := by
      unfold litChar
      decide
    exact hall x h
  · obtain ⟨-, h2, h3, h4, h5⟩ := hn.2.2.2 x h
    exact ⟨h4, h3, h5, h2⟩

/-- The files of Glob in a run of Process for a plain name. -/
theorem Glob_plain (w : World) (files : List File) (name : String) (hn : plainName name) :
    ∃ found, Glob w files ("audio/" ++ name ++ "/*.m4a") = Except.ok found ∧
      ∀ p, p ∈ found ↔
        (matchesM4a ("audio/" ++ name) p = true ∧
          ∃ f ∈ files, f.path = p ∨ below p f.path = true) :=
  Glob_folder w files ("audio/" ++ name) _ (by simp) (folder_elems name hn)
    (folder_pathOf name) (folder_lit name hn)

/-- A file of the folder, as a clean path of three elements. -/
theorem child_pathOf (name p : String) (hm : matchesM4a ("audio/" ++ name) p = true) :
    ∃ n : List Char, '/' ∉ n ∧ ['.', 'm', '4', 'a'].isSuffixOf n = true ∧
      p = pathOf ["audio".toList, name.toList, n] ∧
      p.toList = ("audio/" ++ name).toList ++ '/' :: n := by
  obtain ⟨s, hs, hp⟩ := (matchesM4a_iff _ p).mp hm
  refine ⟨s ++ ['.', 'm', '4', 'a'], ?_, ?_, ?_, hp⟩
  · simp only [List.mem_append, not_or]
    exact ⟨hs, by decide⟩
  · rw [List.isSuffixOf_iff_suffix]
    exact List.suffix_append _ _
  · apply String.ext
    show p.toList = joinSlash ["audio".toList, name.toList, s ++ ['.', 'm', '4', 'a']]
    rw [hp, toList_append]
    rfl

/-- The look-up of a file of the folder of a plain name. -/
theorem resolve_child (files : List File) (name p : String) (hn : plainName name)
    (hm : matchesM4a ("audio/" ++ name) p = true) :
    resolve files p
      = if existsAt files p = true then Resolved.found p else Resolved.missing := by
  obtain ⟨n, hns, hsuf, hp, -⟩ := child_pathOf name p hm
  rw [hp]
  apply resolve_plain
  · simp
  · intro e he
    simp only [List.mem_cons, List.mem_singleton, List.not_mem_nil, or_false] at he
    rcases he with h | h | h
    · exact h ▸ folder_elems name hn _ (by simp)
    · exact h ▸ plainElem_name name hn
    · exact h ▸ plainElem_m4a n hns hsuf

/-- What lies below a file of the folder is no file of the folder. -/
theorem below_not_matches (folder p q : String) (hm : matchesM4a folder p = true)
    (hq : below p q = true) : matchesM4a folder q = false := by
  rw [Bool.eq_false_iff]
  intro hm2
  obtain ⟨s, -, hp⟩ := (matchesM4a_iff folder p).mp hm
  obtain ⟨s2, hs2, hq2⟩ := (matchesM4a_iff folder q).mp hm2
  obtain ⟨t, ht⟩ := (below_iff p q).mp hq
  rw [hp, hq2] at ht
  have h2 : s2 ++ ['.', 'm', '4', 'a'] = s ++ ['.', 'm', '4', 'a'] ++ '/' :: t := by
    simpa using ht
  have hmem : '/' ∈ s2 ++ ['.', 'm', '4', 'a'] := by
    rw [h2]; simp
  rcases List.mem_append.mp hmem with h | h
  · exact hs2 h
  · revert h; decide

/-! ## The loop over feed.Entry -/

/-- The path of the audio file of an entry. -/
theorem reconcileEntry_id (w : World) (folder : String) (files : List File) (e : videoEntry) :
    (reconcileEntry w folder files e).entry.ID = e.ID := by
  unfold reconcileEntry
  split
  · rfl
  · dsimp only
    split
    · rfl
    · split
      · rfl
      · split <;> rfl

/-- The loop changes no id and drops no entry. -/
theorem reconcileLoop_ids (w : World) (folder : String) (files : List File) :
    ∀ es : List videoEntry,
      (reconcileLoop w folder files es).entries.map videoEntry.ID = es.map videoEntry.ID := by
  intro es
  induction es with
  | nil => rfl
  | cons e rest ih =>
    simp only [reconcileLoop]
    split
    · simp [reconcileEntry_id]
    · simp [reconcileEntry_id, ih]

/-- When the loop ends without error, entryIDs holds the id of every entry. -/
theorem reconcileLoop_entryIDs (w : World) (folder : String) (files : List File) :
    ∀ es : List videoEntry, (reconcileLoop w folder files es).err = none →
      (reconcileLoop w folder files es).entryIDs = es.map videoEntry.ID := by
  intro es
  induction es with
  | nil => intro _; rfl
  | cons e rest ih =>
    simp only [reconcileLoop]
    split
    · intro h; simp at h
    · intro h
      simp only [List.map_cons, List.cons.injEq, true_and]
      exact ih h

/-- A pass of the loop reads the disk through os.Stat of the file of its entry
only. -/
theorem reconcileEntry_congr (w : World) (folder : String) (files files2 : List File)
    (e : videoEntry)
    (h : stat w files (folder ++ "/" ++ e.ID ++ ".m4a")
      = stat w files2 (folder ++ "/" ++ e.ID ++ ".m4a")) :
    reconcileEntry w folder files e = reconcileEntry w folder files2 e := by
  unfold reconcileEntry
  split
  · rfl
  · simp only [h]

theorem reconcileLoop_congr (w : World) (folder : String) (files files2 : List File) :
    ∀ es : List videoEntry,
      (∀ e ∈ es, stat w files (folder ++ "/" ++ e.ID ++ ".m4a")
        = stat w files2 (folder ++ "/" ++ e.ID ++ ".m4a")) →
      reconcileLoop w folder files es = reconcileLoop w folder files2 es := by
  intro es
  induction es with
  | nil => intro _; rfl
  | cons e rest ih =>
    intro h
    simp only [reconcileLoop]
    rw [reconcileEntry_congr w folder files files2 e (h e (List.mem_cons_self _ _)),
      ih (fun x hx => h x (List.mem_cons_of_mem _ hx))]

/-- A pass over an entry whose date does not parse returns that error. -/
theorem reconcileEntry_bad_date (w : World) (folder : String) (files : List File)
    (e : videoEntry) (err : String) (h : ytISODateToRFC822 w e.Published = Except.error err) :
    (reconcileEntry w folder files e).err = some err ∧
      (reconcileEntry w folder files e).probed = [] := by
  unfold reconcileEntry
  rw [h]
  exact ⟨rfl, rfl⟩

/-- The loop over entries one of which has a date that does not parse ends with
an error. -/
theorem reconcileLoop_bad_date (w : World) (folder : String) (files : List File) :
    ∀ es : List videoEntry,
      (∃ e ∈ es, ∃ err, ytISODateToRFC822 w e.Published = Except.error err) →
      (reconcileLoop w folder files es).err ≠ none := by
  intro es
  induction es with
  | nil => rintro ⟨e, he, _⟩; simp at he
  | cons e rest ih =>
    rintro ⟨x, hx, err, herr⟩
    simp only [reconcileLoop]
    split
    · simp
    · rename_i hnone
      rcases List.mem_cons.mp hx with rfl | hmem
      · rw [(reconcileEntry_bad_date w folder files x err herr).1] at hnone
        simp at hnone
      · exact ih ⟨x, hmem, err, herr⟩

/-! ## The loop over the files of Glob -/

/-- The call os.Remove on a file of the folder of a plain name, when it does
not fail: the disk held the file, nothing below it, and has lost it. -/
theorem removeFile_child (w : World) (files files1 : List File) (name p : String)
    (hn : plainName name) (hm : matchesM4a ("audio/" ++ name) p = true)
    (h : removeFile w files p = Except.ok files1) :
    files1 = files.filter (fun f => f.path ≠ p) ∧ (∃ f ∈ files, f.path = p) ∧
      ∀ f ∈ files, below p f.path = false := by
  unfold removeFile at h
  rw [resolve_child files name p hn hm] at h
  by_cases hex : existsAt files p = true
  · rw [if_pos hex] at h
    simp only at h
    by_cases hb : files.any (fun f => below p f.path) = true
    · rw [if_pos hb] at h
      exact absurd h (by simp)
    · rw [if_neg hb] at h
      have hb2 : ∀ f ∈ files, below p f.path = false := by
        intro f hf
        rw [Bool.eq_false_iff]
        intro hh
        exact hb (List.any_eq_true.mpr ⟨f, hf, hh⟩)
      cases hr : w.remove p with
      | some err => rw [hr] at h; exact absurd h (by simp)
      | none =>
        rw [hr] at h
        refine ⟨(Except.ok.inj h).symm, ?_, hb2⟩
        obtain ⟨n, hns, hsuf, hp, -⟩ := child_pathOf name p hm
        have hp0 : p ≠ "" := by
          rw [hp]
          apply pathOf_ne_empty _ (by simp)
          intro e he
          simp only [List.mem_cons, List.mem_singleton, List.not_mem_nil, or_false] at he
          rcases he with h | h | h
          · exact h ▸ folder_elems name hn _ (by simp)
          · exact h ▸ plainElem_name name hn
          · exact h ▸ plainElem_m4a n hns hsuf
        unfold existsAt at hex
        simp only [hp0, decide_False, Bool.false_or, List.any_eq_true, Bool.or_eq_true,
          decide_eq_true_eq] at hex
        obtain ⟨f, hf, hq⟩ := hex
        rcases hq with hq | hq
        · exact ⟨f, hf, hq⟩
        · rw [hb2 f hf] at hq
          exact absurd hq (by simp)
  · rw [if_neg hex] at h
    exact absurd h (by simp)

/-- When the loop ends without error over files of the folder of a plain name,
the files left are those not removed, the files removed are the files of the
list whose id is no key of entryIDs, and each of them was on disk with nothing
below it. -/
theorem pruneLoop_ok (w : World) (name : String) (hn : plainName name) (ids : List String) :
    ∀ (l : List String) (files : List File),
      (∀ p ∈ l, matchesM4a ("audio/" ++ name) p = true) →
      (pruneLoop w ids l files).err = none →
      (pruneLoop w ids l files).files
          = files.filter (fun f => decide (¬ (f.path ∈ l ∧ fileStem f.path ∉ ids))) ∧
        (pruneLoop w ids l files).removed = l.filter (fun p => decide (fileStem p ∉ ids)) ∧
        ∀ p ∈ l, fileStem p ∉ ids →
          (∃ f ∈ files, f.path = p) ∧ ∀ f ∈ files, below p f.path = false := by
  intro l
  induction l with
  | nil =>
    intro files _ _
    simp [pruneLoop]
  | cons file rest ih =>
    intro files hall h
    have hrest : ∀ p ∈ rest, matchesM4a ("audio/" ++ name) p = true :=
      fun p hp => hall p (List.mem_cons_of_mem _ hp)
    simp only [pruneLoop] at h ⊢
    split at h
    · rename_i hmem
      rw [if_pos hmem]
      obtain ⟨h1, h2, h3⟩ := ih files hrest h
      refine ⟨?_, ?_, ?_⟩
      · rw [h1]
        apply List.filter_congr
        intro f _
        simp only [List.mem_cons, decide_eq_decide]
        constructor
        · rintro hk ⟨hp | hp, hs⟩
          · exact hs (hp ▸ hmem)
          · exact hk ⟨hp, hs⟩
        · rintro hk ⟨hp, hs⟩
          exact hk ⟨Or.inr hp, hs⟩
      · rw [h2, List.filter_cons]
        simp [hmem]
      · intro p hp hs
        rcases List.mem_cons.mp hp with rfl | hp
        · exact absurd hmem hs
        · exact h3 p hp hs
    · rename_i hmem
      rw [if_neg hmem]
      cases hrm : removeFile w files file with
      | error err => rw [hrm] at h; simp at h
      | ok files1 =>
        rw [hrm] at h
        simp only at h ⊢
        obtain ⟨hf1, hat, hbelow⟩ :=
          removeFile_child w files files1 name file hn (hall file (List.mem_cons_self _ _)) hrm
        obtain ⟨h1, h2, h3⟩ := ih files1 hrest h
        refine ⟨?_, ?_, ?_⟩
        · rw [h1, hf1, List.filter_filter]
          apply List.filter_congr
          intro f _
          by_cases hp : f.path = file
          · subst hp
            simp [hmem]
          · simp [hp]
        · rw [h2, List.filter_cons]
          simp [hmem]
        · intro p hp hs
          rcases List.mem_cons.mp hp with rfl | hp
          · exact ⟨hat, hbelow⟩
          · obtain ⟨⟨f, hf, hfp⟩, hb⟩ := h3 p hp hs
            rw [hf1] at hf hb
            refine ⟨⟨f, (List.mem_filter.mp hf).1, hfp⟩, ?_⟩
            intro g hg
            by_cases hgf : g.path = file
            · have hm1 := below_not_matches ("audio/" ++ name) p g.path (hrest p hp)
              cases hbg : below p g.path with
              | false => rfl
              | true =>
                have := hm1 hbg
                rw [hgf, hall file (List.mem_cons_self _ _)] at this
                exact absurd this (by simp)
            · exact hb g (List.mem_filter.mpr ⟨hg, by simpa using hgf⟩)

/-- The loop removes nothing from a list of files whose ids are all keys of
entryIDs. -/
theorem pruneLoop_nothing (w : World) (ids : List String) :
    ∀ (l : List String) (files : List File), (∀ p ∈ l, fileStem p ∈ ids) →
      pruneLoop w ids l files = ⟨files, [], none⟩ := by
  intro l
  induction l with
  | nil => intro files _; rfl
  | cons file rest ih =>
    intro files h
    simp only [pruneLoop]
    rw [if_pos (h file (List.mem_cons_self _ _))]
    exact ih files (fun p hp => h p (List.mem_cons_of_mem _ hp))

/-! ## Process, step by step -/

/-- The steps of a run of processFeed that returns nil. -/
theorem processFeed_ok (w : World) (cast : YouCast) (name : String) (feed1 : videoFeed)
    (h : (processFeed w cast name feed1).err = none) :
    ∃ published found,
      ytISODateToRFC822 w feed1.Published = Except.ok published ∧
      w.mkdirAll ("audio/" ++ name) = none ∧
      (reconcileLoop w ("audio/" ++ name)
        (w.ytdlp (ytdlpArgs cast ("audio/" ++ name) feed1.Entry.length) w.files)
        feed1.Entry).err = none ∧
      Glob w (w.ytdlp (ytdlpArgs cast ("audio/" ++ name) feed1.Entry.length) w.files)
        ("audio/" ++ name ++ "/*.m4a") = Except.ok found ∧
      (pruneLoop w
        (reconcileLoop w ("audio/" ++ name)
          (w.ytdlp (ytdlpArgs cast ("audio/" ++ name) feed1.Entry.length) w.files)
          feed1.Entry).entryIDs
        found
        (w.ytdlp (ytdlpArgs cast ("audio/" ++ name) feed1.Entry.length) w.files)).err = none ∧
      w.create (name ++ ".rss") = none ∧
      w.create (name ++ ".opml") = none ∧
      processFeed w cast name feed1 =
        ⟨none,
          (pruneLoop w
            (reconcileLoop w ("audio/" ++ name)
              (w.ytdlp (ytdlpArgs cast ("audio/" ++ name) feed1.Entry.length) w.files)
              feed1.Entry).entryIDs
            found
            (w.ytdlp (ytdlpArgs cast ("audio/" ++ name) feed1.Entry.length) w.files)).files,
          (reconcileLoop w ("audio/" ++ name)
            (w.ytdlp (ytdlpArgs cast ("audio/" ++ name) feed1.Entry.length) w.files)
            feed1.Entry).probed,
          (pruneLoop w
            (reconcileLoop w ("audio/" ++ name)
              (w.ytdlp (ytdlpArgs cast ("audio/" ++ name) feed1.Entry.length) w.files)
              feed1.Entry).entryIDs
            found
            (w.ytdlp (ytdlpArgs cast ("audio/" ++ name) feed1.Entry.length) w.files)).removed,
          (reconcileLoop w ("audio/" ++ name)
            (w.ytdlp (ytdlpArgs cast ("audio/" ++ name) feed1.Entry.length) w.files)
            feed1.Entry).entries,
          some (rssTemplate { feed1 with
            Published := published,
            Entry := (reconcileLoop w ("audio/" ++ name)
              (w.ytdlp (ytdlpArgs cast ("audio/" ++ name) feed1.Entry.length) w.files)
              feed1.Entry).entries }),
          some (opmlTemplate { feed1 with
            Published := published,
            Entry := (reconcileLoop w ("audio/" ++ name)
              (w.ytdlp (ytdlpArgs cast ("audio/" ++ name) feed1.Entry.length) w.files)
              feed1.Entry).entries })⟩ := by
  cases hpub : ytISODateToRFC822 w feed1.Published with
  | error e => simp [processFeed, hpub] at h
  | ok published =>
    cases hmk : w.mkdirAll ("audio/" ++ name) with
    | some e => simp [processFeed, hpub, hmk] at h
    | none =>
      cases hloop : (reconcileLoop w ("audio/" ++ name)
          (w.ytdlp (ytdlpArgs cast ("audio/" ++ name) feed1.Entry.length) w.files)
          feed1.Entry).err with
      | some e => simp [processFeed, hpub, hmk, hloop] at h
      | none =>
        cases hglob : Glob w
            (w.ytdlp (ytdlpArgs cast ("audio/" ++ name) feed1.Entry.length) w.files)
            ("audio/" ++ name ++ "/*.m4a") with
        | error e => simp [processFeed, hpub, hmk, hloop, hglob] at h
        | ok found =>
          cases hprune : (pruneLoop w
              (reconcileLoop w ("audio/" ++ name)
                (w.ytdlp (ytdlpArgs cast ("audio/" ++ name) feed1.Entry.length) w.files)
                feed1.Entry).entryIDs
              found
              (w.ytdlp (ytdlpArgs cast ("audio/" ++ name) feed1.Entry.length) w.files)).err with
          | some e => simp [processFeed, hpub, hmk, hloop, hglob, hprune] at h
          | none =>
            cases hrss : w.create (name ++ ".rss") with
            | some e => simp [processFeed, hpub, hmk, hloop, hglob, hprune, hrss] at h
            | none =>
              cases hopml : w.create (name ++ ".opml") with
              | some e => simp [processFeed, hpub, hmk, hloop, hglob, hprune, hrss, hopml] at h
              | none =>
                refine ⟨published, found, rfl, rfl, rfl, rfl, hprune, rfl, rfl, ?_⟩
                simp [processFeed, hpub, hmk, hloop, hglob, hprune, hrss, hopml]

/-! ## Unmarshal and the fields the document does not have to give -/

theorem unmarshalFeedField_setChannelID (f : videoFeed) (c name : String)
    (as : List (String × String)) (cs : List Node) (hn : name ≠ "channelId") :
    unmarshalFeedField { f with ChannelID := c } name as cs =
      match unmarshalFeedField f name as cs with
      | Except.error err => Except.error err
      | Except.ok f1 => Except.ok { f1 with ChannelID := c } := by
  unfold unmarshalFeedField
  rw [if_neg hn, if_neg hn]
  by_cases h1 : name = "Name"
  · rw [if_pos h1, if_pos h1]
  rw [if_neg h1, if_neg h1]
  by_cases h2 : name = "BaseURL"
  · rw [if_pos h2, if_pos h2]
  rw [if_neg h2, if_neg h2]
  by_cases h3 : name = "ImageURL"
  · rw [if_pos h3, if_pos h3]
  rw [if_neg h3, if_neg h3]
  by_cases h4 : name = "link"
  · rw [if_pos h4, if_pos h4]
  rw [if_neg h4, if_neg h4]
  by_cases h5 : name = "id"
  · rw [if_pos h5, if_pos h5]
  rw [if_neg h5, if_neg h5]
  by_cases h7 : name = "title"
  · rw [if_pos h7, if_pos h7]
  rw [if_neg h7, if_neg h7]
  by_cases h8 : name = "author"
  · rw [if_pos h8, if_pos h8]
  rw [if_neg h8, if_neg h8]
  by_cases h9 : name = "published"
  · rw [if_pos h9, if_pos h9]
  rw [if_neg h9, if_neg h9]
  by_cases h10 : name = "Build"
  · rw [if_pos h10, if_pos h10]
  rw [if_neg h10, if_neg h10]
  by_cases h11 : name = "entry"
  · rw [if_pos h11, if_pos h11]
    cases unmarshalEntry cs {} <;> rfl
  rw [if_neg h11, if_neg h11]

theorem unmarshalFeed_dropChannelId (cs : List Node) :
    ∀ (f : videoFeed) (c : String),
      unmarshalFeed (cs.filter (fun n => !isElem "channelId" n)) { f with ChannelID := c } =
        match unmarshalFeed cs f with
        | Except.error err => Except.error err
        | Except.ok f1 => Except.ok { f1 with ChannelID := c } := by
  induction cs with
  | nil => intro f c; rfl
  | cons n ns ih =>
    intro f c
    cases n with
    | text s =>
      simp only [List.filter_cons, isElem, Bool.not_false, if_true, unmarshalFeed,
        unmarshalFeedChild]
      exact ih f c
    | elem name as cs =>
      by_cases hn : name = "channelId"
      · subst hn
        have h1 : unmarshalFeedField f "channelId" as cs
            = Except.ok { f with ChannelID := charData cs } := by
          simp [unmarshalFeedField]
        simp only [List.filter_cons, isElem, decide_True, Bool.not_true, unmarshalFeed,
          unmarshalFeedChild, h1]
        exact ih { f with ChannelID := charData cs } c
      · have h0 : isElem "channelId" (Node.elem name as cs) = false := by
          simp [isElem, hn]
        simp only [List.filter_cons, h0, Bool.not_false, if_true, unmarshalFeed,
          unmarshalFeedChild]
        rw [unmarshalFeedField_setChannelID f c name as cs hn]
        cases h2 : unmarshalFeedField f name as cs with
        | error err => rfl
        | ok f1 => exact ih f1 c

/-- Unmarshal of a document without its channelId elements gives what it gives
of the document itself, with ChannelID left as it was before the call. -/
theorem Unmarshal_dropChannelId (text : Body) (f : videoFeed) :
    Unmarshal (dropChannelId text) f =
      match Unmarshal text f with
      | Except.error err => Except.error err
      | Except.ok f1 => Except.ok { f1 with ChannelID := f.ChannelID } := by
  cases text with
  | malformed err => rfl
  | document root =>
    cases root with
    | text s => rfl
    | elem name attrs cs =>
      simp only [Unmarshal, dropChannelId]
      split_ifs
      · rfl
      · exact unmarshalFeed_dropChannelId cs { f with XMLName := name } f.ChannelID

theorem unmarshalFeedField_setBuild (f : videoFeed) (b name : String)
    (as : List (String × String)) (cs : List Node) :
    unmarshalFeedField { f with Build := b } name as cs =
      if name = "Build" then unmarshalFeedField f name as cs else
      match unmarshalFeedField f name as cs with
      | Except.error err => Except.error err
      | Except.ok f1 => Except.ok { f1 with Build := b } := by
  by_cases hb : name = "Build"
  · subst hb
    rw [if_pos rfl]
    simp [unmarshalFeedField]
  rw [if_neg hb]
  unfold unmarshalFeedField
  by_cases h0 : name = "Name"
  · rw [if_pos h0, if_pos h0]
  rw [if_neg h0, if_neg h0]
  by_cases h1 : name = "BaseURL"
  · rw [if_pos h1, if_pos h1]
  rw [if_neg h1, if_neg h1]
  by_cases h2 : name = "ImageURL"
  · rw [if_pos h2, if_pos h2]
  rw [if_neg h2, if_neg h2]
  by_cases h3 : name = "link"
  · rw [if_pos h3, if_pos h3]
  rw [if_neg h3, if_neg h3]
  by_cases h4 : name = "id"
  · rw [if_pos h4, if_pos h4]
  rw [if_neg h4, if_neg h4]
  by_cases h5 : name = "channelId"
  · rw [if_pos h5, if_pos h5]
  rw [if_neg h5, if_neg h5]
  by_cases h6 : name = "title"
  · rw [if_pos h6, if_pos h6]
  rw [if_neg h6, if_neg h6]
  by_cases h7 : name = "author"
  · rw [if_pos h7, if_pos h7]
  rw [if_neg h7, if_neg h7]
  by_cases h8 : name = "published"
  · rw [if_pos h8, if_pos h8]
  rw [if_neg h8, if_neg h8]
  rw [if_neg hb, if_neg hb]
  by_cases h11 : name = "entry"
  · rw [if_pos h11, if_pos h11]
    cases unmarshalEntry cs {} <;> rfl
  rw [if_neg h11, if_neg h11]

/-- Unmarshal into a feed with another Build gives the same error, or a feed
that differs in Build at most. -/
theorem unmarshalFeed_setBuild (cs : List Node) :
    ∀ (f : videoFeed) (b : String),
      unmarshalFeed cs { f with Build := b } = unmarshalFeed cs f ∨
      unmarshalFeed cs { f with Build := b } =
        match unmarshalFeed cs f with
        | Except.error err => Except.error err
        | Except.ok f1 => Except.ok { f1 with Build := b } := by
  induction cs with
  | nil => intro f b; right; rfl
  | cons n ns ih =>
    intro f b
    cases n with
    | text s =>
      simp only [unmarshalFeed, unmarshalFeedChild]
      exact ih f b
    | elem name as cs =>
      simp only [unmarshalFeed, unmarshalFeedChild]
      rw [unmarshalFeedField_setBuild f b name as cs]
      split_ifs with hb
      · left; rfl
      · cases h2 : unmarshalFeedField f name as cs with
        | error err => left; rfl
        | ok f1 => exact ih f1 b

theorem Unmarshal_setBuild (text : Body) (f : videoFeed) (b : String) :
    Unmarshal text { f with Build := b } = Unmarshal text f ∨
    Unmarshal text { f with Build := b } =
      match Unmarshal text f with
      | Except.error err => Except.error err
      | Except.ok f1 => Except.ok { f1 with Build := b } := by
  cases text with
  | malformed err => left; rfl
  | document root =>
    cases root with
    | text s => left; rfl
    | elem name attrs cs =>
      simp only [Unmarshal]
      split_ifs
      · left; rfl
      · exact unmarshalFeed_setBuild cs { f with XMLName := name } b
/-! ## What a run reads of the world -/

theorem statNode_world (w w2 : World) (files : List File) (path : String)
    (h : w2.outside = w.outside) : statNode w2 files path = statNode w files path := by
  unfold statNode
  rw [h]

theorem stat_world (w w2 : World) (files : List File) (path : String)
    (h : w2.outside = w.outside) : stat w2 files path = stat w files path := by
  unfold stat
  rw [statNode_world w w2 files path h]

theorem reconcileEntry_world (w w2 : World) (folder : String) (files : List File)
    (e : videoEntry) (h1 : w2.timeParse = w.timeParse) (h2 : w2.timeFormat = w.timeFormat)
    (h3 : w2.ffprobe = w.ffprobe) (h4 : w2.outside = w.outside) :
    reconcileEntry w2 folder files e = reconcileEntry w folder files e := by
  unfold reconcileEntry ytISODateToRFC822
  simp only [h1, h2, h3, stat_world w w2 files _ h4]

theorem reconcileLoop_world (w w2 : World) (folder : String) (files : List File)
    (h1 : w2.timeParse = w.timeParse) (h2 : w2.timeFormat = w.timeFormat)
    (h3 : w2.ffprobe = w.ffprobe) (h4 : w2.outside = w.outside) :
    ∀ es : List videoEntry,
      reconcileLoop w2 folder files es = reconcileLoop w folder files es := by
  intro es
  induction es with
  | nil => rfl
  | cons e rest ih =>
    simp only [reconcileLoop]
    rw [reconcileEntry_world w w2 folder files e h1 h2 h3 h4, ih]

theorem removeFile_world (w w2 : World) (files : List File) (file : String)
    (h : w2.remove = w.remove) : removeFile w2 files file = removeFile w files file := by
  unfold removeFile
  rw [h]

theorem pruneLoop_world (w w2 : World) (ids : List String) (h : w2.remove = w.remove) :
    ∀ (l : List String) (files : List File),
      pruneLoop w2 ids l files = pruneLoop w ids l files := by
  intro l
  induction l with
  | nil => intro files; rfl
  | cons file rest ih =>
    intro files
    simp only [pruneLoop]
    rw [removeFile_world w w2 files file h, ih]
    cases removeFile w files file with
    | error e => rfl
    | ok files1 => simp only [ih]

theorem glob_world (w w2 : World) (files : List File) (dir pattern : String)
    (found : List String) (h1 : w2.outside = w.outside) (h2 : w2.readOutside = w.readOutside) :
    glob w2 files dir pattern found = glob w files dir pattern found := by
  unfold glob readDirNames
  rw [statNode_world w w2 files dir h1, h2]

theorem globEach_world (w w2 : World) (files : List File) (file : String)
    (h1 : w2.outside = w.outside) (h2 : w2.readOutside = w.readOutside) :
    ∀ (ds found : List String),
      globEach w2 files file ds found = globEach w files file ds found := by
  intro ds
  induction ds with
  | nil => intro found; rfl
  | cons d ds ih =>
    intro found
    simp only [globEach]
    rw [glob_world w w2 files d file found h1 h2]
    cases glob w files d file found with
    | error e => rfl
    | ok m => exact ih m

theorem globWithLimit_world (w w2 : World) (files : List File)
    (h1 : w2.outside = w.outside) (h2 : w2.readOutside = w.readOutside) :
    ∀ (fuel : Nat) (pattern : String),
      globWithLimit w2 files fuel pattern = globWithLimit w files fuel pattern := by
  intro fuel
  induction fuel with
  | zero => intro pattern; rfl
  | succ fuel ih =>
    intro pattern
    simp only [globWithLimit]
    rw [statNode_world w w2 files pattern h1, glob_world w w2 files _ _ _ h1 h2, ih]
    cases Match pattern "" with
    | error e => rfl
    | ok b =>
      simp only
      split_ifs
      · rfl
      · rfl
      · rfl
      · rfl
      · cases globWithLimit w files fuel (cleanGlobPath (Split pattern).1) with
        | error e => rfl
        | ok m => exact globEach_world w w2 files _ h1 h2 m []

/-- Glob reads the world through what lies outside the working directory
only. -/
theorem Glob_world (w w2 : World) (files : List File) (pattern : String)
    (h1 : w2.outside = w.outside) (h2 : w2.readOutside = w.readOutside) :
    Glob w2 files pattern = Glob w files pattern :=
  globWithLimit_world w w2 files h1 h2 10000 pattern

/-! ## The disk after the pruning -/

/-- Filtering the disk leaves os.Stat of a file of the folder as it was when
what the disk holds at and below that path is kept. -/
theorem stat_filter (w : World) (name p : String) (hn : plainName name)
    (hm : matchesM4a ("audio/" ++ name) p = true) (keep : File → Bool) (files : List File)
    (hk : ∀ f ∈ files, (f.path = p ∨ below p f.path = true) → keep f = true) :
    stat w (files.filter keep) p = stat w files p := by
  have hex : existsAt (files.filter keep) p = existsAt files p := by
    unfold existsAt
    congr 1
    rw [Bool.eq_iff_iff, List.any_eq_true, List.any_eq_true]
    constructor
    · rintro ⟨f, hf, hq⟩
      exact ⟨f, (List.mem_filter.mp hf).1, hq⟩
    · rintro ⟨f, hf, hq⟩
      refine ⟨f, List.mem_filter.mpr ⟨hf, hk f hf ?_⟩, hq⟩
      simpa using hq
  have hdir : isDirAt (files.filter keep) p = isDirAt files p := by
    unfold isDirAt
    congr 1
    rw [Bool.eq_iff_iff, List.any_eq_true, List.any_eq_true]
    constructor
    · rintro ⟨f, hf, hq⟩
      exact ⟨f, (List.mem_filter.mp hf).1, hq⟩
    · rintro ⟨f, hf, hq⟩
      refine ⟨f, List.mem_filter.mpr ⟨hf, hk f hf ?_⟩, hq⟩
      simp only [Bool.or_eq_true, Bool.and_eq_true, decide_eq_true_eq] at hq
      rcases hq with hq | hq
      · exact Or.inl hq.1
      · exact Or.inr hq
  have hfind : ∀ l : List File, (∀ f ∈ l, f.path = p → keep f = true) →
      (l.filter keep).find? (fun f => decide (f.path = p))
        = l.find? (fun f => decide (f.path = p)) := by
    intro l
    induction l with
    | nil => intro _; rfl
    | cons a rest ih =>
      intro h
      have ih2 := ih (fun f hf => h f (List.mem_cons_of_mem _ hf))
      by_cases hp : a.path = p
      · have hka : keep a = true := h a (List.mem_cons_self _ _) hp
        simp [List.filter_cons, hka, List.find?_cons, hp]
      · by_cases hka : keep a = true
        · simp only [List.filter_cons, hka, if_true, List.find?_cons, hp, decide_False]
          exact ih2
        · simp only [List.filter_cons, hka, List.find?_cons, hp, decide_False]
          exact ih2
  unfold stat statNode
  rw [resolve_child _ name p hn hm, resolve_child _ name p hn hm, hex]
  by_cases h : existsAt files p = true
  · rw [if_pos h]
    simp only [Option.map_some']
    rw [hfind files (fun f hf hp => hk f hf (Or.inl hp))]
  · rw [if_neg h]

/-- The path of the audio file of an entry whose id holds no slash is a file
of the folder, and its id is that of the entry. -/
theorem audioFile_matches (name id : String) (hid : '/' ∉ id.toList) :
    matchesM4a ("audio/" ++ name) ("audio/" ++ name ++ "/" ++ id ++ ".m4a") = true ∧
      fileStem ("audio/" ++ name ++ "/" ++ id ++ ".m4a") = id := by
  have hm : matchesM4a ("audio/" ++ name) ("audio/" ++ name ++ "/" ++ id ++ ".m4a") = true := by
    rw [matchesM4a_iff]
    refine ⟨id.toList, hid, ?_⟩
    rw [toList_append, toList_append, toList_append]
    simp [m4a_chars]
  exact ⟨hm, fileStem_entry_file _ id hm⟩

/-- The files the pruning keeps: all but the files of the folder whose id is
not the videoId of an entry. -/
theorem prune_files_eq (w : World) (name : String) (hn : plainName name) (ids : List String)
    (files : List File) (found : List String)
    (hg : Glob w files ("audio/" ++ name ++ "/*.m4a") = Except.ok found)
    (h : (pruneLoop w ids found files).err = none) :
    (pruneLoop w ids found files).files
      = files.filter (fun f => !matchesM4a ("audio/" ++ name) f.path ||
          decide (fileStem f.path ∈ ids)) := by
  obtain ⟨found2, hg2, hmem⟩ := Glob_plain w files name hn
  rw [hg] at hg2
  have hfound : found2 = found := (Except.ok.inj hg2).symm
  subst hfound
  rw [(pruneLoop_ok w name hn ids _ files (fun p hp => ((hmem p).mp hp).1) h).1]
  apply List.filter_congr
  intro f hf
  have hg : f.path ∈ found2 ↔ matchesM4a ("audio/" ++ name) f.path = true := by
    rw [hmem]
    exact ⟨fun hh => hh.1, fun hh => ⟨hh, f, hf, Or.inl rfl⟩⟩
  cases hm : matchesM4a ("audio/" ++ name) f.path with
  | true =>
    have : f.path ∈ found2 := hg.mpr hm
    simp [this]
  | false =>
    have : ¬ f.path ∈ found2 := fun hh => by
      have := hg.mp hh
      rw [hm] at this
      exact Bool.noConfusion this
    simp [this]

/-- A second pruning of the disk a pruning has left removes nothing. -/
theorem prune_again (w : World) (name : String) (hn : plainName name) (ids : List String)
    (files : List File) (found : List String)
    (hg : Glob w files ("audio/" ++ name ++ "/*.m4a") = Except.ok found)
    (h : (pruneLoop w ids found files).err = none) :
    ∃ found2,
      Glob w (files.filter (fun f => !matchesM4a ("audio/" ++ name) f.path ||
          decide (fileStem f.path ∈ ids))) ("audio/" ++ name ++ "/*.m4a") = Except.ok found2 ∧
      pruneLoop w ids found2
          (files.filter (fun f => !matchesM4a ("audio/" ++ name) f.path ||
            decide (fileStem f.path ∈ ids)))
        = ⟨files.filter (fun f => !matchesM4a ("audio/" ++ name) f.path ||
            decide (fileStem f.path ∈ ids)), [], none⟩ := by
  obtain ⟨found1, hg1, hmem1⟩ := Glob_plain w files name hn
  rw [hg] at hg1
  have hfound : found1 = found := (Except.ok.inj hg1).symm
  subst hfound
  have hok := (pruneLoop_ok w name hn ids _ files (fun p hp => ((hmem1 p).mp hp).1) h).2.2
  obtain ⟨found2, hg2, hmem2⟩ := Glob_plain w
    (files.filter (fun f => !matchesM4a ("audio/" ++ name) f.path ||
      decide (fileStem f.path ∈ ids))) name hn
  refine ⟨found2, hg2, ?_⟩
  apply pruneLoop_nothing
  intro p hp
  obtain ⟨hm, f, hf, hq⟩ := (hmem2 p).mp hp
  obtain ⟨hf1, hkeep⟩ := List.mem_filter.mp hf
  by_contra hs
  have hp1 : p ∈ found1 := (hmem1 p).mpr ⟨hm, f, hf1, hq⟩
  obtain ⟨-, hb⟩ := hok p hp1 hs
  rcases hq with hq | hq
  · rw [hq, hm] at hkeep
    simp at hkeep
    exact hs hkeep
  · rw [hb f hf1] at hq
    exact absurd hq (by simp)

/-- A run of processFeed on a feed with another Build differs in the text of
name.rss at most. -/
theorem processFeed_setBuild (w : World) (cast : YouCast) (name : String) (f : videoFeed)
    (b : String) :
    (processFeed w cast name { f with Build := b }).err = (processFeed w cast name f).err ∧
    (processFeed w cast name { f with Build := b }).files = (processFeed w cast name f).files ∧
    (processFeed w cast name { f with Build := b }).probed = (processFeed w cast name f).probed ∧
    (processFeed w cast name { f with Build := b }).removed = (processFeed w cast name f).removed ∧
    (processFeed w cast name { f with Build := b }).entries = (processFeed w cast name f).entries ∧
    (processFeed w cast name { f with Build := b }).opml = (processFeed w cast name f).opml := by
  unfold processFeed
  dsimp only
  cases ytISODateToRFC822 w f.Published with
  | error e => simp
  | ok published =>
    dsimp only
    cases w.mkdirAll ("audio/" ++ name) with
    | some e => simp
    | none =>
      dsimp only
      cases (reconcileLoop w ("audio/" ++ name)
          (w.ytdlp (ytdlpArgs cast ("audio/" ++ name) f.Entry.length) w.files) f.Entry).err with
      | some e => simp
      | none =>
        dsimp only
        cases Glob w (w.ytdlp (ytdlpArgs cast ("audio/" ++ name) f.Entry.length) w.files)
            ("audio/" ++ name ++ "/*.m4a") with
        | error e => simp
        | ok found =>
          dsimp only
          cases (pruneLoop w
            (reconcileLoop w ("audio/" ++ name)
              (w.ytdlp (ytdlpArgs cast ("audio/" ++ name) f.Entry.length) w.files)
              f.Entry).entryIDs
            found
            (w.ytdlp (ytdlpArgs cast ("audio/" ++ name) f.Entry.length) w.files)).err with
          | some e => simp
          | none =>
            dsimp only
            cases w.create (name ++ ".rss") with
            | some e => simp
            | none =>
              dsimp only
              cases w.create (name ++ ".opml") with
              | some e => simp
              | none => simp [opmlTemplate]

/-- A run of processFeed does not read ChannelID. -/
theorem processFeed_setChannelID (w : World) (cast : YouCast) (name : String) (f : videoFeed)
    (c : String) :
    processFeed w cast name { f with ChannelID := c } = processFeed w cast name f := by
  unfold processFeed
  rfl

/-- A run of Process that returns nil has fetched and parsed the feed, and is
the run of processFeed on it. -/
theorem Process_ok (w : World) (cast : YouCast) (name baseURL imageURL : String)
    (h : (Process w cast name baseURL imageURL).err = none) :
    ∃ text feed1, getXML w cast = Except.ok text ∧
      Unmarshal text (initialFeed w name baseURL imageURL) = Except.ok feed1 ∧
      Process w cast name baseURL imageURL = processFeed w cast name feed1 := by
  unfold Process at h ⊢
  cases hx : getXML w cast with
  | error e => rw [hx] at h; simp at h
  | ok text =>
    cases hu : Unmarshal text (initialFeed w name baseURL imageURL) with
    | error e => rw [hx] at h; simp only [hu] at h; simp at h
    | ok feed1 => exact ⟨text, feed1, rfl, hu, by simp only [hu]⟩

/-- The run of Process once the feed is fetched and parsed. -/
theorem Process_eq (w : World) (cast : YouCast) (name baseURL imageURL : String)
    (text : Body) (feed1 : videoFeed) (hx : getXML w cast = Except.ok text)
    (hu : Unmarshal text (initialFeed w name baseURL imageURL) = Except.ok feed1) :
    Process w cast name baseURL imageURL = processFeed w cast name feed1 := by
  unfold Process
  rw [hx]
  simp only [hu]

/-- A second run of processFeed on the same feed, for a plain name and ids
without slash, in a world that answers as the first did and whose disk, once
yt-dlp has run, is as the first run left it: the same entries, nothing
removed. -/
theorem processFeed_again (w w2 : World) (cast : YouCast) (name : String) (feed1 : videoFeed)
    (hn : plainName name) (hids : ∀ e ∈ feed1.Entry, '/' ∉ e.ID.toList)
    (h1 : w2.timeParse = w.timeParse) (h2 : w2.timeFormat = w.timeFormat)
    (h3 : w2.ffprobe = w.ffprobe) (h4 : w2.remove = w.remove) (h5 : w2.create = w.create)
    (h6 : w2.mkdirAll = w.mkdirAll) (h7 : w2.outside = w.outside)
    (h8 : w2.readOutside = w.readOutside)
    (hok : (processFeed w cast name feed1).err = none)
    (hfiles : w2.ytdlp (ytdlpArgs cast ("audio/" ++ name) feed1.Entry.length) w2.files
      = (processFeed w cast name feed1).files) :
    (processFeed w2 cast name feed1).err = none ∧
    (processFeed w2 cast name feed1).entries = (processFeed w cast name feed1).entries ∧
    (processFeed w2 cast name feed1).removed = [] ∧
    (processFeed w2 cast name feed1).files = (processFeed w cast name feed1).files ∧
    (processFeed w2 cast name feed1).probed = (processFeed w cast name feed1).probed := by
  obtain ⟨published, found, hpub, hmk, hloop, hglob, hprune, hrss, hopml, hout⟩ :=
    processFeed_ok w cast name feed1 hok
  have hentry := reconcileLoop_entryIDs w ("audio/" ++ name) _ feed1.Entry hloop
  rw [hentry] at hprune hout
  have hkeep := prune_files_eq w name hn _ _ found hglob hprune
  obtain ⟨found2, hglob2, hprune2⟩ := prune_again w name hn _ _ found hglob hprune
  rw [hkeep] at hout
  rw [hout] at hfiles ⊢
  dsimp only at hfiles ⊢
  have hpub2 : ytISODateToRFC822 w2 feed1.Published = Except.ok published := by
    unfold ytISODateToRFC822 at hpub ⊢
    rw [h1, h2]; exact hpub
  have hloop2 : reconcileLoop w2 ("audio/" ++ name)
      ((w.ytdlp (ytdlpArgs cast ("audio/" ++ name) feed1.Entry.length) w.files).filter
        (fun f => !matchesM4a ("audio/" ++ name) f.path ||
          decide (fileStem f.path ∈ feed1.Entry.map videoEntry.ID))) feed1.Entry
      = reconcileLoop w ("audio/" ++ name)
          (w.ytdlp (ytdlpArgs cast ("audio/" ++ name) feed1.Entry.length) w.files)
          feed1.Entry := by
    rw [reconcileLoop_world w w2 _ _ h1 h2 h3 h7]
    apply reconcileLoop_congr
    intro e he
    obtain ⟨hm, hstem⟩ := audioFile_matches name e.ID (hids e he)
    apply stat_filter w name _ hn hm
    intro f _ hq
    rcases hq with hq | hq
    · rw [hq, hstem]
      simp only [Bool.or_eq_true, Bool.not_eq_true', decide_eq_true_eq]
      exact Or.inr (List.mem_map_of_mem _ he)
    · rw [below_not_matches _ _ _ hm hq]
      rfl
  have hglob3 := (Glob_world w w2
    ((w.ytdlp (ytdlpArgs cast ("audio/" ++ name) feed1.Entry.length) w.files).filter
      (fun f => !matchesM4a ("audio/" ++ name) f.path ||
        decide (fileStem f.path ∈ feed1.Entry.map videoEntry.ID)))
    ("audio/" ++ name ++ "/*.m4a") h7 h8).trans hglob2
  unfold processFeed
  simp only [hpub2, h6, hmk, hfiles, hloop2, hloop, hentry, hglob3, pruneLoop_world w w2 _ h4,
    hprune2, h5, hrss, hopml]
  simp

/-! ## The loop on an entry without file -/

/-- The pass of the loop for an entry whose date parses and whose file os.Stat
does not find. -/
theorem reconcileEntry_missing (w : World) (folder : String) (files : List File)
    (e : videoEntry) (published : String)
    (hd : ytISODateToRFC822 w e.Published = Except.ok published)
    (hs : stat w files (folder ++ "/" ++ e.ID ++ ".m4a") = none) :
    reconcileEntry w folder files e
      = ⟨{ e with Published := published, Length := 0 }, [], none⟩ := by
  unfold reconcileEntry
  rw [hd]
  simp only [hs]

/-- When the loop ends without error, the Length of every entry is the size
os.Stat gives for its file, 0 when there is none. -/
theorem reconcileLoop_length (w : World) (folder : String) (files : List File) :
    ∀ es : List videoEntry, (reconcileLoop w folder files es).err = none →
      ∀ e ∈ (reconcileLoop w folder files es).entries,
        e.Length = (stat w files (folder ++ "/" ++ e.ID ++ ".m4a")).getD 0 := by
  intro es
  induction es with
  | nil => intro _ e he; simp [reconcileLoop] at he
  | cons a rest ih =>
    intro h e he
    simp only [reconcileLoop] at h he
    cases hstep : (reconcileEntry w folder files a).err with
    | some err => rw [hstep] at h; simp at h
    | none =>
      rw [hstep] at h he
      simp only [List.mem_cons] at he
      rcases he with rfl | he
      · have hid := reconcileEntry_id w folder files a
        rw [hid]
        clear ih h hid
        unfold reconcileEntry at hstep ⊢
        cases hdate : ytISODateToRFC822 w a.Published with
        | error err => rw [hdate] at hstep; simp at hstep
        | ok published =>
          rw [hdate] at hstep
          dsimp only at hstep ⊢
          cases hst : stat w files (folder ++ "/" ++ a.ID ++ ".m4a") with
          | none => simp
          | some size =>
            rw [hst] at hstep
            dsimp only at hstep ⊢
            cases hp : w.ffprobe (folder ++ "/" ++ a.ID ++ ".m4a") with
            | error err => rw [hp] at hstep; simp at hstep
            | ok out =>
              rw [hp] at hstep
              dsimp only at hstep ⊢
              cases hpd : probeDuration out with
              | error err => rw [hpd] at hstep; simp at hstep
              | ok duration => simp
      · exact ih h e he

/-- A run of processFeed reads the world through the functions of time, the
disk, yt-dlp, ffprobe, os.MkdirAll, os.Remove and os.Create only. -/
theorem processFeed_world (w w2 : World) (cast : YouCast) (name : String) (f : videoFeed)
    (h1 : w2.timeParse = w.timeParse) (h2 : w2.timeFormat = w.timeFormat)
    (h3 : w2.ffprobe = w.ffprobe) (h4 : w2.remove = w.remove) (h5 : w2.create = w.create)
    (h6 : w2.mkdirAll = w.mkdirAll) (h7 : w2.files = w.files) (h8 : w2.ytdlp = w.ytdlp)
    (h9 : w2.outside = w.outside) (h10 : w2.readOutside = w.readOutside) :
    processFeed w2 cast name f = processFeed w cast name f := by
  unfold processFeed ytISODateToRFC822
  simp only [h1, h2, h4, h5, h6, h7, h8, reconcileLoop_world w w2 _ _ h1 h2 h3 h9,
    pruneLoop_world w w2 _ h4, Glob_world w w2 _ _ h9 h10]

theorem remoteFeed_eq (w : World) (cast : YouCast) (name baseURL imageURL : String)
    (feed : videoFeed) (h : remoteFeed w cast name baseURL imageURL = some feed) :
    Process w cast name baseURL imageURL = processFeed w cast name feed := by
  unfold remoteFeed at h
  cases hx : getXML w cast with
  | error e => rw [hx] at h; simp at h
  | ok text =>
    rw [hx] at h
    cases hu : Unmarshal text (initialFeed w name baseURL imageURL) with
    | error e => simp only [hu] at h; simp at h
    | ok feed1 =>
      simp only [hu] at h
      have : feed1 = feed := by simpa using h
      subst this
      exact Process_eq w cast name baseURL imageURL text feed1 hx hu
/-! ## The claims -/

/-- C1, for a name that is a plain directory name: after a run of Process that
returns nil, the disk is as yt-dlp left it but for the files of audio/name
matching *.m4a whose id (the name without directory and extension) is the
videoId of no remote entry. So the .m4a files left in the folder are exactly
the .m4a files there before the pruning whose id is a remote videoId; the
files removed, one line Removing each, are exactly the others; and every file
whose id is a remote videoId stays. -/
theorem prune_leaves_remote_ids (w : World) (cast : YouCast) (name baseURL imageURL : String)
    (feed : videoFeed) (hn : plainName name)
    (hf : remoteFeed w cast name baseURL imageURL = some feed)
    (hok : (Process w cast name baseURL imageURL).err = none) :
    (Process w cast name baseURL imageURL).files
        = (downloaded w cast name feed.Entry.length).filter
            (fun f => !matchesM4a ("audio/" ++ name) f.path ||
              decide (fileStem f.path ∈ feed.Entry.map videoEntry.ID)) ∧
      ((Process w cast name baseURL imageURL).files.filter
          (fun f => matchesM4a ("audio/" ++ name) f.path)
        = (downloaded w cast name feed.Entry.length).filter
            (fun f => matchesM4a ("audio/" ++ name) f.path &&
              decide (fileStem f.path ∈ feed.Entry.map videoEntry.ID))) ∧
      (∀ p, p ∈ (Process w cast name baseURL imageURL).removed ↔
        (∃ f ∈ downloaded w cast name feed.Entry.length, f.path = p) ∧
          matchesM4a ("audio/" ++ name) p = true ∧
          fileStem p ∉ feed.Entry.map videoEntry.ID) ∧
      (∀ f ∈ downloaded w cast name feed.Entry.length,
        matchesM4a ("audio/" ++ name) f.path = true →
        fileStem f.path ∈ feed.Entry.map videoEntry.ID →
        f ∈ (Process w cast name baseURL imageURL).files) ∧
      (∀ f ∈ downloaded w cast name feed.Entry.length,
        matchesM4a ("audio/" ++ name) f.path = true →
        fileStem f.path ∉ feed.Entry.map videoEntry.ID →
        f ∉ (Process w cast name baseURL imageURL).files ∧
          f.path ∈ (Process w cast name baseURL imageURL).removed) := by
  rw [remoteFeed_eq w cast name baseURL imageURL feed hf] at hok ⊢
  obtain ⟨published, found, hpub, hmk, hloop, hglob, hprune, hrss, hopml, hout⟩ :=
    processFeed_ok w cast name feed hok
  have hids := reconcileLoop_entryIDs w ("audio/" ++ name) _ feed.Entry hloop
  rw [hids] at hprune hout
  have hkeep := prune_files_eq w name hn _ _ found hglob hprune
  obtain ⟨found2, hglob2, hmem⟩ := Glob_plain w
    (w.ytdlp (ytdlpArgs cast ("audio/" ++ name) feed.Entry.length) w.files) name hn
  rw [hglob] at hglob2
  have hfound : found2 = found := (Except.ok.inj hglob2).symm
  subst hfound
  obtain ⟨-, hrem, hat⟩ := pruneLoop_ok w name hn _ _ _ (fun p hp => ((hmem p).mp hp).1) hprune
  have hremoved : ∀ p, p ∈ found2.filter
        (fun p => decide (fileStem p ∉ feed.Entry.map videoEntry.ID)) ↔
      (∃ f ∈ w.ytdlp (ytdlpArgs cast ("audio/" ++ name) feed.Entry.length) w.files,
          f.path = p) ∧
        matchesM4a ("audio/" ++ name) p = true ∧
        fileStem p ∉ feed.Entry.map videoEntry.ID := by
    intro p
    rw [List.mem_filter, hmem]
    simp only [decide_eq_true_eq]
    constructor
    · rintro ⟨⟨hm, f, hfm, hq⟩, hs⟩
      exact ⟨(hat p ((hmem p).mpr ⟨hm, f, hfm, hq⟩) hs).1, hm, hs⟩
    · rintro ⟨⟨f, hfm, hq⟩, hm, hs⟩
      exact ⟨⟨hm, f, hfm, Or.inl hq⟩, hs⟩
  rw [hout]
  dsimp only
  rw [hkeep, hrem]
  unfold downloaded
  refine ⟨rfl, ?_, hremoved, ?_, ?_⟩
  · rw [List.filter_filter]
    apply List.filter_congr
    intro f _
    cases matchesM4a ("audio/" ++ name) f.path <;> simp
  · intro f hfm _ hs
    rw [List.mem_filter]
    exact ⟨hfm, by simp [hs]⟩
  · intro f hfm hm hs
    refine ⟨?_, (hremoved f.path).mpr ⟨⟨f, hfm, rfl⟩, hm, hs⟩⟩
    rw [List.mem_filter]
    rintro ⟨-, hk⟩
    rw [hm] at hk
    simp only [Bool.not_true, Bool.false_or, decide_eq_true_eq] at hk
    exact hs hk

/-- C1, on the sample run: B.m4a, which the feed does not list, is removed;
A.m4a and the text file stay. -/
theorem prune_leaves_remote_ids_sample :
    plainName "pod" ∧
    remoteFeed sampleWorld sampleCast "pod" "http://host" "" = some sampleFeed ∧
    (Process sampleWorld sampleCast "pod" "http://host" "").err = none ∧
    (Process sampleWorld sampleCast "pod" "http://host" "").files
      = [{ path := "audio/pod/A.m4a", size := 1000 }, { path := "audio/pod/notes.txt", size := 3 }] ∧
    (Process sampleWorld sampleCast "pod" "http://host" "").removed = ["audio/pod/B.m4a"] :=
  ⟨by decide, by decide, by decide,
    ((prune_leaves_remote_ids sampleWorld sampleCast "pod" "http://host" "" sampleFeed
      (by decide) (by decide) (by decide)).1).trans (by decide),
    by decide⟩

/-- C1 fails for a name that filepath.Glob reads as a pattern: for the podcast
p[x]d the run returns nil, leaves the old B.m4a in audio/p[x]d, although the
feed lists A and C only, and removes Z.m4a from the folder audio/pxd. (For the
name po[d Glob returns ErrBadPattern, and so does the run.) -/
theorem glob_reads_name_as_pattern :
    remoteFeed sampleWorldPattern sampleCast "p[x]d" "http://host" "" = some
        { sampleFeed with Name := "p[x]d" } ∧
      (Process sampleWorldPattern sampleCast "p[x]d" "http://host" "").err = none ∧
      (Process sampleWorldPattern sampleCast "p[x]d" "http://host" "").removed
        = ["audio/pxd/Z.m4a"] ∧
      (Process sampleWorldPattern sampleCast "p[x]d" "http://host" "").files
        = [{ path := "audio/p[x]d/B.m4a", size := 500 },
           { path := "audio/p[x]d/A.m4a", size := 1000 }] ∧
      fileStem "audio/p[x]d/B.m4a" = "B" ∧
      (Process sampleWorldPattern sampleCast "po[d" "http://host" "").err
        = some "syntax error in pattern" := by
  decide
/-- C2 fails on a feed whose entry comes with an element Duration: the entry
C has no file on disk, the run returns nil without probing anything, the entry
stays in the sequence with Length 0, name.rss holds no item, but the entry
ends with the duration 12:34:56 its element Duration gave it, not with
none. -/
theorem missing_file_keeps_document_duration :
    stat sampleWorldDuration (downloaded sampleWorldDuration sampleCast "pod" 1)
        (audioFile "pod" "C") = none ∧
      (Process sampleWorldDuration sampleCast "pod" "http://host" "").err = none ∧
      (Process sampleWorldDuration sampleCast "pod" "http://host" "").probed = [] ∧
      (Process sampleWorldDuration sampleCast "pod" "http://host" "").entries.map
          (fun e => (e.ID, e.Length, e.Duration)) = [("C", 0, "12:34:56")] ∧
      (Process sampleWorldDuration sampleCast "pod" "http://host" "").rss.map
          (fun text => decide ("<item>".toList <:+: text.toList)) = some false := by
  refine ⟨by decide, by decide, by decide, by decide, ?_⟩
  set_option maxRecDepth 100000 in decide

/-- C3, for a name that is a plain directory name and videoIds without slash:
after a run of Process that returns nil, a second run on the same feed, with
the same answers of ffprobe and a disk nothing but the pruning of the first
run has changed (yt-dlp downloads nothing more), returns nil as well, ends
with the same sequence of entries and removes no file. The clock may differ. -/
theorem second_run_changes_nothing (w : World) (cast : YouCast)
    (name baseURL imageURL : String) (now2 : Time) (hn : plainName name)
    (hids : ∀ e ∈ remoteEntries w cast name baseURL imageURL, '/' ∉ e.ID.toList)
    (hok : (Process w cast name baseURL imageURL).err = none) :
    (Process { w with
        files := (Process w cast name baseURL imageURL).files,
        ytdlp := fun _ fs => fs, now := now2 } cast name baseURL imageURL).err = none ∧
      (Process { w with
        files := (Process w cast name baseURL imageURL).files,
        ytdlp := fun _ fs => fs, now := now2 } cast name baseURL imageURL).entries
        = (Process w cast name baseURL imageURL).entries ∧
      (Process { w with
        files := (Process w cast name baseURL imageURL).files,
        ytdlp := fun _ fs => fs, now := now2 } cast name baseURL imageURL).removed = [] ∧
      (Process { w with
        files := (Process w cast name baseURL imageURL).files,
        ytdlp := fun _ fs => fs, now := now2 } cast name baseURL imageURL).files
        = (Process w cast name baseURL imageURL).files := by
  obtain ⟨text, feed1, hx, hu, hP⟩ := Process_ok w cast name baseURL imageURL hok
  have hrf : remoteFeed w cast name baseURL imageURL = some feed1 := by
    unfold remoteFeed
    rw [hx]
    simp only [hu]
  have hids1 : ∀ e ∈ feed1.Entry, '/' ∉ e.ID.toList := by
    intro e he
    apply hids e
    unfold remoteEntries
    rw [hrf]
    exact he
  generalize hw2 : ({ w with
        files := (Process w cast name baseURL imageURL).files,
        ytdlp := fun _ fs => fs, now := now2 } : World) = w2
  have e1 : w2.timeParse = w.timeParse := by rw [← hw2]
  have e2 : w2.timeFormat = w.timeFormat := by rw [← hw2]
  have e3 : w2.ffprobe = w.ffprobe := by rw [← hw2]
  have e4 : w2.remove = w.remove := by rw [← hw2]
  have e5 : w2.create = w.create := by rw [← hw2]
  have e6 : w2.mkdirAll = w.mkdirAll := by rw [← hw2]
  have e7 : w2.httpGet = w.httpGet := by rw [← hw2]
  have e8 : w2.outside = w.outside := by rw [← hw2]
  have e9 : w2.readOutside = w.readOutside := by rw [← hw2]
  have hfiles : ∀ args, w2.ytdlp args w2.files = (processFeed w cast name feed1).files := by
    intro args; rw [← hw2, ← hP]
  have hx2 : getXML w2 cast = Except.ok text := by
    unfold getXML at hx ⊢; rw [e7]; exact hx
  have hi : initialFeed w2 name baseURL imageURL
      = { initialFeed w name baseURL imageURL with Build := w2.timeFormat w2.now rssDateFormat } := by
    rfl
  rw [hP] at hok ⊢
  have hagain := processFeed_again w w2 cast name feed1 hn hids1 e1 e2 e3 e4 e5 e6 e8 e9 hok
    (hfiles _)
  rcases Unmarshal_setBuild text (initialFeed w name baseURL imageURL)
      (w2.timeFormat w2.now rssDateFormat) with h | h
  · rw [← hi, hu] at h
    rw [Process_eq w2 cast name baseURL imageURL text feed1 hx2 h]
    exact ⟨hagain.1, hagain.2.1, hagain.2.2.1, hagain.2.2.2.1⟩
  · rw [← hi, hu] at h
    rw [Process_eq w2 cast name baseURL imageURL text _ hx2 h]
    obtain ⟨b1, b2, b3, b4, b5, b6⟩ := processFeed_setBuild w2 cast name feed1
      (w2.timeFormat w2.now rssDateFormat)
    rw [b1, b2, b4, b5]
    exact ⟨hagain.1, hagain.2.1, hagain.2.2.1, hagain.2.2.2.1⟩

/-- C3, on the sample run: the second run, a second later, keeps the two
entries and the two files the first run left, and removes nothing. -/
theorem second_run_changes_nothing_sample :
    plainName "pod" ∧
      (∀ e ∈ remoteEntries sampleWorld sampleCast "pod" "http://host" "", '/' ∉ e.ID.toList) ∧
      (Process sampleWorld sampleCast "pod" "http://host" "").err = none ∧
      (Process sampleWorld sampleCast "pod" "http://host" "").removed = ["audio/pod/B.m4a"] ∧
      (Process { sampleWorld with
          files := (Process sampleWorld sampleCast "pod" "http://host" "").files,
          ytdlp := fun _ fs => fs, now := ⟨1704369601, 0⟩ }
        sampleCast "pod" "http://host" "").removed = [] ∧
      ((Process { sampleWorld with
          files := (Process sampleWorld sampleCast "pod" "http://host" "").files,
          ytdlp := fun _ fs => fs, now := ⟨1704369601, 0⟩ }
        sampleCast "pod" "http://host" "").entries.map
          (fun e => (e.ID, e.Length))) = [("A", 1000), ("C", 0)] :=
  ⟨by decide, by decide, by decide, by decide,
    (second_run_changes_nothing sampleWorld sampleCast "pod" "http://host" ""
      ⟨1704369601, 0⟩ (by decide) (by decide) (by decide)).2.2.1,
    ((congrArg (List.map (fun e => (e.ID, e.Length)))
      (second_run_changes_nothing sampleWorld sampleCast "pod" "http://host" ""
        ⟨1704369601, 0⟩ (by decide) (by decide) (by decide)).2.1).trans (by decide))⟩

/-- C3 fails for a videoId that holds a slash: the feed lists the one entry
/A and A.m4a is on disk. The first run finds the file under audio/pod//A.m4a,
probes it, and then removes audio/pod/A.m4a, whose id A is no key of entryIDs;
the second run, on the disk the first has left, finds no file, so its entry
has Length 0 and no duration. -/
theorem slash_in_videoId_breaks_second_run :
    (Process sampleWorldSlash sampleCast "pod" "http://host" "").err = none ∧
      (Process sampleWorldSlash sampleCast "pod" "http://host" "").entries.map
          (fun e => (e.ID, e.Length)) = [("/A", 1000)] ∧
      (Process sampleWorldSlash sampleCast "pod" "http://host" "").probed
        = ["audio/pod//A.m4a"] ∧
      (Process sampleWorldSlash sampleCast "pod" "http://host" "").removed
        = ["audio/pod/A.m4a"] ∧
      (Process { sampleWorldSlash with
          files := (Process sampleWorldSlash sampleCast "pod" "http://host" "").files,
          ytdlp := fun _ fs => fs }
        sampleCast "pod" "http://host" "").err = none ∧
      (Process { sampleWorldSlash with
          files := (Process sampleWorldSlash sampleCast "pod" "http://host" "").files,
          ytdlp := fun _ fs => fs }
        sampleCast "pod" "http://host" "").entries.map
          (fun e => (e.ID, e.Length, e.Duration)) = [("/A", 0, "")] := by
  decide

/-- C4 as stated fails: two runs on the same feed, files and probe results,
one second apart, both return nil and write different texts to pod.rss. -/
theorem rss_differs_a_second_later :
    (Process sampleWorld sampleCast "pod" "http://host" "").err = none ∧
      (Process sampleWorldLater sampleCast "pod" "http://host" "").err = none ∧
      (Process sampleWorld sampleCast "pod" "http://host" "").rss
        ≠ (Process sampleWorldLater sampleCast "pod" "http://host" "").rss := by
  refine ⟨by decide, by decide, ?_⟩
  set_option maxRecDepth 100000 in decide

/-- C4, as amended: two runs of Process that differ in the clock only return
the same error or nil, leave the same files and entries and write the same
text to name.opml; they write the same text to name.rss when the clock reads
the same once formatted for lastBuildDate. -/
theorem runs_agree_but_for_build_date (w : World) (cast : YouCast)
    (name baseURL imageURL : String) (now2 : Time) :
    (Process { w with now := now2 } cast name baseURL imageURL).opml
        = (Process w cast name baseURL imageURL).opml ∧
      (Process { w with now := now2 } cast name baseURL imageURL).err
        = (Process w cast name baseURL imageURL).err ∧
      (Process { w with now := now2 } cast name baseURL imageURL).entries
        = (Process w cast name baseURL imageURL).entries ∧
      (Process { w with now := now2 } cast name baseURL imageURL).files
        = (Process w cast name baseURL imageURL).files ∧
      (Process { w with now := now2 } cast name baseURL imageURL).removed
        = (Process w cast name baseURL imageURL).removed ∧
      (w.timeFormat now2 rssDateFormat = w.timeFormat w.now rssDateFormat →
        (Process { w with now := now2 } cast name baseURL imageURL).rss
          = (Process w cast name baseURL imageURL).rss) := by
  have hg : getXML { w with now := now2 } cast = getXML w cast := rfl
  have hi : initialFeed { w with now := now2 } name baseURL imageURL
      = { initialFeed w name baseURL imageURL with Build := w.timeFormat now2 rssDateFormat } :=
    rfl
  have hw : ∀ f, processFeed { w with now := now2 } cast name f = processFeed w cast name f :=
    fun f => processFeed_world w _ cast name f rfl rfl rfl rfl rfl rfl rfl rfl rfl rfl
  have hlast : w.timeFormat now2 rssDateFormat = w.timeFormat w.now rssDateFormat →
      (Process { w with now := now2 } cast name baseURL imageURL).rss
        = (Process w cast name baseURL imageURL).rss := by
    intro hb
    have hi2 : initialFeed { w with now := now2 } name baseURL imageURL
        = initialFeed w name baseURL imageURL := by
      rw [hi, hb]; rfl
    unfold Process
    rw [hg, hi2]
    cases getXML w cast with
    | error e => rfl
    | ok text =>
      dsimp only
      cases Unmarshal text (initialFeed w name baseURL imageURL) with
      | error e => rfl
      | ok feed1 => dsimp only; rw [hw]
  refine ⟨?_, ?_, ?_, ?_, ?_, hlast⟩
  all_goals
    unfold Process
    rw [hg, hi]
    cases getXML w cast with
    | error e => rfl
    | ok text =>
      dsimp only
      rcases Unmarshal_setBuild text (initialFeed w name baseURL imageURL)
        (w.timeFormat now2 rssDateFormat) with h | h
      · rw [h]
        cases Unmarshal text (initialFeed w name baseURL imageURL) with
        | error e => rfl
        | ok feed1 => dsimp only; rw [hw]
      · rw [h]
        cases Unmarshal text (initialFeed w name baseURL imageURL) with
        | error e => rfl
        | ok feed1 =>
          dsimp only
          rw [hw]
          obtain ⟨b1, b2, b3, b4, b5, b6⟩ := processFeed_setBuild w cast name feed1
            (w.timeFormat now2 rssDateFormat)
          first | exact b1 | exact b2 | exact b4 | exact b5 | exact b6

/-- C4, as amended, on the sample run: with the clock unchanged the texts of
pod.rss are the same. -/
theorem runs_agree_but_for_build_date_sample :
    (Process { sampleWorld with now := sampleWorld.now } sampleCast "pod" "http://host" "").rss
      = (Process sampleWorld sampleCast "pod" "http://host" "").rss :=
  (runs_agree_but_for_build_date sampleWorld sampleCast "pod" "http://host" ""
    sampleWorld.now).2.2.2.2.2 rfl

/-- C5 as stated fails: A.m4a is on disk with 1000 bytes and a duration of 0
seconds; the run returns nil, the derived duration of both entries is 0
seconds, and name.rss holds the item of A. -/
theorem zero_duration_is_rendered :
    (Process sampleWorldSilent sampleCast "pod" "http://host" "").err = none ∧
      (Process sampleWorldSilent sampleCast "pod" "http://host" "").entries.map
          (fun e => (e.ID, e.Length, derivedSeconds sampleWorldSilent
            (downloaded sampleWorldSilent sampleCast "pod" 2) "pod" e))
        = [("A", 1000, 0), ("C", 0, 0)] ∧
      (Process sampleWorldSilent sampleCast "pod" "http://host" "").rss.map
          (fun text => decide
            ("<item>\n\t\t\t<guid isPermaLink=\"false\">https://www.youtube.com/v/A</guid>".toList
              <:+: text.toList)) = some true := by
  refine ⟨by decide, by decide, ?_⟩
  set_option maxRecDepth 100000 in decide

theorem foldl_append_acc : ∀ (l : List String) (acc : String),
    l.foldl (fun r s => r ++ s) acc = acc ++ l.foldl (fun r s => r ++ s) "" := by
  intro l
  induction l with
  | nil => intro acc; simp
  | cons s l ih =>
    intro acc
    simp only [List.foldl_cons]
    rw [ih (acc ++ s), ih ("" ++ s)]
    simp [String.append_assoc]

theorem join_cons (s : String) (l : List String) :
    String.join (s :: l) = s ++ String.join l := by
  unfold String.join
  simp only [List.foldl_cons]
  rw [foldl_append_acc l ("" ++ s)]
  simp

theorem weave_append (b0 b : String) (bs items : List String) :
    weave ((b0 ++ b) :: bs) items = b0 ++ weave (b :: bs) items := by
  cases items with
  | nil => rfl
  | cons i is => simp only [weave, String.append_assoc]

theorem isBlank_append (a b : String) (ha : isBlank a) (hb : isBlank b) : isBlank (a ++ b) := by
  intro c hc
  rw [toList_append] at hc
  rcases List.mem_append.mp hc with h | h
  · exact ha c h
  · exact hb c h

/-- The bodies of range .Entry, one after the other, are the items of the
entries of Length greater than 0, in their order, with blank space before,
between and after them. -/
theorem rssRange_weave (feed : videoFeed) :
    ∀ es : List videoEntry, ∃ blanks : List String,
      blanks.length = (es.filter (fun e => decide (0 < e.Length))).length + 1 ∧
      (∀ b ∈ blanks, isBlank b) ∧
      String.join (es.map (rssRangeBody feed))
        = weave blanks ((es.filter (fun e => decide (0 < e.Length))).map (rssItem feed)) := by
  intro es
  induction es with
  | nil =>
    refine ⟨[""], rfl, ?_, rfl⟩
    intro b hb c hc
    have : b = "" := by simpa using hb
    subst this
    simp at hc
  | cons e es ih =>
    obtain ⟨blanks, hlen, hblank, hjoin⟩ := ih
    cases blanks with
    | nil => simp at hlen
    | cons b0 bs =>
      have hA : isBlank "\n\t\t\n\t\t" := by unfold isBlank; decide
      have hB : isBlank "\n\t\t\n\t" := by unfold isBlank; decide
      have hb0 : isBlank b0 := hblank b0 (List.mem_cons_self _ _)
      by_cases h : 0 < e.Length
      · refine ⟨"\n\t\t\n\t\t" :: ("\n\t\t\n\t" ++ b0) :: bs, ?_, ?_, ?_⟩
        · simp only [List.filter_cons, h, decide_True, if_true, List.length_cons] at hlen ⊢
          omega
        · intro b hb
          rcases List.mem_cons.mp hb with rfl | hb
          · exact hA
          · rcases List.mem_cons.mp hb with rfl | hb
            · exact isBlank_append _ _ hB hb0
            · exact hblank b (List.mem_cons_of_mem _ hb)
        · simp only [List.map_cons, join_cons, hjoin, List.filter_cons, h, decide_True,
            if_true, weave, weave_append]
          unfold rssRangeBody
          rw [if_pos h]
          apply String.ext
          simp only [String.data_append, List.append_assoc]
          rfl
      · refine ⟨("\n\t\t\n\t" ++ b0) :: bs, ?_, ?_, ?_⟩
        · simp only [List.filter_cons, h, decide_False, Bool.false_eq_true, if_false,
            List.length_cons] at hlen ⊢
          omega
        · intro b hb
          rcases List.mem_cons.mp hb with rfl | hb
          · exact isBlank_append _ _ hB hb0
          · exact hblank b (List.mem_cons_of_mem _ hb)
        · simp only [List.map_cons, join_cons, hjoin, List.filter_cons, h, decide_False,
            Bool.false_eq_true, if_false, weave_append]
          unfold rssRangeBody
          rw [if_neg h]
          apply String.ext
          simp only [String.data_append, List.append_assoc]
          rfl

/-- C5, as amended: in a run of Process that returns nil, the entries rendered
are the remote entries in their order, each with the size of its file as
Length (0 without file). The text of name.rss is the head of the channel, the
items of the entries of Length greater than 0, in the order of the feed, with
blank space before, between and after them, and the end of the document;
entry by entry, it holds the item of the entry between blank space when its
Length is greater than 0 and the blank space alone otherwise. -/
theorem items_are_entries_with_file (w : World) (cast : YouCast)
    (name baseURL imageURL : String) (feed : videoFeed)
    (hf : remoteFeed w cast name baseURL imageURL = some feed)
    (hok : (Process w cast name baseURL imageURL).err = none) :
    ∃ (feed3 : videoFeed) (blanks : List String),
      feed3.Entry = (Process w cast name baseURL imageURL).entries ∧
      feed3.Entry.map videoEntry.ID = feed.Entry.map videoEntry.ID ∧
      (∀ e ∈ feed3.Entry,
        e.Length = (stat w (downloaded w cast name feed.Entry.length)
          (audioFile name e.ID)).getD 0) ∧
      blanks.length = (feed3.Entry.filter (fun e => decide (0 < e.Length))).length + 1 ∧
      (∀ b ∈ blanks, isBlank b) ∧
      (Process w cast name baseURL imageURL).rss
        = some (rssHead feed3 ++
            weave blanks
              ((feed3.Entry.filter (fun e => decide (0 < e.Length))).map (rssItem feed3)) ++
            "\n  </channel>\n</rss>") ∧
      (Process w cast name baseURL imageURL).rss
        = some (rssHead feed3 ++
            String.join (feed3.Entry.map (fun e =>
              if 0 < e.Length then "\n\t\t\n\t\t" ++ rssItem feed3 e ++ "\n\t\t\n\t"
              else "\n\t\t\n\t")) ++
            "\n  </channel>\n</rss>") ∧
      ((feed3.Entry.filter (fun e => decide (0 < e.Length))).map videoEntry.ID).Sublist
        (feed.Entry.map videoEntry.ID) := by
  rw [remoteFeed_eq w cast name baseURL imageURL feed hf] at hok ⊢
  obtain ⟨published, found, hpub, hmk, hloop, hglob, hprune, hrss, hopml, hout⟩ :=
    processFeed_ok w cast name feed hok
  have hidm := reconcileLoop_ids w ("audio/" ++ name)
    (w.ytdlp (ytdlpArgs cast ("audio/" ++ name) feed.Entry.length) w.files) feed.Entry
  have hbody : ∀ (g : videoFeed) (e : videoEntry),
      rssRangeBody g e
        = if 0 < e.Length then "\n\t\t\n\t\t" ++ rssItem g e ++ "\n\t\t\n\t"
          else "\n\t\t\n\t" := by
    intro g e
    unfold rssRangeBody
    by_cases h : 0 < e.Length
    · rw [if_pos h, if_pos h]
      apply String.ext
      simp only [String.data_append, List.append_assoc]
      rfl
    · rw [if_neg h, if_neg h]
      rfl
  obtain ⟨blanks, hlen, hblank, hweave⟩ := rssRange_weave
    { feed with
      Published := published,
      Entry := (reconcileLoop w ("audio/" ++ name)
        (w.ytdlp (ytdlpArgs cast ("audio/" ++ name) feed.Entry.length) w.files)
        feed.Entry).entries }
    (reconcileLoop w ("audio/" ++ name)
      (w.ytdlp (ytdlpArgs cast ("audio/" ++ name) feed.Entry.length) w.files)
      feed.Entry).entries
  refine ⟨{ feed with
      Published := published,
      Entry := (reconcileLoop w ("audio/" ++ name)
        (w.ytdlp (ytdlpArgs cast ("audio/" ++ name) feed.Entry.length) w.files)
        feed.Entry).entries }, blanks, by rw [hout], hidm, ?_, hlen, hblank, ?_, ?_, ?_⟩
  · intro e he
    exact reconcileLoop_length w ("audio/" ++ name) _ feed.Entry hloop e he
  · rw [hout]
    simp only [rssTemplate]
    rw [hweave]
  · rw [hout]
    simp only [rssTemplate]
    congr 4
    exact List.map_congr_left (fun e _ => hbody _ e)
  · rw [← hidm]
    exact (List.filter_sublist _).map _

/-- C5, as amended, on the sample run: of the entries A, with a file of 1000
bytes, and C, without file, the first is rendered. -/
theorem items_are_entries_with_file_sample :
    remoteFeed sampleWorld sampleCast "pod" "http://host" "" = some sampleFeed ∧
      (Process sampleWorld sampleCast "pod" "http://host" "").err = none ∧
      (Process sampleWorld sampleCast "pod" "http://host" "").entries.map
          (fun e => (e.ID, e.Length)) = [("A", 1000), ("C", 0)] ∧
      ∃ (feed3 : videoFeed) (blanks : List String),
        feed3.Entry = (Process sampleWorld sampleCast "pod" "http://host" "").entries ∧
        blanks.length = (feed3.Entry.filter (fun e => decide (0 < e.Length))).length + 1 ∧
        (∀ b ∈ blanks, isBlank b) ∧
        (Process sampleWorld sampleCast "pod" "http://host" "").rss
          = some (rssHead feed3 ++
              weave blanks
                ((feed3.Entry.filter (fun e => decide (0 < e.Length))).map (rssItem feed3)) ++
              "\n  </channel>\n</rss>") := by
  refine ⟨by decide, by decide, by decide, ?_⟩
  obtain ⟨feed3, blanks, h1, -, -, h4, h5, h6, -, -⟩ :=
    items_are_entries_with_file sampleWorld sampleCast "pod" "http://host" "" sampleFeed
      (by decide) (by decide)
  exact ⟨feed3, blanks, h1, h4, h5, h6⟩

/-- C6 as stated fails: the output 3661.4 of ffprobe is not rendered as
01:01:02. -/
theorem probe_3661_4_is_not_3662 : probeDuration "3661.4" ≠ Except.ok "01:01:02" := by
  rw [probeDuration_3661_4]
  decide

/-- C6, as amended: 3661.4 seconds is parsed as 3661400000000 nanoseconds,
rounded by Round(time.Second) to 3661 seconds and rendered as 01:01:01 (to the
nearest second, half a second going up: 3661.5 is rendered as 01:01:02). -/
theorem probe_3661_4_is_3661 :
    ParseDuration "3661.4s" = some 3661400000000 ∧
      durRound 3661400000000 Second = 3661 * Second ∧
      formatDurationHMS (3661 * Second) = "01:01:01" ∧
      probeDuration "3661.4" = Except.ok "01:01:01" ∧
      probeDuration "3661.5" = Except.ok "01:01:02" :=
  ⟨ParseDuration_3661_4, by decide,
    (formatDurationHMS_seconds 3661 (by norm_num)).trans (by decide),
    probeDuration_3661_4, probeDuration_3661_5⟩

/-- C7: for a duration of T whole seconds, 0 ≤ T within the range of a
Duration, formatDurationHMS returns HH:MM:SS with HH = T div 3600 (not reduced
modulo 24), MM = T div 60 mod 60, SS = T mod 60, each in decimal with a leading
zero when below ten. -/
theorem formatDurationHMS_whole_seconds (T : ℕ) (hT : T * 1000000000 ≤ 2 ^ 63 - 1) :
    formatDurationHMS (T * Second) =
      twoDigits (T / 3600) ++ ":" ++ twoDigits (T / 60 % 60) ++ ":" ++ twoDigits (T % 60) :=
  formatDurationHMS_seconds T hT

/-- C7, at 90000 seconds: 25:00:00. -/
theorem formatDurationHMS_90000 :
    90000 * 1000000000 ≤ 2 ^ 63 - 1 ∧ formatDurationHMS (90000 * Second) = "25:00:00" :=
  ⟨by decide, (formatDurationHMS_whole_seconds 90000 (by decide)).trans (by decide)⟩

/-- C8: when time.Parse refuses the date of a remote entry, Process returns an
error, removes no file (the disk is as yt-dlp left it, or untouched) and
creates neither name.rss nor name.opml. -/
theorem bad_entry_date_aborts (w : World) (cast : YouCast) (name baseURL imageURL : String)
    (e : videoEntry) (err : String)
    (he : e ∈ remoteEntries w cast name baseURL imageURL)
    (hd : w.timeParse xmlDateFormat e.Published = Except.error err) :
    (Process w cast name baseURL imageURL).err ≠ none ∧
      (Process w cast name baseURL imageURL).removed = [] ∧
      (Process w cast name baseURL imageURL).rss = none ∧
      (Process w cast name baseURL imageURL).opml = none ∧
      ((Process w cast name baseURL imageURL).files = w.files ∨
        (Process w cast name baseURL imageURL).files
          = downloaded w cast name (remoteEntries w cast name baseURL imageURL).length) := by
  unfold remoteEntries at he ⊢
  cases hf : remoteFeed w cast name baseURL imageURL with
  | none => rw [hf] at he; simp at he
  | some feed =>
    rw [hf] at he
    dsimp only at he ⊢
    rw [remoteFeed_eq w cast name baseURL imageURL feed hf]
    have hdate : ytISODateToRFC822 w e.Published = Except.error err := by
      unfold ytISODateToRFC822; rw [hd]
    have hloop := reconcileLoop_bad_date w ("audio/" ++ name)
      (w.ytdlp (ytdlpArgs cast ("audio/" ++ name) feed.Entry.length) w.files) feed.Entry
      ⟨e, he, err, hdate⟩
    unfold processFeed downloaded
    cases ytISODateToRFC822 w feed.Published with
    | error e1 => simp
    | ok published =>
      dsimp only
      cases w.mkdirAll ("audio/" ++ name) with
      | some e1 => simp
      | none =>
        dsimp only
        cases hl : (reconcileLoop w ("audio/" ++ name)
            (w.ytdlp (ytdlpArgs cast ("audio/" ++ name) feed.Entry.length) w.files)
            feed.Entry).err with
        | none => exact absurd hl hloop
        | some e1 => simp

/-- C8, on a feed whose second entry is dated 3 January 2024. -/
theorem bad_entry_date_aborts_sample :
    sampleBadEntry ∈ remoteEntries sampleWorldBadDate sampleCast "pod" "http://host" "" ∧
      sampleWorldBadDate.timeParse xmlDateFormat sampleBadEntry.Published
        = Except.error "parsing time 3 January 2024" ∧
      (Process sampleWorldBadDate sampleCast "pod" "http://host" "").err
        = some "parsing time 3 January 2024" ∧
      (Process sampleWorldBadDate sampleCast "pod" "http://host" "").rss = none :=
  ⟨by decide, by decide, by decide,
    (bad_entry_date_aborts sampleWorldBadDate sampleCast "pod" "http://host" ""
      sampleBadEntry "parsing time 3 January 2024" (by decide) (by decide)).2.2.1⟩

/-- C9 as stated fails: the feed has no channelId element, and Process returns
nil and creates both output files. -/
theorem missing_channelId_is_accepted :
    (Process sampleWorldNoChannelId sampleCast "pod" "http://host" "").err = none ∧
      (Process sampleWorldNoChannelId sampleCast "pod" "http://host" "").rss.isSome = true ∧
      (Process sampleWorldNoChannelId sampleCast "pod" "http://host" "").opml.isSome = true := by
  decide

theorem getXML_withoutChannelId (w : World) (cast : YouCast) :
    getXML w.withoutChannelId cast =
      match getXML w cast with
      | Except.error err => Except.error err
      | Except.ok text => Except.ok (dropChannelId text) := by
  unfold getXML World.withoutChannelId
  dsimp only
  cases w.httpGet (XMLURL cast) with
  | error e => rfl
  | ok resp =>
    dsimp only
    split_ifs
    · rfl
    · cases resp.body <;> rfl

/-- C9, as amended: a document without channelId is parsed as the same
document with one, with the same error if any, ChannelID staying empty; and
the run of Process is the same in every respect: the error or nil returned,
the files, the entries and the two output documents. -/
theorem channelId_is_not_required (w : World) (cast : YouCast)
    (name baseURL imageURL : String) (text : Body) :
    Unmarshal (dropChannelId text) (initialFeed w name baseURL imageURL)
        = (match Unmarshal text (initialFeed w name baseURL imageURL) with
          | Except.error err => Except.error err
          | Except.ok feed => Except.ok { feed with ChannelID := "" }) ∧
      Process w.withoutChannelId cast name baseURL imageURL
        = Process w cast name baseURL imageURL := by
  refine ⟨Unmarshal_dropChannelId text (initialFeed w name baseURL imageURL), ?_⟩
  have hi : initialFeed w.withoutChannelId name baseURL imageURL
      = initialFeed w name baseURL imageURL := rfl
  have hw : ∀ f, processFeed w.withoutChannelId cast name f = processFeed w cast name f :=
    fun f => processFeed_world w _ cast name f rfl rfl rfl rfl rfl rfl rfl rfl rfl rfl
  unfold Process
  rw [getXML_withoutChannelId, hi]
  cases getXML w cast with
  | error e => rfl
  | ok text =>
    dsimp only
    rw [Unmarshal_dropChannelId]
    cases Unmarshal text (initialFeed w name baseURL imageURL) with
    | error e => rfl
    | ok feed1 =>
      dsimp only
      rw [hw, processFeed_setChannelID]

/-- C10, at a URL of another host: the two dots of the pattern are unescaped
and stand for any character, so New returns a YouCast although the URL does
not contain https://www.youtube.com/channel/. -/
theorem New_accepts_other_host :
    New "https://wwwxyoutube.com/channel/UCabc"
        = Except.ok ⟨"UCabc", "https://wwwxyoutube.com/channel/UCabc"⟩ ∧
      ¬ containsChannelURL "https://wwwxyoutube.com/channel/UCabc" := by
  refine ⟨by decide, ?_⟩
  rintro ⟨pre, c, post, -, h⟩
  have hin : "https://www.youtube.com/channel/".toList
      <:+: "https://wwwxyoutube.com/channel/UCabc".toList := by
    rw [h]
    exact ⟨pre, c :: post, by simp⟩
  revert hin
  decide

end Youcast
